import Mathlib

/-!
# A shallow embedding of `igungor/tl`: the TL (Type Language) lexer and parser

The Go sources `token.go`, `scanner.go`, `ast.go` and `parser.go` are translated
function by function.

* The `bufio.Reader` of a `Scanner` is the list of runes that `ReadRune` still
  has to deliver; a rune is an `Int` (Go's `rune` is `int32`), so that the two
  sentinels `eof = -1` and `notReadYet = -2` are ordinary values.
* `bytes.Buffer.WriteRune` and the conversion `string(rune)` render a rune that
  is not a valid code point (such as `eof`) as U+FFFD.
* `panic` and `log.Fatal` end the process: they are outcomes of their own, next
  to the normal return.
* The `for` loops take a fuel argument; the theorems show the fuel that is
  passed is never used up.
* The tracing of the parser (`Trace`, `indent`, `printTrace`) only prints and is
  left out.
-/

namespace TL

/-! ## Outcomes of a call -/

/-- What `log.Fatal` prints before it exits: parser.go passes either a fixed
text or, from `expect`, the text `expected got: <tok>, want: '<items>'`, kept
here as its two arguments. -/
inductive LogMsg (τ ι : Type) where
  | text (msg : String)
  | expectedGotWant (tok : τ) (items : List ι)
  deriving DecidableEq, Repr

/-- The ways a call on a state `σ` can end: it returns a value, the process
exits in `log.Fatal`, it panics, or the model ran out of fuel. Every case keeps
the state reached. -/
inductive Outcome (μ σ α : Type) where
  | ret (a : α) (st : σ)
  | fatal (msg : μ) (st : σ)
  | panicked (msg : String) (st : σ)
  | outOfFuel (st : σ)
  deriving DecidableEq, Repr

/-- The state in which a call ended. -/
def Outcome.state {μ σ α : Type} : Outcome μ σ α → σ
  | .ret _ st => st
  | .fatal _ st => st
  | .panicked _ st => st
  | .outOfFuel st => st

/-- Sequencing: the continuation runs only after a normal return. -/
def Outcome.andThen {μ σ α β : Type} (o : Outcome μ σ α) (f : α → σ → Outcome μ σ β) :
    Outcome μ σ β :=
  match o with
  | .ret a st => f a st
  | .fatal m st => .fatal m st
  | .panicked m st => .panicked m st
  | .outOfFuel st => .outOfFuel st

/-! ## token.go -/

/-- Item represents a lexical token type. -/
inductive Item where
  | ItemIllegal
  | ItemWhitespace
  | ItemEOF
  | ItemUnderscore
  | ItemColon
  | ItemSemicolon
  | ItemOpenPar
  | ItemClosePar
  | ItemOpenBracket
  | ItemCloseBracket
  | ItemOpenBrace
  | ItemCloseBrace
  | ItemLeftAngle
  | ItemRightAngle
  | ItemTripleMinus
  | ItemEquals
  | ItemHash
  | ItemExclMark
  | ItemQuestionMark
  | ItemPercent
  | ItemPlus
  | ItemComma
  | ItemDot
  | ItemAsterisk
  | ItemNatConst
  | ItemLowerIdent
  | ItemUpperIdent
  | ItemFinal
  | ItemNew
  | ItemEmpty
  deriving DecidableEq, Repr

open Item

set_option linter.dupNamespace false in
/-- Token represents a lexical token. -/
structure Token where
  Token : Item
  Literal : String
  deriving DecidableEq, Repr

/-- Go's `strings.Split(s, sep)` for a one-character separator: the pieces of
`s` between the occurrences of `sep`, one more than there are occurrences. -/
def stringsSplit (sep : Char) : List Char → List (List Char)
  | [] => [[]]
  | c :: cs =>
    if c = sep then [] :: stringsSplit sep cs
    else
      match stringsSplit sep cs with
      | [] => [[c]]
      | f :: fs => (c :: f) :: fs

/-- HasName reports whether the token literal is lc-ident-full. -/
def Token.HasName (t : TL.Token) : Bool :=
  if t.Token ≠ ItemLowerIdent then false
  else
    let fields := stringsSplit '#' t.Literal.data
    if fields.length = 1 ∨ (fields.length = 2 ∧ fields.get? 1 = some []) then false
    else true

/-- HasNamespace reports whether the token literal is lc-ident-ns or
uc-ident-ns. The guard is the source's `!= ... || != ...`. -/
def Token.HasNamespace (t : TL.Token) : Bool :=
  if t.Token ≠ ItemLowerIdent ∨ t.Token ≠ ItemUpperIdent then false
  else
    let fields := stringsSplit '.' t.Literal.data
    if fields.length = 1 ∨ (fields.length = 2 ∧ fields.get? 1 = some []) then false
    else true

/-! ## scanner.go -/

/-- The rune of a character. -/
def rune (c : Char) : Int := (c.toNat : Int)

/-- The sentinel `eof`. -/
def eof : Int := -1

/-- The sentinel `notReadYet`. -/
def notReadYet : Int := -2

/-- The character written for a rune by `WriteRune` and by `string(rune)`:
U+FFFD stands for a rune that is not a valid code point. -/
def runeChar (ch : Int) : Char :=
  if 0 ≤ ch ∧ ch.toNat.isValidChar then Char.ofNat ch.toNat else Char.ofNat 0xFFFD

/-- isLowerLetter reports whether the rune is a lowercase letter. -/
def isLowerLetter (ch : Int) : Bool := decide (rune 'a' ≤ ch) && decide (ch ≤ rune 'z')

/-- isUpperLetter reports whether the rune is a uppercase letter. -/
def isUpperLetter (ch : Int) : Bool := decide (rune 'A' ≤ ch) && decide (ch ≤ rune 'Z')

/-- isLetter reports whether the rune is a letter. -/
def isLetter (ch : Int) : Bool := isLowerLetter ch || isUpperLetter ch

/-- isDigit reports whether the rune is a digit. -/
def isDigit (ch : Int) : Bool := decide (rune '0' ≤ ch) && decide (ch ≤ rune '9')

/-- isHexDigit reports whether the rune is a hex digit. -/
def isHexDigit (ch : Int) : Bool :=
  isDigit ch || (decide (rune 'a' ≤ ch) && decide (ch ≤ rune 'f'))

/-- isIdentChar reports whether the rune is a valid identifier character. -/
def isIdentChar (ch : Int) : Bool := isLetter ch || isDigit ch || decide (ch = rune '_')

/-- isWhitespace reports whether the rune is a valid whitespace separator. -/
def isWhitespace (ch : Int) : Bool :=
  decide (ch = rune ' ') || decide (ch = rune '\t') || decide (ch = rune '\n')

/-- The errors a scanner can hold: `io.EOF`, and the two that scanIdent builds
with `fmt.Errorf`, each with the rune it quotes. -/
inductive ScanError where
  | EOF
  | expectedLetter (got : Int)
  | expectedHexdigit (got : Int)
  deriving DecidableEq, Repr

/-- Scanner implements a TL (Type Language) lexer. -/
structure Scanner where
  r : List Char
  ch : Int
  err : Option ScanError
  deriving DecidableEq, Repr

/-- NewScanner returns a Scanner which tokenizes a TL program. -/
def NewScanner (r : List Char) : Scanner :=
  { r := r, ch := notReadYet, err := none }

/-- The unexported `next`: one `ReadRune`, `eof` when the reader is empty. -/
def Scanner.next (s : Scanner) : Int × Scanner :=
  match s.r with
  | [] => (eof, s)
  | c :: cs => (rune c, { s with r := cs })

/-- Peek returns the next rune in the reader without advancing the scanner. -/
def Scanner.peek (s : Scanner) : Int × Scanner :=
  if s.ch = notReadYet then (s.next.1, { s.next.2 with ch := s.next.1 })
  else (s.ch, s)

/-- Next reads and returns the next rune from the underlying reader. -/
def Scanner.Next (s : Scanner) : Int × Scanner :=
  (s.peek.1, { s.peek.2.next.2 with ch := s.peek.2.next.1 })

/-- Err returns the first non-EOF error that was encountered by the Scanner. -/
def Scanner.Err (s : Scanner) : Option ScanError :=
  if s.err = some ScanError.EOF then none else s.err

/-- The scanner's setErr records the first error encountered. -/
def Scanner.setErr (s : Scanner) (e : ScanError) : Scanner :=
  if s.err = none ∨ s.err = some ScanError.EOF then { s with err := some e } else s

/-- The loop `for cond(s.ch) { buf.WriteRune(s.ch); s.Next() }`. -/
def Scanner.consume (cond : Int → Bool) : Nat → Scanner → List Char → Scanner × List Char
  | 0, s, buf => (s, buf)
  | fuel + 1, s, buf =>
    if cond s.ch then Scanner.consume cond fuel s.Next.2 (buf ++ [runeChar s.ch])
    else (s, buf)

/-- The fuel handed to a loop: more than the runes left to read. -/
def Scanner.fuel (s : Scanner) : Nat := s.r.length + 2

/-- The function scanTripleMinus consumes triple-minus separator. -/
def Scanner.scanTripleMinus (s : Scanner) : Token × Scanner :=
  let minus1 := s.Next.1
  let minus2 := s.Next.2.Next.1
  if minus1 = rune '-' ∧ minus2 = rune '-' then (⟨ItemTripleMinus, "---"⟩, s.Next.2.Next.2)
  else (⟨ItemIllegal, String.mk ['-', runeChar minus1, runeChar minus2]⟩, s.Next.2.Next.2)

/-- The function scanWhitespace consumes the current rune and all contiguous
whitespaces. -/
def Scanner.scanWhitespace (s : Scanner) : Token × Scanner :=
  let r := Scanner.consume isWhitespace s.fuel s []
  (⟨ItemWhitespace, String.mk r.2⟩, r.1)

/-- The function scanNumber consumes a number. -/
def Scanner.scanNumber (s : Scanner) : Token × Scanner :=
  let r := Scanner.consume isDigit s.fuel s []
  (⟨ItemNatConst, String.mk r.2⟩, r.1)

/-- One round of the loop of scanIdent that expects 8 hex-digits, up to the
write: `s.Next(); if !isHexDigit(s.ch) { s.setErr(...) }`. -/
def Scanner.hexStep (s : Scanner) : Scanner :=
  if !isHexDigit s.Next.2.ch then s.Next.2.setErr (.expectedHexdigit s.Next.2.ch)
  else s.Next.2

/-- The loop `for i := 0; i < 8; i++` of scanIdent that expects 8 hex-digits;
the argument counts the rounds still to run. -/
def Scanner.hexLoop : Nat → Scanner → List Char → Scanner × List Char
  | 0, s, buf => (s, buf)
  | n + 1, s, buf => Scanner.hexLoop n s.hexStep (buf ++ [runeChar s.hexStep.ch])

/-- The end of scanIdent, from the comment `lc-ident-full` on: the signature,
if a `#` follows, and the LowerIdent token. -/
def Scanner.scanIdentFull (s : Scanner) (buf : List Char) : Token × Scanner :=
  if s.ch = rune '#' then
    let r := Scanner.hexLoop 8 s (buf ++ [runeChar s.ch])
    (⟨ItemLowerIdent, String.mk r.2⟩, r.1.Next.2)
  else (⟨ItemLowerIdent, String.mk buf⟩, s)

/-- The `switch buf.String()` of scanIdent over the reserved words. -/
def upperItem (lit : String) : Item :=
  if lit = "New" then ItemNew
  else if lit = "Empty" then ItemEmpty
  else if lit = "Final" then ItemFinal
  else ItemUpperIdent

/-- The function scanIdent consumes an identifier-like token. -/
def Scanner.scanIdent (s : Scanner) : Token × Scanner :=
  if isUpperLetter s.ch then
    -- handle uppercase case
    let r := Scanner.consume isIdentChar s.fuel s []
    (⟨upperItem (String.mk r.2), String.mk r.2⟩, r.1)
  else
    -- handle lowercase case: consume all ident-chars
    let r1 := Scanner.consume isIdentChar s.fuel s []
    -- handle namespace
    if r1.1.ch = rune '.' then
      let buf2 := r1.2 ++ [runeChar r1.1.ch]
      let s2 := r1.1.Next.2
      if isUpperLetter s2.ch then
        -- uc-ident-ns
        let r3 := Scanner.consume isIdentChar s2.fuel s2 buf2
        (⟨ItemUpperIdent, String.mk r3.2⟩, r3.1)
      else if isLowerLetter s2.ch then
        -- lc-ident-ns
        let r3 := Scanner.consume isIdentChar s2.fuel s2 buf2
        Scanner.scanIdentFull r3.1 r3.2
      else Scanner.scanIdentFull (s2.setErr (.expectedLetter s2.ch)) buf2
    else Scanner.scanIdentFull r1.1 r1.2

/-- The bytes that `ReadBytes('\n')` leaves in the reader: what follows the
first newline. -/
def dropLine : List Char → List Char
  | [] => []
  | c :: cs => if c = '\n' then cs else dropLine cs

/-- The token kind of the `switch ch` in Scan for the one-character tokens;
`ItemIllegal` is its default case. -/
def punctItem (ch : Int) : Item :=
  if ch = rune '#' then ItemHash
  else if ch = rune '.' then ItemDot
  else if ch = rune ',' then ItemComma
  else if ch = rune ':' then ItemColon
  else if ch = rune ';' then ItemSemicolon
  else if ch = rune '_' then ItemUnderscore
  else if ch = rune '=' then ItemEquals
  else if ch = rune '%' then ItemPercent
  else if ch = rune '?' then ItemQuestionMark
  else if ch = rune '!' then ItemExclMark
  else if ch = rune '*' then ItemAsterisk
  else if ch = rune '+' then ItemPlus
  else if ch = rune '(' then ItemOpenPar
  else if ch = rune ')' then ItemClosePar
  else if ch = rune '{' then ItemOpenBrace
  else if ch = rune '}' then ItemCloseBrace
  else if ch = rune '[' then ItemOpenBracket
  else if ch = rune ']' then ItemCloseBracket
  else if ch = rune '<' then ItemLeftAngle
  else if ch = rune '>' then ItemRightAngle
  else ItemIllegal

/-- The default case of the outer `switch` of Scan, entered after
`ch := s.Next()` with that `ch` and the scanner after it. The case `'/'` of the
source returns nothing: control leaves the switch and reaches
`panic("unreachable")`. -/
def Scanner.scanDefault (s : Scanner) (ch : Int) : Outcome Empty Scanner Token :=
  if ch = eof then .ret ⟨ItemEOF, ""⟩ s
  else if ch = rune '/' then
    .panicked "unreachable" (if s.ch = rune '/' then { s with r := dropLine s.r } else s)
  else if ch = rune '-' then .ret s.scanTripleMinus.1 s.scanTripleMinus.2
  else .ret ⟨punctItem ch, String.singleton (runeChar ch)⟩ s

/-- Scan returns the next token from the underlying reader. -/
def Scanner.Scan (s : Scanner) : Outcome Empty Scanner Token :=
  let ch := s.peek.1
  let s0 := s.peek.2
  if isWhitespace ch then .ret s0.scanWhitespace.1 s0.scanWhitespace.2
  else if isLetter ch then .ret s0.scanIdent.1 s0.scanIdent.2
  else if isDigit ch then .ret s0.scanNumber.1 s0.scanNumber.2
  else s0.Next.2.scanDefault s0.Next.1 -- always advance.

/-! ## ast.go -/

/-- The declaration node `ConstrDecl struct{}`. -/
structure ConstrDecl where
  deriving DecidableEq, Repr

/-- The declaration node `FuncDecl struct{}`. -/
structure FuncDecl where
  deriving DecidableEq, Repr

/-- Program represents a TL program. A nil slice is the empty list. -/
structure Program where
  Constructors : List ConstrDecl
  Functions : List FuncDecl
  Types : List ConstrDecl
  deriving DecidableEq, Repr

/-- The node `Ident`. -/
structure Ident where
  Name : Token
  deriving DecidableEq, Repr

/-- The node `CombinatorId`. -/
structure CombinatorId where
  Id : Ident
  deriving DecidableEq, Repr

/-- The node `FullCombinatorId`. -/
structure FullCombinatorId where
  Id : Ident
  deriving DecidableEq, Repr

/-- The node `TypeIdent`. -/
structure TypeIdent where
  Name : String
  deriving DecidableEq, Repr

/-- The node `BoxedTypeIdent`. -/
structure BoxedTypeIdent where
  Name : String
  deriving DecidableEq, Repr

/-- The declaration node `BuiltinCombDecl`. -/
structure BuiltinCombDecl where
  Id : FullCombinatorId
  Result : BoxedTypeIdent
  deriving DecidableEq, Repr

/-- The first rune of a string as `utf8.DecodeRuneInString` returns it:
`utf8.RuneError`, U+FFFD, for the empty string. -/
def firstRune (name : String) : Int :=
  match name.data with
  | [] => 0xFFFD
  | c :: _ => rune c

/-- The constructor NewIdent. The argument `unicodeIsLower` stands for
`unicode.IsLower`, whose table belongs to Go's library. -/
def NewIdent (unicodeIsLower : Int → Bool) (name : String) : Ident :=
  let ch := firstRune name
  if name = "_" then { Name := { Token := ItemUnderscore, Literal := name } }
  else if unicodeIsLower ch then { Name := { Token := ItemLowerIdent, Literal := name } }
  else { Name := { Token := ItemUpperIdent, Literal := name } }

/-! ### hash/crc32 and fmt, as far as computeCRC32 uses them -/

/-- The constant `crc32.IEEE`, the reversed IEEE polynomial. -/
def crc32IEEE : Nat := 0xedb88320

/-- One round of the loop that fills a table entry of hash/crc32:
`if crc&1 == 1 { crc = (crc >> 1) ^ poly } else { crc >>= 1 }`. -/
def crc32Round (crc : Nat) : Nat :=
  if crc &&& 1 = 1 then (crc >>> 1) ^^^ crc32IEEE else crc >>> 1

/-- The entry `crc32.IEEETable[i]`: eight rounds from `i`. -/
def crc32Table (i : Nat) : Nat := crc32Round^[8] i

/-- The function `crc32.Update(crc, IEEETable, p)` on a 32-bit `crc`:
`crc = ^crc; for v in p { crc = tab[byte(crc)^v] ^ (crc >> 8) }; return ^crc`. -/
def crc32Update (crc : Nat) (p : List Nat) : Nat :=
  (p.foldl (fun c v => crc32Table ((c % 256) ^^^ (v % 256)) ^^^ (c >>> 8)) (crc ^^^ 0xffffffff))
    ^^^ 0xffffffff

/-- The bytes `[]byte(s)` of a string: its UTF-8 encoding. -/
def stringBytes (s : String) : List Nat :=
  s.data.flatMap fun c => (String.utf8EncodeChar c).map UInt8.toNat

/-- The text of `fmt.Sprintf("%x", n)` for an unsigned `n`: lowercase
hexadecimal digits, no padding. -/
def fmtHex (n : Nat) : String := String.mk (Nat.toDigits 16 n)

/-- The function computeCRC32 calculates the combinator-name for the given
combinator-description; the second component is the error. `h.Write` of
hash/crc32 returns a nil error. -/
def computeCRC32 (s : String) : String × Option String :=
  let h := crc32Update 0 (stringBytes s)
  let err : Option String := none
  if err ≠ none then ("", err)
  else (fmtHex h, none)

/-! ## parser.go -/

/-- Parser holds the parser's internal state while consuming a given token.
`setErrLog` is a history variable that the source does not have: every error
passed to `setErr`, oldest first. Nothing reads it. -/
structure Parser where
  s : Scanner
  tok : Token
  err : Option String
  setErrLog : List String
  deriving DecidableEq, Repr

/-- The outcomes of the parser's methods. -/
abbrev POutcome (α : Type) : Type := Outcome (LogMsg Token Item) Parser α

/-- NewParser returns a Parser from the given io.Reader; `tok` and `err` hold
their zero values. -/
def NewParser (r : List Char) : Parser :=
  { s := NewScanner r, tok := ⟨ItemIllegal, ""⟩, err := none, setErrLog := [] }

/-- The method `Err`. -/
def Parser.Err (p : Parser) : Option String := p.err

/-- The parser's setErr keeps the error it already has. -/
def Parser.setErr (p : Parser) (e : String) : Parser :=
  if p.err = none then { p with err := some e, setErrLog := p.setErrLog ++ [e] }
  else { p with setErrLog := p.setErrLog ++ [e] }

/-- The loop of `next`: scan until the token is not whitespace. -/
def Parser.nextLoop : Nat → Parser → POutcome Unit
  | 0, p => .outOfFuel p
  | fuel + 1, p =>
    match p.s.Scan with
    | .ret tok s1 =>
      if tok.Token ≠ ItemWhitespace then .ret () { p with s := s1, tok := tok }
      else Parser.nextLoop fuel { p with s := s1, tok := tok }
    | .fatal m _ => m.elim
    | .panicked m s1 => .panicked m { p with s := s1 }
    | .outOfFuel s1 => .outOfFuel { p with s := s1 }

/-- The method next advances to the next non-whitespace token. -/
def Parser.next (p : Parser) : POutcome Unit := Parser.nextLoop p.s.fuel p

/-- The method `error` is `log.Fatal(msg)`. -/
def Parser.error {α : Type} (p : Parser) (msg : LogMsg Token Item) : POutcome α :=
  .fatal msg p

/-- The loop of `expect` over the items, with the counter `errc`. -/
def expectErrc (tok : Item) : List Item → Nat → Nat
  | [], errc => errc
  | item :: rest, errc => if tok = item then 0 else expectErrc tok rest (errc + 1)

/-- The method expect checks if the current token is in the given items list,
then advances to the next non-whitespace token. -/
def Parser.expect (p : Parser) (items : List Item) : POutcome Unit :=
  let errc := expectErrc p.tok.Token items 0
  if errc ≠ 0 then p.error (.expectedGotWant p.tok (items.take errc))
  else p.next

/-- The method `expectSemi`. -/
def Parser.expectSemi (p : Parser) : POutcome Unit :=
  (if p.tok.Token ≠ ItemSemicolon then p.setErr "expected semicolon" else p).next

/-- The method parseTypeIdent consumes a type-ident. -/
def Parser.parseTypeIdent (p : Parser) : POutcome TypeIdent :=
  let tok := p.tok
  if tok.Token = ItemLowerIdent ∧ tok.HasName = true then
    p.error (.text "got lc-ident-full, expected lc-ident-ns")
  else
    (p.expect [ItemUpperIdent, ItemLowerIdent, ItemHash]).andThen fun _ p1 =>
      .ret ⟨tok.Literal⟩ p1

/-- The method parseBoxedTypeIdent consumes a boxed-type-ident. -/
def Parser.parseBoxedTypeIdent (p : Parser) : POutcome BoxedTypeIdent :=
  let name := p.tok.Literal
  (p.expect [ItemUpperIdent]).andThen fun _ p1 => .ret ⟨name⟩ p1

/-- The method parseCombinatorId consumes a combinator-id. -/
def Parser.parseCombinatorId (p : Parser) : POutcome CombinatorId :=
  let tok := p.tok
  (p.expect [ItemLowerIdent, ItemUnderscore]).andThen fun _ p1 => .ret ⟨⟨tok⟩⟩ p1

/-- The method parseFullCombinatorId consumes a full-combinator-id. -/
def Parser.parseFullCombinatorId (p : Parser) : POutcome FullCombinatorId :=
  let tok := p.tok
  (p.expect [ItemLowerIdent, ItemUnderscore]).andThen fun _ p1 => .ret ⟨⟨tok⟩⟩ p1

/-- The method parseBuiltinCombinatorDecl consumes a builtin combinator
declaration. -/
def Parser.parseBuiltinCombinatorDecl (p : Parser) : POutcome BuiltinCombDecl :=
  p.parseFullCombinatorId.andThen fun id p1 =>
  (p1.expect [ItemQuestionMark]).andThen fun _ p2 =>
  (p2.expect [ItemEquals]).andThen fun _ p3 =>
  p3.parseBoxedTypeIdent.andThen fun result p4 =>
  p4.expectSemi.andThen fun _ p5 =>
  .ret ⟨id, result⟩ p5

/-- The method parsePartialAppDecl: in the source its body is `p.next()`. -/
def Parser.parsePartialAppDecl (p : Parser) : POutcome Unit := p.next

/-- The method parseFinalDecl: in the source its body is `p.next()`. -/
def Parser.parseFinalDecl (p : Parser) : POutcome Unit := p.next

/-- The method parseDecl consumes a generic declaration; what the builtin
production returns is dropped, as in the source. -/
def Parser.parseDecl (p : Parser) : POutcome Unit :=
  match p.tok.Token with
  | ItemLowerIdent => p.parseBuiltinCombinatorDecl.andThen fun _ p1 => .ret () p1
  | ItemUpperIdent => p.parsePartialAppDecl
  | ItemNew => p.parseFinalDecl
  | ItemFinal => p.parseFinalDecl
  | ItemEmpty => p.parseFinalDecl
  | _ => .ret () (p.setErr "unexpected token")

/-- The named result `program` of Parse: no statement assigns to it. -/
def Program.zero : Program := { Constructors := [], Functions := [], Types := [] }

/-- The third loop of Parse: types-declarations. -/
def Parser.typesLoop : Nat → Parser → POutcome Program
  | 0, p => .outOfFuel p
  | fuel + 1, p =>
    if p.tok.Token = ItemEOF then .ret Program.zero p
    else
      p.parseDecl.andThen fun _ p1 =>
      p1.expectSemi.andThen fun _ p2 =>
      Parser.typesLoop fuel
        (if p2.tok.Token = ItemTripleMinus then p2.setErr "unexpected separator" else p2)

/-- The second loop of Parse: fun-declarations; `break` goes on with the
third loop. -/
def Parser.funLoop : Nat → Parser → POutcome Program
  | 0, p => .outOfFuel p
  | fuel + 1, p =>
    if p.tok.Token = ItemEOF then .ret Program.zero p
    else
      p.parseDecl.andThen fun _ p1 =>
      p1.expectSemi.andThen fun _ p2 =>
      if p2.tok.Token = ItemTripleMinus then
        if p2.tok.Literal = "types" then Parser.typesLoop fuel p2
        else Parser.funLoop fuel (p2.setErr "expected types separator")
      else Parser.funLoop fuel p2

/-- The first loop of Parse: constr-declarations; `break` goes on with the
second loop. -/
def Parser.constrLoop : Nat → Parser → POutcome Program
  | 0, p => .outOfFuel p
  | fuel + 1, p =>
    if p.tok.Token = ItemEOF then .ret Program.zero p
    else
      p.parseDecl.andThen fun _ p1 =>
      p1.expectSemi.andThen fun _ p2 =>
      if p2.tok.Token = ItemTripleMinus then
        if p2.tok.Literal = "functions" then
          p2.next.andThen fun _ p3 =>
          (p3.expect [ItemTripleMinus]).andThen fun _ p4 =>
          Parser.funLoop fuel p4
        else Parser.constrLoop fuel (p2.setErr "expected functions separator")
      else Parser.constrLoop fuel p2

/-- Parse is the entry-point to the parser. -/
def Parser.Parse (p : Parser) : POutcome Program :=
  p.next.andThen fun _ p1 => Parser.constrLoop p.s.fuel p1

/-! ## Notions used to state the theorems -/

/-- The scanner whose look-ahead holds the first rune of `l`, or `eof` when
`l` is empty, and whose reader holds the rest of `l`: the state of a scanner
that faces the input `l` once its look-ahead is read. -/
def Scanner.atInput (l : List Char) (e : Option ScanError) : Scanner :=
  match l with
  | [] => { r := [], ch := eof, err := e }
  | c :: cs => { r := cs, ch := rune c, err := e }

/-- The grammar's lc-ident: a lowercase letter followed by identifier
characters. -/
def isLcIdent : List Char → Bool
  | [] => false
  | c :: cs => isLowerLetter (rune c) && cs.all fun x => isIdentChar (rune x)

/-- A lower identifier, optionally namespaced: `id` or `ns.id`, both parts
being lc-idents. -/
def isLowerName (name : List Char) : Bool :=
  isLcIdent name ||
    (isLcIdent (name.takeWhile fun c => c != '.') &&
      isLcIdent ((name.dropWhile fun c => c != '.').drop 1))

/-- The eight characters after the `#` are there and are hexadecimal
digits. -/
def isSignature (rest : List Char) : Bool :=
  decide (8 ≤ rest.length) && (rest.take 8).all fun c => isHexDigit (rune c)

/-- The error of a parser is the first one that was passed to setErr. -/
def Parser.ErrIsFirst (p : Parser) : Prop := p.err = p.setErrLog.head?

/-- The scanner `s` faces the input `l`: it is fresh on `l`, or its look-ahead
holds the first rune of `l` and its reader the rest. -/
def Scanner.Faces (s : Scanner) (l : List Char) : Prop :=
  s = NewScanner l ∨ ∃ e, s = Scanner.atInput l e

/-- How a call of Scan on a scanner facing `l` can end: with a token and a
scanner facing a suffix of `l`, which is empty if the token is EOF and shorter
than `l` if it is not; or, at a `/`, in the panic. -/
def ScanEnds (l : List Char) : Outcome Empty Scanner Token → Prop
  | .ret tok s1 =>
    ∃ l1 e1, s1 = Scanner.atInput l1 e1 ∧ l1 <:+ l ∧ (tok.Token = ItemEOF → l1 = []) ∧
      (tok.Token ≠ ItemEOF → l1.length < l.length)
  | .fatal m _ => m.elim
  | .panicked _ _ => '/' ∈ l
  | .outOfFuel _ => False

/-- The parser is ready on the input `l`: the look-ahead of its scanner is
read and faces `l`, and `l` is empty if the look-ahead token is EOF. -/
def Parser.Ready (p : Parser) (l : List Char) : Prop :=
  (∃ e, p.s = Scanner.atInput l e) ∧ (p.tok.Token = ItemEOF → l = [])

/-- What is left to parse, counted: the runes of `l`, and one more for a
look-ahead token that is not EOF. -/
def leftToParse (l : List Char) (tok : Token) : Nat :=
  l.length + (if tok.Token = ItemEOF then 0 else 1)

/-- How a production called on the input `l` can end: it returns with the
parser ready on a suffix of `l` and at most `k` left to parse; or the process
exits in `log.Fatal` from an `expect` whose items do not include the kind of the
look-ahead token; or, when `l` has a `/`, Scan panics. Running out of fuel is
not among them. -/
def Ends {α : Type} (k : Nat) (l : List Char) : POutcome α → Prop
  | .ret _ p1 => ∃ l1, p1.Ready l1 ∧ l1 <:+ l ∧ leftToParse l1 p1.tok ≤ k
  | .fatal m p1 => ∃ items, m = .expectedGotWant p1.tok items ∧ p1.tok.Token ∉ items
  | .panicked _ _ => '/' ∈ l
  | .outOfFuel _ => False

/-- How Parse on the input `l` can end: it returns the empty Program at the end
of the input, with the EOF token as look-ahead; or the process exits in
`log.Fatal` from an `expect` whose items do not include the kind of the
look-ahead token; or, when `l` has a `/`, Scan panics. Running out of fuel is
not among them. -/
def ParseEnds (l : List Char) : POutcome Program → Prop
  | .ret prog p1 => prog = Program.zero ∧ p1.Ready [] ∧ p1.tok.Token = ItemEOF
  | .fatal m p1 => ∃ items, m = .expectedGotWant p1.tok items ∧ p1.tok.Token ∉ items
  | .panicked _ _ => '/' ∈ l
  | .outOfFuel _ => False

/-- The tokens of `n` successive calls of Scan, in the order of the calls. -/
def Scanner.scanN : Nat → Scanner → Outcome Empty Scanner (List Token)
  | 0, s => .ret [] s
  | n + 1, s =>
    s.Scan.andThen fun tok s1 =>
      (Scanner.scanN n s1).andThen fun toks s2 => .ret (tok :: toks) s2

/-- The input `rest` does not go on with a rune that passes the test `cond`:
it is empty or its first rune fails the test. -/
def stopsAt (cond : Int → Bool) : List Char → Bool
  | [] => true
  | y :: _ => !cond (rune y)

/-- The characters of `l` are identifier characters. -/
def allIdentChars (l : List Char) : Bool := l.all fun x => isIdentChar (rune x)

/-- The characters of `l` are whitespace. -/
def allWhitespace (l : List Char) : Bool := l.all fun x => isWhitespace (rune x)

/-- The grammar's uc-ident: an uppercase letter followed by identifier
characters. -/
def isUcIdent : List Char → Bool
  | [] => false
  | c :: cs => isUpperLetter (rune c) && allIdentChars cs

/-- The EOF token. -/
def tokEOF : Token := ⟨ItemEOF, ""⟩

/-- The single-character punctuation marks with their token kinds. -/
def punctuation : List (Char × Item) :=
  [('_', ItemUnderscore), (':', ItemColon), (';', ItemSemicolon), ('(', ItemOpenPar),
    (')', ItemClosePar), ('[', ItemOpenBracket), (']', ItemCloseBracket),
    ('{', ItemOpenBrace), ('}', ItemCloseBrace), ('<', ItemLeftAngle),
    ('>', ItemRightAngle), ('=', ItemEquals), ('#', ItemHash), ('!', ItemExclMark),
    ('?', ItemQuestionMark), ('%', ItemPercent), ('+', ItemPlus), (',', ItemComma),
    ('.', ItemDot), ('*', ItemAsterisk)]

/-- The four shapes of the literal of a lower identifier: `id`, `id.id`,
`id#h` and `id.id#h`, where each `id` is an lc-ident and `h` is eight
hexadecimal digits. -/
def IsLowerLiteral (lit : List Char) : Prop :=
  ∃ name, isLowerName name = true ∧
    (lit = name ∨
      ∃ sig, sig.length = 8 ∧ (∀ c ∈ sig, isHexDigit (rune c) = true) ∧
        lit = name ++ '#' :: sig)

/-- The tokens that parseTypeIdent takes: an upper identifier, a lower
identifier without a signature, or `#`. -/
def isTypeIdentToken (tok : Token) : Bool :=
  decide (tok.Token = ItemUpperIdent) ||
    (decide (tok.Token = ItemLowerIdent) && !tok.HasName) ||
    decide (tok.Token = ItemHash)

/-- The tokens of successive calls of Scan up to and including the first
token of kind EOF; the fuel bounds the number of calls. -/
def Scanner.scanAll : Nat → Scanner → Outcome Empty Scanner (List Token)
  | 0, s => .outOfFuel s
  | n + 1, s =>
    s.Scan.andThen fun tok s1 =>
      if tok.Token = ItemEOF then .ret [tok] s1
      else (Scanner.scanAll n s1).andThen fun toks s2 => .ret (tok :: toks) s2

/-- The literals of the tokens, concatenated in their order. -/
def concatLiterals : List Token → String
  | [] => ""
  | tok :: toks => tok.Literal ++ concatLiterals toks

/-- The next rune of `l` that is not whitespace is `/`: the token that `next`
would advance to starts a comment. -/
def slashAhead (l : List Char) : Bool :=
  decide ((l.dropWhile fun c => isWhitespace (rune c)).head? = some '/')

/-- The value of one lowercase hexadecimal digit. -/
def hexDigitValue (c : Char) : Nat :=
  if isDigit (rune c) then c.toNat - '0'.toNat else c.toNat - 'a'.toNat + 10

/-- The number that a string of hexadecimal digits denotes, most significant
digit first. -/
def hexValue (cs : List Char) : Nat :=
  cs.foldl (fun acc c => 16 * acc + hexDigitValue c) 0

/-! ## Theorems -/

/-! ### `strings.Split` and the two classifiers of token.go -/

theorem stringsSplit_ne_nil (sep : Char) (l : List Char) : stringsSplit sep l ≠ [] := by
  cases l with
  | nil => simp [stringsSplit]
  | cons c cs =>
    unfold stringsSplit
    split
    · simp
    · split <;> simp

theorem stringsSplit_not_mem (sep : Char) (l : List Char) (h : sep ∉ l) :
    stringsSplit sep l = [l] := by
  induction l with
  | nil => rfl
  | cons c cs ih =>
    have hc : c ≠ sep := fun e => h (by simp [e])
    have hcs : sep ∉ cs := fun e => h (by simp [e])
    simp [stringsSplit, hc, ih hcs]

theorem stringsSplit_append (sep : Char) (pre post : List Char) (h : sep ∉ pre) :
    stringsSplit sep (pre ++ sep :: post) = pre :: stringsSplit sep post := by
  induction pre with
  | nil => simp [stringsSplit]
  | cons c cs ih =>
    have hc : c ≠ sep := fun e => h (by simp [e])
    have hcs : sep ∉ cs := fun e => h (by simp [e])
    simp [stringsSplit, hc, ih hcs]

theorem stringsSplit_eq_singleton_nil (sep : Char) (l : List Char) :
    stringsSplit sep l = [[]] ↔ l = [] := by
  constructor
  · intro h
    cases l with
    | nil => rfl
    | cons c cs =>
      exfalso
      unfold stringsSplit at h
      split at h
      · have := stringsSplit_ne_nil sep cs
        simp at h
        exact this h
      · split at h <;> simp at h
  · intro h
    subst h
    rfl

theorem exists_first_occurrence (sep : Char) (l : List Char) (h : sep ∈ l) :
    ∃ pre post, sep ∉ pre ∧ l = pre ++ sep :: post := by
  induction l with
  | nil => simp at h
  | cons c cs ih =>
    by_cases hc : c = sep
    · exact ⟨[], cs, by simp, by simp [hc]⟩
    · have hcs : sep ∈ cs := by
        rcases List.mem_cons.1 h with e | e
        · exact absurd e.symm hc
        · exact e
      obtain ⟨pre, post, hpre, hl⟩ := ih hcs
      refine ⟨c :: pre, post, ?_, by simp [hl]⟩
      simp only [List.mem_cons, not_or]
      exact ⟨fun e => hc e.symm, hpre⟩

/-- What HasName computes on a literal split at its first `#`. -/
theorem HasName_of_split (k : Item) (lit : String) (pre post : List Char)
    (hpre : '#' ∉ pre) (hlit : lit.data = pre ++ '#' :: post) :
    (Token.mk k lit).HasName = (decide (k = ItemLowerIdent) && decide (post ≠ [])) := by
  by_cases hk : k = ItemLowerIdent
  · have hne := stringsSplit_ne_nil '#' post
    have hnil := stringsSplit_eq_singleton_nil '#' post
    simp only [Token.HasName, hk, hlit, stringsSplit_append '#' pre post hpre]
    cases hs : stringsSplit '#' post with
    | nil => exact absurd hs hne
    | cons f fs =>
      rw [hs] at hnil
      cases fs with
      | nil =>
        by_cases hf : f = []
        · subst hf
          have := hnil.1 rfl
          simp [this]
        · have : post ≠ [] := fun e => hf (by
            have := hnil.2 e
            simpa using this)
          simp [hf, this]
      | cons g gs =>
        have : post ≠ [] := fun e => by
          have := hnil.2 e
          simp at this
        simp [this]
  · simp [Token.HasName, hk]

/-- C7 (the code falls short of the claim): HasNamespace answers `false` for
every token, because its guard `t.Token != ItemLowerIdent || t.Token !=
ItemUpperIdent` holds for every kind; so it is `false` on the namespaced
tokens (LowerIdent, `users.user`) and (UpperIdent, `users.User`), for which the
claim and the doc comment of the method promise `true`. -/
theorem HasNamespace_always_false :
    (∀ t : Token, t.HasNamespace = false) ∧
      (Token.mk ItemLowerIdent "users.user").HasNamespace = false ∧
      (Token.mk ItemUpperIdent "users.User").HasNamespace = false ∧
      (Token.mk ItemLowerIdent "user").HasNamespace = false := by
  have h : ∀ t : Token, t.HasNamespace = false := by
    intro t
    unfold Token.HasNamespace
    by_cases hk : t.Token = ItemLowerIdent
    · simp [hk]
    · simp [hk]
  exact ⟨h, h _, h _, h _⟩

/-- C8, refuted as stated: the token (LowerIdent, `user#1234567#`), which Scan
returns on the input `user#1234567#`, has a literal ending in `#`, yet HasName
is `true` on it, where the claim says `false` for a literal ending in `#`. -/
theorem HasName_true_on_literal_ending_in_hash :
    "user#1234567#".data.getLast? = some '#' ∧
      (NewScanner "user#1234567#".toList).Scan =
        .ret (Token.mk ItemLowerIdent "user#1234567#")
          { r := [], ch := eof, err := some (.expectedHexdigit (rune '#')) } ∧
      (Token.mk ItemLowerIdent "user#1234567#").HasName = true := by
  decide

/-- C8, amended: HasName is `true` exactly for a LowerIdent token whose literal
has at least one character after its first `#`; it is `false` for every token
of another kind, for a literal without `#`, and for a literal whose only `#`
is its last character. -/
theorem HasName_iff (t : Token) :
    (t.HasName = true ↔
        t.Token = ItemLowerIdent ∧
          ∃ pre post, '#' ∉ pre ∧ post ≠ [] ∧ t.Literal.data = pre ++ '#' :: post) ∧
      (t.Token ≠ ItemLowerIdent → t.HasName = false) ∧
      ('#' ∉ t.Literal.data → t.HasName = false) ∧
      (∀ pre, '#' ∉ pre → t.Literal.data = pre ++ ['#'] → t.HasName = false) := by
  obtain ⟨k, lit⟩ := t
  refine ⟨?_, ?_, ?_, ?_⟩
  · constructor
    · intro h
      by_cases hk : k = ItemLowerIdent
      · refine ⟨hk, ?_⟩
        by_cases hm : '#' ∈ lit.data
        · obtain ⟨pre, post, hpre, hl⟩ := exists_first_occurrence '#' lit.data hm
          have := HasName_of_split k lit pre post hpre hl
          rw [h] at this
          refine ⟨pre, post, hpre, ?_, hl⟩
          intro e
          simp [e] at this
        · simp [Token.HasName, hk, stringsSplit_not_mem '#' lit.data hm] at h
      · simp [Token.HasName, hk] at h
    · rintro ⟨hk, pre, post, hpre, hpost, hl⟩
      rw [HasName_of_split k lit pre post hpre hl]
      simp only [Token.Token] at hk
      simp [hk, hpost]
  · intro hk
    simp only [Token.Token] at hk
    simp [Token.HasName, hk]
  · intro hm
    by_cases hk : k = ItemLowerIdent
    · simp [Token.HasName, hk, stringsSplit_not_mem '#' lit.data hm]
    · simp [Token.HasName, hk]
  · intro pre hpre hl
    rw [HasName_of_split k lit pre [] hpre hl]
    simp

/-! ### computeCRC32 -/

theorem shiftRight_le_self (c k : Nat) : c >>> k ≤ c := by
  rw [Nat.shiftRight_eq_div_pow]
  exact Nat.div_le_self c (2 ^ k)

theorem crc32Round_lt (c : Nat) (h : c < 2 ^ 32) : crc32Round c < 2 ^ 32 := by
  have h1 : c >>> 1 < 2 ^ 32 := lt_of_le_of_lt (shiftRight_le_self c 1) h
  unfold crc32Round
  split
  · exact Nat.xor_lt_two_pow h1 (by decide)
  · exact h1

theorem crc32Table_lt (i : Nat) (h : i < 2 ^ 32) : crc32Table i < 2 ^ 32 := by
  unfold crc32Table
  have : ∀ n : Nat, crc32Round^[n] i < 2 ^ 32 := by
    intro n
    induction n with
    | zero => simpa using h
    | succ n ih =>
      rw [Function.iterate_succ_apply']
      exact crc32Round_lt _ ih
  exact this 8

theorem crc32Update_lt (crc : Nat) (p : List Nat) (h : crc < 2 ^ 32) :
    crc32Update crc p < 2 ^ 32 := by
  unfold crc32Update
  refine Nat.xor_lt_two_pow ?_ (by decide)
  have h0 : crc ^^^ 0xffffffff < 2 ^ 32 := Nat.xor_lt_two_pow h (by decide)
  generalize crc ^^^ 0xffffffff = c0 at h0
  induction p generalizing c0 with
  | nil => simpa using h0
  | cons v vs ih =>
    rw [List.foldl_cons]
    apply ih
    refine Nat.xor_lt_two_pow (crc32Table_lt _ ?_) (lt_of_le_of_lt (shiftRight_le_self c0 8) h0)
    have h1 : c0 % 256 < 2 ^ 8 := Nat.mod_lt _ (by decide)
    have h2 : v % 256 < 2 ^ 8 := Nat.mod_lt _ (by decide)
    exact lt_trans (Nat.xor_lt_two_pow h1 h2) (by decide)

theorem toDigitsCore_eq_append (b : Nat) (f : Nat) :
    ∀ (n : Nat) (ds : List Char),
      Nat.toDigitsCore b f n ds = Nat.toDigitsCore b f n [] ++ ds := by
  induction f with
  | zero => intro n ds; simp [Nat.toDigitsCore]
  | succ f ih =>
    intro n ds
    simp only [Nat.toDigitsCore]
    split
    · simp
    · rw [ih (n / b) (Nat.digitChar (n % b) :: ds), ih (n / b) [Nat.digitChar (n % b)]]
      simp

theorem toDigitsCore_ne_nil (b f n : Nat) (hf : 0 < f) : Nat.toDigitsCore b f n [] ≠ [] := by
  obtain ⟨g, rfl⟩ : ∃ g, f = g + 1 := ⟨f - 1, by omega⟩
  simp only [Nat.toDigitsCore]
  split
  · simp
  · rw [toDigitsCore_eq_append]
    simp

theorem hexDigitValue_digitChar (k : Nat) (h : k < 16) :
    hexDigitValue (Nat.digitChar k) = k ∧ isHexDigit (rune (Nat.digitChar k)) = true ∧
      (k ≠ 0 → Nat.digitChar k ≠ '0') := by
  interval_cases k <;> decide

theorem hexValue_append_singleton (cs : List Char) (c : Char) :
    hexValue (cs ++ [c]) = 16 * hexValue cs + hexDigitValue c := by
  simp [hexValue, List.foldl_append]

/-- The digits that `%x` prints: they read back as the number, they are
lowercase hexadecimal digits, and the first is not `0` unless the number is. -/
theorem toDigitsCore_hex (f : Nat) :
    ∀ n : Nat, n < f →
      hexValue (Nat.toDigitsCore 16 f n []) = n ∧
        (∀ c ∈ Nat.toDigitsCore 16 f n [], isHexDigit (rune c) = true) ∧
        (n ≠ 0 → (Nat.toDigitsCore 16 f n []).head? ≠ some '0') := by
  induction f with
  | zero => intro n h; omega
  | succ f ih =>
    intro n hn
    have hd := hexDigitValue_digitChar (n % 16) (Nat.mod_lt _ (by decide))
    simp only [Nat.toDigitsCore]
    by_cases h0 : n / 16 = 0
    · have hlt : n < 16 := (Nat.div_eq_zero_iff (by decide)).1 h0
      have hmod : n % 16 = n := Nat.mod_eq_of_lt hlt
      rw [if_pos h0]
      rw [hmod] at hd ⊢
      refine ⟨?_, ?_, ?_⟩
      · simp [hexValue, hd.1]
      · intro c hc
        simp only [List.mem_singleton] at hc
        subst hc
        exact hd.2.1
      · intro hne
        simp only [List.head?_cons, ne_eq, Option.some.injEq]
        exact hd.2.2 hne
    · rw [if_neg h0, toDigitsCore_eq_append]
      have hlt : n / 16 < f := by
        have : n / 16 < n := Nat.div_lt_self (by
          rcases Nat.eq_zero_or_pos n with h | h
          · subst h; simp at h0
          · exact h) (by decide)
        omega
      obtain ⟨ih1, ih2, ih3⟩ := ih (n / 16) hlt
      refine ⟨?_, ?_, ?_⟩
      · rw [hexValue_append_singleton, ih1, hd.1]
        exact Nat.div_add_mod n 16
      · intro c hc
        rcases List.mem_append.1 hc with hc | hc
        · exact ih2 c hc
        · simp only [List.mem_singleton] at hc
          subst hc
          exact hd.2.1
      · intro _
        have hne := toDigitsCore_ne_nil 16 f (n / 16) (by omega)
        cases hx : Nat.toDigitsCore 16 f (n / 16) [] with
        | nil => exact absurd hx hne
        | cons x xs =>
          rw [hx] at ih3
          simpa using ih3 h0

set_option maxRecDepth 100000 in
/-- The model of hash/crc32 gives the check value of CRC-32/IEEE on
`123456789`, and the identity `a8509bda` of `int ? = Int`. -/
theorem crc32_check_values :
    crc32Update 0 (stringBytes "123456789") = 0xcbf43926 ∧
      crc32Update 0 (stringBytes "int ? = Int") = 0xa8509bda := by
  decide

set_option maxRecDepth 100000 in
/-- C9, refuted as stated: for the empty string the checksum is 0 and
computeCRC32 returns the one digit `0`, not the eight digits `00000000`. -/
theorem computeCRC32_empty_is_one_digit :
    computeCRC32 "" = ("0", none) ∧ (computeCRC32 "").1.length ≠ 8 := by
  decide

/-- C9, amended: for every string `s`, computeCRC32 returns, with a nil error,
the CRC-32 (IEEE) checksum of the bytes of `s` written in lowercase hexadecimal
without padding: between 1 and 8 digits that read back as the checksum, with
no leading `0` unless the checksum is 0 and the text is `0`. -/
theorem computeCRC32_hex (s : String) :
    (computeCRC32 s).2 = none ∧
      1 ≤ (computeCRC32 s).1.length ∧ (computeCRC32 s).1.length ≤ 8 ∧
      (∀ c ∈ (computeCRC32 s).1.data, isHexDigit (rune c) = true) ∧
      hexValue (computeCRC32 s).1.data = crc32Update 0 (stringBytes s) ∧
      ((computeCRC32 s).1 = "0" ∨ (computeCRC32 s).1.data.head? ≠ some '0') := by
  have hlt : crc32Update 0 (stringBytes s) < 2 ^ 32 := crc32Update_lt 0 _ (by decide)
  have hout : computeCRC32 s =
      (String.mk (Nat.toDigitsCore 16 (crc32Update 0 (stringBytes s) + 1)
        (crc32Update 0 (stringBytes s)) []), none) := by
    simp [computeCRC32, fmtHex, Nat.toDigits]
  rw [hout]
  generalize crc32Update 0 (stringBytes s) = n at hlt
  obtain ⟨h1, h2, h3⟩ := toDigitsCore_hex (n + 1) n (by omega)
  have hne := toDigitsCore_ne_nil 16 (n + 1) n (by omega)
  have hlen := Nat.toDigitsCore_length 16 (by decide) (n + 1) n 8 (by
    have : (16 : Nat) ^ 8 = 2 ^ 32 := by norm_num
    omega) (by decide)
  refine ⟨rfl, ?_, hlen, h2, h1, ?_⟩
  · show 1 ≤ (Nat.toDigitsCore 16 (n + 1) n []).length
    exact List.length_pos.2 hne
  · by_cases hn : n = 0
    · left
      subst hn
      rfl
    · right
      exact h3 hn

/-! ### Runes and character classes -/

theorem rune_nonneg (c : Char) : 0 ≤ rune c := Int.ofNat_nonneg _

theorem rune_ne_notReadYet (c : Char) : rune c ≠ notReadYet := by
  have := rune_nonneg c
  unfold notReadYet
  omega

theorem rune_ne_eof (c : Char) : rune c ≠ eof := by
  have := rune_nonneg c
  unfold eof
  omega

theorem rune_injective {c d : Char} (h : rune c = rune d) : c = d := by
  unfold rune at h
  have h1 : c.toNat = d.toNat := by exact_mod_cast h
  have := congrArg Char.ofNat h1
  simpa [Char.ofNat_toNat] using this

theorem runeChar_rune (c : Char) : runeChar (rune c) = c := by
  unfold runeChar rune
  have h : (c.toNat : Int).toNat = c.toNat := Int.toNat_natCast _
  rw [h]
  have hv : c.toNat.isValidChar := c.valid
  simp [hv, Char.ofNat_toNat]

theorem isLowerLetter_iff (x : Int) : isLowerLetter x = true ↔ 97 ≤ x ∧ x ≤ 122 := by
  have h1 : rune 'a' = 97 := by decide
  have h2 : rune 'z' = 122 := by decide
  simp [isLowerLetter, h1, h2]

theorem isUpperLetter_iff (x : Int) : isUpperLetter x = true ↔ 65 ≤ x ∧ x ≤ 90 := by
  have h1 : rune 'A' = 65 := by decide
  have h2 : rune 'Z' = 90 := by decide
  simp [isUpperLetter, h1, h2]

theorem isDigit_iff (x : Int) : isDigit x = true ↔ 48 ≤ x ∧ x ≤ 57 := by
  have h1 : rune '0' = 48 := by decide
  have h2 : rune '9' = 57 := by decide
  simp [isDigit, h1, h2]

theorem isLetter_iff (x : Int) :
    isLetter x = true ↔ (97 ≤ x ∧ x ≤ 122) ∨ (65 ≤ x ∧ x ≤ 90) := by
  simp [isLetter, isLowerLetter_iff, isUpperLetter_iff]

theorem isHexDigit_iff (x : Int) :
    isHexDigit x = true ↔ (48 ≤ x ∧ x ≤ 57) ∨ (97 ≤ x ∧ x ≤ 102) := by
  have h1 : rune 'a' = 97 := by decide
  have h2 : rune 'f' = 102 := by decide
  simp [isHexDigit, isDigit_iff, h1, h2]

theorem isIdentChar_iff (x : Int) :
    isIdentChar x = true ↔
      (97 ≤ x ∧ x ≤ 122) ∨ (65 ≤ x ∧ x ≤ 90) ∨ (48 ≤ x ∧ x ≤ 57) ∨ x = 95 := by
  have h1 : rune '_' = 95 := by decide
  simp [isIdentChar, isLetter_iff, isDigit_iff, h1, or_assoc]

theorem isWhitespace_iff (x : Int) : isWhitespace x = true ↔ x = 32 ∨ x = 9 ∨ x = 10 := by
  have h1 : rune ' ' = 32 := by decide
  have h2 : rune '\t' = 9 := by decide
  have h3 : rune '\n' = 10 := by decide
  simp [isWhitespace, h1, h2, h3, or_assoc]

/-! ### The look-ahead -/

theorem atInput_ch_ne_notReadYet (l : List Char) (e : Option ScanError) :
    (Scanner.atInput l e).ch ≠ notReadYet := by
  cases l with
  | nil => simp [Scanner.atInput, eof, notReadYet]
  | cons c cs => exact rune_ne_notReadYet c

theorem peek_of_read (s : Scanner) (h : s.ch ≠ notReadYet) : s.peek = (s.ch, s) := by
  simp [Scanner.peek, h]

theorem next_eq (s : Scanner) :
    ({ s.next.2 with ch := s.next.1 } : Scanner) = Scanner.atInput s.r s.err := by
  obtain ⟨r, ch, err⟩ := s
  cases r <;> rfl

theorem Next_of_read (s : Scanner) (h : s.ch ≠ notReadYet) :
    s.Next = (s.ch, Scanner.atInput s.r s.err) := by
  simp only [Scanner.Next, peek_of_read s h, next_eq]

theorem peek_NewScanner (l : List Char) :
    (NewScanner l).peek = ((Scanner.atInput l none).ch, Scanner.atInput l none) := by
  cases l <;> simp [NewScanner, Scanner.peek, Scanner.next, Scanner.atInput]

theorem Scan_NewScanner (l : List Char) :
    (NewScanner l).Scan = (Scanner.atInput l none).Scan := by
  unfold Scanner.Scan
  rw [peek_NewScanner, peek_of_read _ (atInput_ch_ne_notReadYet l none)]

theorem atInput_r (l : List Char) (e : Option ScanError) : (Scanner.atInput l e).r = l.tail := by
  cases l <;> rfl

theorem atInput_err (l : List Char) (e : Option ScanError) : (Scanner.atInput l e).err = e := by
  cases l <;> rfl

theorem Next_atInput (l : List Char) (e : Option ScanError) :
    (Scanner.atInput l e).Next = ((Scanner.atInput l e).ch, Scanner.atInput l.tail e) := by
  rw [Next_of_read _ (atInput_ch_ne_notReadYet l e), atInput_r, atInput_err]

/-- A loop of the scanner over a run of runes that pass its test, followed by
one that does not: the run goes to the buffer and the look-ahead stops behind
it. -/
theorem consume_run (cond : Int → Bool) (e : Option ScanError) (rest : List Char)
    (hstop : cond (Scanner.atInput rest e).ch = false) :
    ∀ (run : List Char) (fuel : Nat) (buf : List Char),
      (∀ x ∈ run, cond (rune x) = true) → run.length < fuel →
        Scanner.consume cond fuel (Scanner.atInput (run ++ rest) e) buf =
          (Scanner.atInput rest e, buf ++ run) := by
  intro run
  induction run with
  | nil =>
    intro fuel buf _ hf
    obtain ⟨f, rfl⟩ : ∃ f, fuel = f + 1 := ⟨fuel - 1, by simp at hf; omega⟩
    simp [Scanner.consume, hstop]
  | cons x xs ih =>
    intro fuel buf hrun hf
    obtain ⟨f, rfl⟩ : ∃ f, fuel = f + 1 := ⟨fuel - 1, by simp at hf; omega⟩
    have hx : cond (rune x) = true := hrun x (by simp)
    have hxs : ∀ y ∈ xs, cond (rune y) = true := fun y hy => hrun y (by simp [hy])
    have hch : (Scanner.atInput (x :: xs ++ rest) e).ch = rune x := rfl
    rw [Scanner.consume, hch, if_pos hx, Next_atInput, runeChar_rune]
    simp only [List.cons_append, List.tail_cons]
    rw [ih f (buf ++ [x]) hxs (by simp at hf; omega)]
    simp

theorem atInput_fuel (run rest : List Char) (e : Option ScanError) :
    run.length < (Scanner.atInput (run ++ rest) e).fuel := by
  cases run with
  | nil => simp [Scanner.fuel]
  | cons x xs => simp [Scanner.fuel, Scanner.atInput]; omega

/-- The fuel of a scanner loop is enough: with more fuel than runes left, the
loop stops because its test fails on the look-ahead, as in the source. -/
theorem consume_exits (cond : Int → Bool) (hcond : cond eof = false)
    (e : Option ScanError) (fuel : Nat) :
    ∀ (l buf : List Char), l.length < fuel →
      cond (Scanner.consume cond fuel (Scanner.atInput l e) buf).1.ch = false := by
  induction fuel with
  | zero => intro l buf h; omega
  | succ n ih =>
    intro l buf h
    rw [Scanner.consume]
    split
    · rename_i hc
      rw [Next_atInput]
      cases l with
      | nil => rw [show (Scanner.atInput [] e).ch = eof from rfl, hcond] at hc; cases hc
      | cons c cs =>
        simp only [List.length_cons] at h
        exact ih cs _ (by omega)
    · rename_i hc
      simpa using hc

/-- The three tests that drive a scanner loop fail at the end of the input. -/
theorem loop_tests_fail_at_eof :
    isIdentChar eof = false ∧ isWhitespace eof = false ∧ isDigit eof = false := by
  decide

/-! ### The signature of a full identifier -/

theorem setErr_Err_hex (s : Scanner) (x : Int) :
    (s.setErr (.expectedHexdigit x)).Err ≠ none := by
  unfold Scanner.setErr Scanner.Err
  split_ifs <;> simp_all

theorem setErr_r (s : Scanner) (e : ScanError) : (s.setErr e).r = s.r := by
  unfold Scanner.setErr
  split <;> rfl

theorem setErr_ch (s : Scanner) (e : ScanError) : (s.setErr e).ch = s.ch := by
  unfold Scanner.setErr
  split <;> rfl

theorem hexStep_r (s : Scanner) (h : s.ch ≠ notReadYet) : s.hexStep.r = s.r.tail := by
  unfold Scanner.hexStep
  rw [Next_of_read s h]
  split <;> simp [setErr_r, atInput_r]

theorem hexStep_ch (s : Scanner) (h : s.ch ≠ notReadYet) :
    s.hexStep.ch = (Scanner.atInput s.r s.err).ch := by
  unfold Scanner.hexStep
  rw [Next_of_read s h]
  split <;> simp [setErr_ch]

theorem hexStep_ch_ne (s : Scanner) (h : s.ch ≠ notReadYet) : s.hexStep.ch ≠ notReadYet := by
  rw [hexStep_ch s h]
  exact atInput_ch_ne_notReadYet _ _

/-- One round on a hex digit keeps the error. -/
theorem hexStep_err_of_hex (s : Scanner) (h : s.ch ≠ notReadYet) (c : Char) (cs : List Char)
    (hr : s.r = c :: cs) (hc : isHexDigit (rune c) = true) : s.hexStep.err = s.err := by
  unfold Scanner.hexStep
  rw [Next_of_read s h, hr]
  simp [Scanner.atInput, hc]

/-- One round on anything else leaves an error. -/
theorem hexStep_Err_of_not_hex (s : Scanner) (h : s.ch ≠ notReadYet)
    (hc : isHexDigit (Scanner.atInput s.r s.err).ch = false) : s.hexStep.Err ≠ none := by
  unfold Scanner.hexStep
  rw [Next_of_read s h]
  simp only [hc, Bool.not_false, if_true]
  exact setErr_Err_hex _ _

/-- An error of the scanner stays. -/
theorem hexStep_Err_mono (s : Scanner) (h : s.Err ≠ none) : s.hexStep.Err ≠ none := by
  unfold Scanner.hexStep
  have h1 : s.Next.2.Err ≠ none := by
    have : s.Next.2.err = s.err := by
      unfold Scanner.Next Scanner.peek Scanner.next
      split_ifs <;> split <;> simp <;> split <;> simp_all
    unfold Scanner.Err at h ⊢
    rw [this]
    exact h
  split
  · exact setErr_Err_hex _ _
  · exact h1

/-- The loop over the signature, from a scanner whose look-ahead is read: it
takes `n` runes from the reader, writes them (U+FFFD where the input has
ended), keeps the error when all were there and hexadecimal, and leaves an
error otherwise. -/
theorem hexLoop_spec (n : Nat) :
    ∀ (s : Scanner) (buf : List Char), s.ch ≠ notReadYet →
      (Scanner.hexLoop n s buf).1.r = s.r.drop n ∧
        (Scanner.hexLoop n s buf).1.ch ≠ notReadYet ∧
        (Scanner.hexLoop n s buf).2 =
          buf ++ (s.r.take n ++ List.replicate (n - s.r.length) (runeChar eof)) ∧
        ((n ≤ s.r.length ∧ ∀ c ∈ s.r.take n, isHexDigit (rune c) = true) →
          (Scanner.hexLoop n s buf).1.err = s.err) ∧
        (¬ (n ≤ s.r.length ∧ ∀ c ∈ s.r.take n, isHexDigit (rune c) = true) →
          (Scanner.hexLoop n s buf).1.Err ≠ none) ∧
        (s.Err ≠ none → (Scanner.hexLoop n s buf).1.Err ≠ none) := by
  induction n with
  | zero =>
    intro s buf h
    simp [Scanner.hexLoop, h]
  | succ n ih =>
    intro s buf h
    obtain ⟨ih1, ih2, ih3, ih4, ih5, ih6⟩ :=
      ih s.hexStep (buf ++ [runeChar s.hexStep.ch]) (hexStep_ch_ne s h)
    have hr := hexStep_r s h
    have hc := hexStep_ch s h
    rw [Scanner.hexLoop]
    refine ⟨?_, ih2, ?_, ?_, ?_, fun he => ih6 (hexStep_Err_mono s he)⟩
    · rw [ih1, hr]
      cases s.r <;> simp
    · rw [ih3, hr, hc]
      cases hsr : s.r with
      | nil => simp [Scanner.atInput, List.replicate_succ]
      | cons c cs => simp [Scanner.atInput, runeChar_rune]
    · intro hg
      cases hsr : s.r with
      | nil => rw [hsr] at hg; simp at hg
      | cons c cs =>
        rw [hsr] at hg
        simp only [List.length_cons, Nat.add_le_add_iff_right, List.take_succ_cons,
          List.mem_cons, forall_eq_or_imp] at hg
        rw [ih4 (by rw [hr, hsr]; exact ⟨hg.1, hg.2.2⟩)]
        exact hexStep_err_of_hex s h c cs hsr hg.2.1
    · intro hb
      cases hsr : s.r with
      | nil =>
        apply ih6
        apply hexStep_Err_of_not_hex s h
        rw [hsr]
        show isHexDigit eof = false
        decide
      | cons c cs =>
        rw [hsr] at hb
        simp only [List.length_cons, Nat.add_le_add_iff_right, List.take_succ_cons,
          List.mem_cons, forall_eq_or_imp] at hb
        by_cases hcx : isHexDigit (rune c) = true
        · apply ih5
          rw [hr, hsr]
          intro hg
          exact hb ⟨hg.1, hcx, hg.2⟩
        · apply ih6
          apply hexStep_Err_of_not_hex s h
          rw [hsr]
          simpa [Scanner.atInput] using hcx

theorem isSignature_iff (rest : List Char) :
    isSignature rest = true ↔
      (8 ≤ rest.length ∧ ∀ c ∈ rest.take 8, isHexDigit (rune c) = true) := by
  simp [isSignature]

/-- The end of scanIdent at a `#`: the token is a LowerIdent whose literal is
the buffer, the `#` and the next eight runes; the scanner goes on behind them;
the error is kept when the eight are a signature, and there is an error
otherwise. -/
theorem scanIdentFull_hash (rest buf : List Char) (e : Option ScanError) :
    ((Scanner.atInput ('#' :: rest) e).scanIdentFull buf).1 =
        ⟨ItemLowerIdent, String.mk (buf ++ '#' :: (rest.take 8 ++
          List.replicate (8 - rest.length) (runeChar eof)))⟩ ∧
      (∃ e1, ((Scanner.atInput ('#' :: rest) e).scanIdentFull buf).2 =
          Scanner.atInput (rest.drop 8) e1 ∧
        (isSignature rest = true → e1 = e) ∧
        (isSignature rest = false →
          ((Scanner.atInput ('#' :: rest) e).scanIdentFull buf).2.Err ≠ none)) := by
  have hch : (Scanner.atInput ('#' :: rest) e).ch ≠ notReadYet := atInput_ch_ne_notReadYet _ _
  obtain ⟨h1, h2, h3, h4, h5, -⟩ :=
    hexLoop_spec 8 (Scanner.atInput ('#' :: rest) e)
      (buf ++ [runeChar (Scanner.atInput ('#' :: rest) e).ch]) hch
  have hr : (Scanner.atInput ('#' :: rest) e).r = rest := rfl
  have hc : (Scanner.atInput ('#' :: rest) e).ch = rune '#' := rfl
  have hE : (Scanner.atInput ('#' :: rest) e).err = e := rfl
  rw [hr] at h1 h3 h4 h5
  rw [hE] at h4
  unfold Scanner.scanIdentFull
  rw [if_pos hc]
  simp only
  rw [h3, Next_of_read _ h2, h1]
  refine ⟨by simp [hc, runeChar_rune], _, rfl, ?_, ?_⟩
  · intro hs
    exact h4 ((isSignature_iff rest).1 hs)
  · intro hs
    have hb := h5 (fun hg => by
      rw [(isSignature_iff rest).2 hg] at hs
      exact Bool.noConfusion hs)
    cases hd : rest.drop 8 <;> simpa [Scanner.atInput, Scanner.Err] using hb

theorem isLcIdent_cases (l : List Char) (h : isLcIdent l = true) :
    ∃ c cs, l = c :: cs ∧ isLowerLetter (rune c) = true ∧
      ∀ x ∈ c :: cs, isIdentChar (rune x) = true := by
  cases l with
  | nil => simp [isLcIdent] at h
  | cons c cs =>
    simp only [isLcIdent, Bool.and_eq_true, List.all_eq_true] at h
    refine ⟨c, cs, rfl, h.1, ?_⟩
    intro x hx
    rcases List.mem_cons.1 hx with hx | hx
    · subst hx
      have := (isLowerLetter_iff _).1 h.1
      rw [isIdentChar_iff]
      omega
    · exact h.2 x hx

theorem isLowerName_cases (name : List Char) (h : isLowerName name = true) :
    isLcIdent name = true ∨
      ∃ ns id, name = ns ++ '.' :: id ∧ isLcIdent ns = true ∧ isLcIdent id = true := by
  simp only [isLowerName, Bool.or_eq_true, Bool.and_eq_true] at h
  rcases h with h | ⟨h1, h2⟩
  · exact Or.inl h
  · right
    have hsplit := List.takeWhile_append_dropWhile (fun c => c != '.') name
    have hhead := List.head?_dropWhile_not (fun c => c != '.') name
    cases hd : name.dropWhile (fun c => c != '.') with
    | nil => rw [hd] at h2; simp [isLcIdent] at h2
    | cons x id =>
      rw [hd] at h2 hsplit hhead
      simp only [List.head?_cons, bne_eq_false_iff_eq] at hhead
      subst hhead
      exact ⟨_, id, hsplit.symm, h1, by simpa using h2⟩

theorem isIdentChar_hash : isIdentChar (rune '#') = false := by decide

theorem isIdentChar_dot : isIdentChar (rune '.') = false := by decide

/-- On a lower identifier, optionally namespaced, that a `#` follows, scanIdent
reads the identifier into the buffer and goes on with the signature. -/
theorem scanIdent_lowerName_hash (name rest : List Char) (e : Option ScanError)
    (hname : isLowerName name = true) :
    (Scanner.atInput (name ++ '#' :: rest) e).scanIdent =
      (Scanner.atInput ('#' :: rest) e).scanIdentFull name := by
  rcases isLowerName_cases name hname with h | ⟨ns, id, rfl, hns, hid⟩
  · obtain ⟨c, cs, rfl, hc, hall⟩ := isLcIdent_cases name h
    have hup : isUpperLetter (Scanner.atInput (c :: cs ++ '#' :: rest) e).ch = false := by
      show isUpperLetter (rune c) = false
      have := (isLowerLetter_iff _).1 hc
      rw [← Bool.not_eq_true, isUpperLetter_iff]
      omega
    have hrun := consume_run isIdentChar e ('#' :: rest) isIdentChar_hash (c :: cs)
      (Scanner.atInput (c :: cs ++ '#' :: rest) e).fuel [] hall (atInput_fuel _ _ _)
    unfold Scanner.scanIdent
    simp only [hup, hrun, Bool.false_eq_true, if_false, List.nil_append]
    have hne : ¬ (Scanner.atInput ('#' :: rest) e).ch = rune '.' := by
      show ¬ rune '#' = rune '.'
      decide
    rw [if_neg hne]
  · obtain ⟨c, cs, rfl, hc, hall⟩ := isLcIdent_cases ns hns
    obtain ⟨d, ds, rfl, hd, halld⟩ := isLcIdent_cases id hid
    have hup : isUpperLetter
        (Scanner.atInput ((c :: cs ++ '.' :: d :: ds) ++ '#' :: rest) e).ch = false := by
      show isUpperLetter (rune c) = false
      have := (isLowerLetter_iff _).1 hc
      rw [← Bool.not_eq_true, isUpperLetter_iff]
      omega
    have hrun := consume_run isIdentChar e ('.' :: (d :: ds ++ '#' :: rest)) isIdentChar_dot
      (c :: cs) (Scanner.atInput (c :: cs ++ '.' :: (d :: ds ++ '#' :: rest)) e).fuel []
      hall (atInput_fuel _ _ _)
    have hupd : isUpperLetter (Scanner.atInput (d :: ds ++ '#' :: rest) e).ch = false := by
      show isUpperLetter (rune d) = false
      have := (isLowerLetter_iff _).1 hd
      rw [← Bool.not_eq_true, isUpperLetter_iff]
      omega
    have hlowd : isLowerLetter (Scanner.atInput (d :: ds ++ '#' :: rest) e).ch = true := hd
    have hrund := consume_run isIdentChar e ('#' :: rest) isIdentChar_hash (d :: ds)
      (Scanner.atInput (d :: ds ++ '#' :: rest) e).fuel (c :: cs ++ ['.']) halld
      (atInput_fuel _ _ _)
    have hassoc : (c :: cs ++ '.' :: d :: ds) ++ '#' :: rest =
        c :: cs ++ '.' :: (d :: ds ++ '#' :: rest) := by simp
    have hdot : (Scanner.atInput ('.' :: (d :: ds ++ '#' :: rest)) e).ch = rune '.' := rfl
    unfold Scanner.scanIdent
    rw [hassoc] at hup ⊢
    simp only [hup, hrun, Bool.false_eq_true, if_false, List.nil_append]
    rw [if_pos hdot, Next_atInput]
    simp only [List.tail_cons, hdot, runeChar_rune, hupd, hlowd, Bool.false_eq_true, if_false,
      if_true, hrund]
    congr 1
    simp

theorem isLowerName_head (name : List Char) (h : isLowerName name = true) :
    ∃ c cs, name = c :: cs ∧ isLowerLetter (rune c) = true := by
  rcases isLowerName_cases name h with h | ⟨ns, id, rfl, hns, -⟩
  · obtain ⟨c, cs, rfl, hc, -⟩ := isLcIdent_cases name h
    exact ⟨c, cs, rfl, hc⟩
  · obtain ⟨c, cs, rfl, hc, -⟩ := isLcIdent_cases ns hns
    exact ⟨c, _, rfl, hc⟩

/-- Scan dispatches to scanIdent at a letter. -/
theorem Scan_atInput_letter (c : Char) (l : List Char) (e : Option ScanError)
    (hc : isLetter (rune c) = true) :
    (Scanner.atInput (c :: l) e).Scan =
      .ret (Scanner.atInput (c :: l) e).scanIdent.1 (Scanner.atInput (c :: l) e).scanIdent.2 := by
  have hw : isWhitespace (rune c) = false := by
    have := (isLetter_iff _).1 hc
    rw [← Bool.not_eq_true, isWhitespace_iff]
    omega
  unfold Scanner.Scan
  rw [peek_of_read _ (atInput_ch_ne_notReadYet _ _)]
  have hch : (Scanner.atInput (c :: l) e).ch = rune c := rfl
  simp only [hch, hw, hc, Bool.false_eq_true, if_false, if_true]

/-- Scan on a lower identifier, optionally namespaced, that a `#` follows. -/
theorem Scan_lowerName_hash (name rest : List Char) (hname : isLowerName name = true) :
    ∃ e1, (NewScanner (name ++ '#' :: rest)).Scan =
        .ret ⟨ItemLowerIdent, String.mk (name ++ '#' :: (rest.take 8 ++
            List.replicate (8 - rest.length) (runeChar eof)))⟩
          (Scanner.atInput (rest.drop 8) e1) ∧
      (isSignature rest = true → e1 = none) ∧
      (isSignature rest = false → (Scanner.atInput (rest.drop 8) e1).Err ≠ none) := by
  obtain ⟨c, cs, hcs, hc⟩ := isLowerName_head name hname
  obtain ⟨h1, e1, h2, h3, h4⟩ := scanIdentFull_hash rest name none
  have hlet : isLetter (rune c) = true := by
    have := (isLowerLetter_iff _).1 hc
    rw [isLetter_iff]
    omega
  refine ⟨e1, ?_, h3, ?_⟩
  · rw [Scan_NewScanner]
    have hsc := scanIdent_lowerName_hash name rest none hname
    rw [hcs] at hsc ⊢
    rw [List.cons_append, Scan_atInput_letter c _ none hlet, ← List.cons_append, hsc,
      ← hcs, ← h2, ← h1]
  · intro hs
    rw [← h2]
    exact h4 hs

theorem atInput_Err_none (l : List Char) : (Scanner.atInput l none).Err = none := by
  cases l <;> rfl

/-- C5: when a lower identifier, optionally namespaced, is immediately followed
by `#`, Scan on a fresh scanner returns a LowerIdent token whose literal is the
identifier, the `#` and the next eight characters (with U+FFFD written for each
position past the end of the input); Err() is non-nil afterwards iff one of the
eight positions is not a hexadecimal digit 0-9, a-f or lies past the end of
the input; and when all eight are hexadecimal digits the token is
(LowerIdent, `name#xxxxxxxx`) and Err() stays nil. -/
theorem Scan_signature (name rest : List Char) (hname : isLowerName name = true) :
    ∃ tok s1, (NewScanner (name ++ '#' :: rest)).Scan = .ret tok s1 ∧
      tok.Token = ItemLowerIdent ∧
      tok.Literal.data =
        name ++ '#' :: (rest.take 8 ++ List.replicate (8 - rest.length) (runeChar eof)) ∧
      (s1.Err ≠ none ↔ isSignature rest = false) ∧
      (isSignature rest = true →
        tok = ⟨ItemLowerIdent, String.mk (name ++ '#' :: rest.take 8)⟩ ∧ s1.Err = none) := by
  obtain ⟨e1, h1, h2, h3⟩ := Scan_lowerName_hash name rest hname
  refine ⟨_, _, h1, rfl, rfl, ⟨?_, h3⟩, ?_⟩
  · intro hne
    by_contra hs
    rw [Bool.not_eq_false] at hs
    rw [h2 hs] at hne
    exact hne (atInput_Err_none _)
  · intro hs
    have hlen : 8 ≤ rest.length := ((isSignature_iff rest).1 hs).1
    rw [h2 hs]
    refine ⟨?_, atInput_Err_none _⟩
    rw [Nat.sub_eq_zero_of_le hlen]
    simp

/-- C5 at the input `users.user#decafbad`. -/
theorem Scan_signature_witness :
    isLowerName "users.user".toList = true ∧
      ∃ tok s1, (NewScanner ("users.user".toList ++ '#' :: "decafbad".toList)).Scan =
          .ret tok s1 ∧
        tok.Token = ItemLowerIdent ∧
        tok.Literal.data =
          "users.user".toList ++ '#' :: ("decafbad".toList.take 8 ++
            List.replicate (8 - "decafbad".toList.length) (runeChar eof)) ∧
        (s1.Err ≠ none ↔ isSignature "decafbad".toList = false) ∧
        (isSignature "decafbad".toList = true →
          tok = ⟨ItemLowerIdent,
              String.mk ("users.user".toList ++ '#' :: "decafbad".toList.take 8)⟩ ∧
            s1.Err = none) :=
  ⟨by decide, Scan_signature "users.user".toList "decafbad".toList (by decide)⟩

/-- C6, refuted as stated: on `user#decafbad1`, a `#` and nine hexadecimal
digits, Scan returns (LowerIdent, `user#decafbad`) and then (NatConst, `1`) and
EOF, and Err() is nil after each of them. -/
theorem Scan_nine_hex_digits_no_error :
    (NewScanner "user#decafbad1".toList).Scan =
        .ret ⟨ItemLowerIdent, "user#decafbad"⟩ { r := [], ch := rune '1', err := none } ∧
      (Scanner.mk [] (rune '1') none).Scan =
        .ret ⟨ItemNatConst, "1"⟩ { r := [], ch := eof, err := none } ∧
      (Scanner.mk [] eof none).Scan = .ret ⟨ItemEOF, ""⟩ { r := [], ch := eof, err := none } ∧
      (Scanner.mk [] eof none).Err = none := by
  decide

/-- C6, amended: scanning a lower identifier followed by `#` and seven
characters after which the input ends or a character that is not a hexadecimal
digit comes, or by `#` and eight characters one of which is not a hexadecimal
digit, leaves an error in Err(); `#` and nine hexadecimal digits leave none:
the token is the identifier with the first eight, Err() is nil and the ninth
digit is the look-ahead for the next token. -/
theorem Scan_signature_bounds (name rest : List Char) (hname : isLowerName name = true) :
    ∃ tok s1, (NewScanner (name ++ '#' :: rest)).Scan = .ret tok s1 ∧
      ((∃ h7 tail, rest = h7 ++ tail ∧ h7.length = 7 ∧
          ∀ c ∈ tail.head?, isHexDigit (rune c) = false) → s1.Err ≠ none) ∧
      ((∃ c ∈ rest.take 8, isHexDigit (rune c) = false) → s1.Err ≠ none) ∧
      ((9 ≤ rest.length ∧ ∀ c ∈ rest.take 9, isHexDigit (rune c) = true) →
        tok = ⟨ItemLowerIdent, String.mk (name ++ '#' :: rest.take 8)⟩ ∧ s1.Err = none ∧
          s1 = Scanner.atInput (rest.drop 8) none) := by
  obtain ⟨e1, h1, h2, h3⟩ := Scan_lowerName_hash name rest hname
  refine ⟨_, _, h1, ?_, ?_, ?_⟩
  · rintro ⟨h7, tail, rfl, hlen, htail⟩
    apply h3
    rw [← Bool.not_eq_true, isSignature_iff]
    rintro ⟨hl, hall⟩
    cases tail with
    | nil => simp [hlen] at hl
    | cons t ts =>
      have ht : isHexDigit (rune t) = false := htail t (by simp)
      have hmem : t ∈ (h7 ++ t :: ts).take 8 := by
        rw [List.take_append_eq_append_take]
        simp [hlen]
      rw [hall t hmem] at ht
      exact Bool.noConfusion ht
  · rintro ⟨c, hc, hx⟩
    apply h3
    rw [← Bool.not_eq_true, isSignature_iff]
    rintro ⟨-, hall⟩
    rw [hall c hc] at hx
    exact Bool.noConfusion hx
  · rintro ⟨hl, hall⟩
    have hs : isSignature rest = true := by
      rw [isSignature_iff]
      refine ⟨by omega, fun c hc => hall c ?_⟩
      exact (List.take_subset_take_left rest (by decide : 8 ≤ 9)) hc
    rw [h2 hs]
    refine ⟨?_, atInput_Err_none _, rfl⟩
    rw [Nat.sub_eq_zero_of_le (by omega : 8 ≤ rest.length)]
    simp

/-- C6, amended, at the input `user#decafbad1`. -/
theorem Scan_signature_bounds_witness :
    isLowerName "user".toList = true ∧
      ∃ tok s1, (NewScanner ("user".toList ++ '#' :: "decafbad1".toList)).Scan = .ret tok s1 ∧
        ((∃ h7 tail, "decafbad1".toList = h7 ++ tail ∧ h7.length = 7 ∧
            ∀ c ∈ tail.head?, isHexDigit (rune c) = false) → s1.Err ≠ none) ∧
        ((∃ c ∈ "decafbad1".toList.take 8, isHexDigit (rune c) = false) → s1.Err ≠ none) ∧
        ((9 ≤ "decafbad1".toList.length ∧
            ∀ c ∈ "decafbad1".toList.take 9, isHexDigit (rune c) = true) →
          tok = ⟨ItemLowerIdent, String.mk ("user".toList ++ '#' :: "decafbad1".toList.take 8)⟩ ∧
            s1.Err = none ∧ s1 = Scanner.atInput ("decafbad1".toList.drop 8) none) :=
  ⟨by decide, Scan_signature_bounds "user".toList "decafbad1".toList (by decide)⟩

/-! ### The parser's `next` -/

/-- When Scan returns a token that is not whitespace, `next` stops at it. -/
theorem next_of_Scan (p : Parser) (tok : Token) (s1 : Scanner)
    (h : p.s.Scan = .ret tok s1) (hw : tok.Token ≠ ItemWhitespace) :
    p.next = .ret () { p with s := s1, tok := tok } := by
  rw [Parser.next, Scanner.fuel, Parser.nextLoop, h]
  simp [hw]

/-- When Scan returns whitespace and then another token, `next` stops at the
second. -/
theorem next_of_Scan_whitespace (p : Parser) (w tok : Token) (s1 s2 : Scanner)
    (h1 : p.s.Scan = .ret w s1) (hw : w.Token = ItemWhitespace)
    (h2 : s1.Scan = .ret tok s2) (hn : tok.Token ≠ ItemWhitespace) :
    p.next = .ret () { p with s := s2, tok := tok } := by
  rw [Parser.next, Scanner.fuel, Parser.nextLoop, h1]
  simp only [hw, ne_eq, not_true_eq_false, if_false]
  rw [Parser.nextLoop]
  simp only [h2]
  simp [hn]

/-- The rest of `int#xxxxxxxx ?= Int;` once the identifier is the look-ahead:
the productions look at the kind of that token only. -/
theorem parseBuiltin_after_ident (lit : String) :
    Parser.parseBuiltinCombinatorDecl
        { s := Scanner.atInput " ?= Int;".toList none, tok := ⟨ItemLowerIdent, lit⟩,
          err := none, setErrLog := [] } =
      .ret { Id := ⟨⟨⟨ItemLowerIdent, lit⟩⟩⟩, Result := ⟨"Int"⟩ }
        { s := { r := [], ch := eof, err := none }, tok := ⟨ItemEOF, ""⟩,
          err := none, setErrLog := [] } := by
  have hs1 : (Scanner.atInput " ?= Int;".toList none).Scan =
      .ret ⟨ItemWhitespace, " "⟩ (Scanner.atInput "?= Int;".toList none) := by decide
  have hs2 : (Scanner.atInput "?= Int;".toList none).Scan =
      .ret ⟨ItemQuestionMark, "?"⟩ (Scanner.atInput "= Int;".toList none) := by decide
  have e0 := next_of_Scan_whitespace
    { s := Scanner.atInput " ?= Int;".toList none, tok := ⟨ItemLowerIdent, lit⟩,
      err := none, setErrLog := [] } _ _ _ _ hs1 rfl hs2 (by decide)
  have e1 : Parser.expect ⟨Scanner.atInput "= Int;".toList none, ⟨ItemQuestionMark, "?"⟩, none, []⟩
      [ItemQuestionMark] =
      .ret () ⟨Scanner.atInput " Int;".toList none, ⟨ItemEquals, "="⟩, none, []⟩ := by decide
  have e2 : Parser.expect ⟨Scanner.atInput " Int;".toList none, ⟨ItemEquals, "="⟩, none, []⟩
      [ItemEquals] =
      .ret () ⟨Scanner.atInput ";".toList none, ⟨ItemUpperIdent, "Int"⟩, none, []⟩ := by decide
  have e3 : Parser.parseBoxedTypeIdent
      ⟨Scanner.atInput ";".toList none, ⟨ItemUpperIdent, "Int"⟩, none, []⟩ =
      .ret ⟨"Int"⟩ ⟨Scanner.atInput [] none, ⟨ItemSemicolon, ";"⟩, none, []⟩ := by decide
  have e4 : Parser.expectSemi ⟨Scanner.atInput [] none, ⟨ItemSemicolon, ";"⟩, none, []⟩ =
      .ret () ⟨⟨[], eof, none⟩, ⟨ItemEOF, ""⟩, none, []⟩ := by decide
  have hx : expectErrc ItemLowerIdent [ItemLowerIdent, ItemUnderscore] 0 = 0 := by decide
  have eF : Parser.parseFullCombinatorId
      ⟨Scanner.atInput " ?= Int;".toList none, ⟨ItemLowerIdent, lit⟩, none, []⟩ =
      .ret ⟨⟨⟨ItemLowerIdent, lit⟩⟩⟩
        ⟨Scanner.atInput "= Int;".toList none, ⟨ItemQuestionMark, "?"⟩, none, []⟩ := by
    unfold Parser.parseFullCombinatorId Parser.expect
    simp only [hx, ne_eq, not_true_eq_false, if_false, e0, Outcome.andThen]
  unfold Parser.parseBuiltinCombinatorDecl
  rw [eF]
  simp only [Outcome.andThen, e1, e2, e3, e4]

/-! ### The kinds of token that Scan returns -/

theorem ite_ne_of {c : Prop} [Decidable c] {a b x : Item} (ha : a ≠ x) (hb : b ≠ x) :
    (if c then a else b) ≠ x := by
  split <;> assumption

theorem punctItem_ne_tripleMinus (ch : Int) : punctItem ch ≠ ItemTripleMinus := by
  unfold punctItem
  repeat (refine ite_ne_of (by decide) ?_)
  decide

theorem scanIdentFull_kind (s : Scanner) (buf : List Char) :
    (s.scanIdentFull buf).1.Token = ItemLowerIdent := by
  unfold Scanner.scanIdentFull
  split <;> rfl

theorem upperItem_cases (lit : String) :
    upperItem lit = ItemNew ∨ upperItem lit = ItemEmpty ∨ upperItem lit = ItemFinal ∨
      upperItem lit = ItemUpperIdent := by
  unfold upperItem
  split_ifs <;> simp

theorem scanIdent_kind (s : Scanner) :
    s.scanIdent.1.Token = ItemNew ∨ s.scanIdent.1.Token = ItemEmpty ∨
      s.scanIdent.1.Token = ItemFinal ∨ s.scanIdent.1.Token = ItemUpperIdent ∨
      s.scanIdent.1.Token = ItemLowerIdent := by
  unfold Scanner.scanIdent
  simp only
  split_ifs
  · rcases upperItem_cases (String.mk (Scanner.consume isIdentChar s.fuel s []).2) with h | h | h | h <;>
      simp [h]
  · simp
  · simp [scanIdentFull_kind]
  · simp [scanIdentFull_kind]
  · simp [scanIdentFull_kind]

theorem Scan_tripleMinus_literal (s : Scanner) (tok : Token) (s1 : Scanner)
    (h : s.Scan = .ret tok s1) (hk : tok.Token = ItemTripleMinus) : tok.Literal = "---" := by
  unfold Scanner.Scan at h
  simp only at h
  split_ifs at h
  · cases h
    simp [Scanner.scanWhitespace] at hk
  · cases h
    have := scanIdent_kind s.peek.2
    rw [hk] at this
    simp at this
  · cases h
    simp [Scanner.scanNumber] at hk
  · unfold Scanner.scanDefault at h
    split_ifs at h
    · cases h
      simp at hk
    · cases h
      unfold Scanner.scanTripleMinus at hk ⊢
      simp only at hk ⊢
      split_ifs at hk ⊢
      rfl
    · cases h
      exact absurd hk (punctItem_ne_tripleMinus _)

/-! ### Parse on the scenarios of the specification -/

/-- C1, refuted as stated: on `int ? = Int;` Parse returns with Err() holding
`expected semicolon` (the `;` was consumed by parseBuiltinCombinatorDecl, and
Parse asks for one more), and the Program it returns holds no declaration. -/
theorem Parse_builtin_scenario_refuted :
    (NewParser "int ? = Int;".toList).Parse =
        .ret Program.zero
          { s := { r := [], ch := eof, err := none }, tok := ⟨ItemEOF, ""⟩,
            err := some "expected semicolon", setErrLog := ["expected semicolon"] } ∧
      ¬ ∃ prog p, (NewParser "int ? = Int;".toList).Parse = .ret prog p ∧ p.Err = none ∧
          prog.Constructors.length + prog.Functions.length + prog.Types.length = 1 := by
  have h : (NewParser "int ? = Int;".toList).Parse =
      .ret Program.zero
        { s := { r := [], ch := eof, err := none }, tok := ⟨ItemEOF, ""⟩,
          err := some "expected semicolon", setErrLog := ["expected semicolon"] } := by
    decide
  refine ⟨h, ?_⟩
  rintro ⟨prog, p, hp, herr, -⟩
  rw [h] at hp
  cases hp
  simp [Parser.Err] at herr

/-- C1, amended: on `int ? = Int;` Parse returns to its caller with the whole
input consumed (the look-ahead is the EOF token) and a Program whose
Constructors, Functions and Types are empty; the builtin combinator
declaration with id `int` and result boxed type `Int` is what
parseBuiltinCombinatorDecl returns on this input, with Err() nil, and
parseDecl drops it. -/
theorem Parse_builtin_scenario :
    (∃ p, (NewParser "int ? = Int;".toList).Parse =
          .ret { Constructors := [], Functions := [], Types := [] } p ∧
        p.tok = ⟨ItemEOF, ""⟩ ∧ p.s.r = [] ∧ p.s.ch = eof) ∧
      ((NewParser "int ? = Int;".toList).next.andThen fun _ p =>
          p.parseBuiltinCombinatorDecl) =
        .ret { Id := ⟨⟨⟨ItemLowerIdent, "int"⟩⟩⟩, Result := ⟨"Int"⟩ }
          { s := { r := [], ch := eof, err := none }, tok := ⟨ItemEOF, ""⟩,
            err := none, setErrLog := [] } := by
  have h : (NewParser "int ? = Int;".toList).Parse =
      .ret Program.zero
        { s := { r := [], ch := eof, err := none }, tok := ⟨ItemEOF, ""⟩,
          err := some "expected semicolon", setErrLog := ["expected semicolon"] } := by
    decide
  exact ⟨⟨_, h, rfl, rfl, rfl⟩, by decide⟩

/-- C3 (the code falls short of the claim): every TripleMinus token that Scan
returns has the literal `---`, so the test `p.tok.Literal == "functions"` of
Parse never succeeds and the functions phase is never entered. On
`--- functions ---\ngetUser id:int = User;` Parse records `unexpected token`
for the marker, takes `functions` for the start of a builtin declaration and
exits in `log.Fatal` at the second `---`. -/
theorem Parse_functions_marker_fatal :
    (∀ s tok s1, Scanner.Scan s = .ret tok s1 → tok.Token = ItemTripleMinus →
        tok.Literal = "---") ∧
      (NewParser "--- functions ---\ngetUser id:int = User;".toList).Parse =
        .fatal (.expectedGotWant ⟨ItemTripleMinus, "---"⟩ [ItemQuestionMark])
          { s := { r := "getUser id:int = User;".toList, ch := rune '\n', err := none },
            tok := ⟨ItemTripleMinus, "---"⟩, err := some "unexpected token",
            setErrLog := ["unexpected token", "expected semicolon"] } := by
  exact ⟨Scan_tripleMinus_literal, by decide⟩

/-! ### Explicit signatures and the checksum -/


set_option maxRecDepth 100000 in
/-- C10, refuted as stated: the CRC-32 of `int ? = Int` is `a8509bda`, yet
parseBuiltinCombinatorDecl accepts `int#00000000 ?= Int;` with Err() nil. -/
theorem parseBuiltin_accepts_wrong_signature :
    computeCRC32 "int ? = Int" = ("a8509bda", none) ∧
      ((NewParser "int#00000000 ?= Int;".toList).next.andThen fun _ p =>
          p.parseBuiltinCombinatorDecl) =
        .ret { Id := ⟨⟨⟨ItemLowerIdent, "int#00000000"⟩⟩⟩, Result := ⟨"Int"⟩ }
          ⟨⟨[], eof, none⟩, ⟨ItemEOF, ""⟩, none, []⟩ := by
  decide

/-- C10, amended: parseBuiltinCombinatorDecl does not compare an explicit
signature with the CRC-32 of the declaration text: whatever the eight
hexadecimal digits `sig` are, it parses `int#sig ?= Int;` to the declaration
with id `int#sig` and result `Int` and leaves Err() nil. -/
theorem parseBuiltin_ignores_signature (sig : List Char) (hlen : sig.length = 8)
    (hhex : ∀ c ∈ sig, isHexDigit (rune c) = true) :
    ((NewParser ("int".toList ++ '#' :: (sig ++ " ?= Int;".toList))).next.andThen fun _ p =>
        p.parseBuiltinCombinatorDecl) =
      .ret { Id := ⟨⟨⟨ItemLowerIdent, String.mk ("int".toList ++ '#' :: sig)⟩⟩⟩,
             Result := ⟨"Int"⟩ }
        ⟨⟨[], eof, none⟩, ⟨ItemEOF, ""⟩, none, []⟩ := by
  have hsig : isSignature (sig ++ " ?= Int;".toList) = true := by
    rw [isSignature_iff]
    refine ⟨by simp [hlen], ?_⟩
    intro c hc
    rw [List.take_append_eq_append_take, hlen] at hc
    simp only [Nat.sub_self, List.take_zero, List.append_nil] at hc
    exact hhex c (List.mem_of_mem_take hc)
  obtain ⟨e1, h1, h2, -⟩ :=
    Scan_lowerName_hash "int".toList (sig ++ " ?= Int;".toList) (by decide)
  rw [h2 hsig] at h1
  have htake : (sig ++ " ?= Int;".toList).take 8 = sig := by
    rw [← hlen]
    exact List.take_left _ _
  have hdrop : (sig ++ " ?= Int;".toList).drop 8 = " ?= Int;".toList := by
    rw [← hlen]
    exact List.drop_left _ _
  have hpad : 8 - (sig ++ " ?= Int;".toList).length = 0 := by simp [hlen]
  rw [htake, hdrop, hpad] at h1
  simp only [List.replicate_zero, List.append_nil] at h1
  have hw : (Token.mk ItemLowerIdent (String.mk ("int".toList ++ '#' :: sig))).Token ≠
      ItemWhitespace := by
    intro h
    cases h
  have hnext := next_of_Scan (NewParser ("int".toList ++ '#' :: (sig ++ " ?= Int;".toList)))
    _ _ h1 hw
  rw [hnext]
  simp only [Outcome.andThen, NewParser]
  exact parseBuiltin_after_ident _

/-- C10, amended, at the signature `00000000`. -/
theorem parseBuiltin_ignores_signature_witness :
    "00000000".toList.length = 8 ∧ (∀ c ∈ "00000000".toList, isHexDigit (rune c) = true) ∧
      ((NewParser ("int".toList ++ '#' :: ("00000000".toList ++ " ?= Int;".toList))).next.andThen
          fun _ p => p.parseBuiltinCombinatorDecl) =
        .ret { Id := ⟨⟨⟨ItemLowerIdent, String.mk ("int".toList ++ '#' :: "00000000".toList)⟩⟩⟩,
               Result := ⟨"Int"⟩ }
          ⟨⟨[], eof, none⟩, ⟨ItemEOF, ""⟩, none, []⟩ :=
  ⟨by decide, by decide,
    parseBuiltin_ignores_signature "00000000".toList (by decide) (by decide)⟩

/-! ### The sticky error of the parser -/

theorem andThen_state {μ σ α β : Type} (P : σ → Prop) (o : Outcome μ σ α)
    (f : α → σ → Outcome μ σ β) (ho : P o.state) (hf : ∀ a st, P st → P (f a st).state) :
    P (o.andThen f).state := by
  cases o with
  | ret a st => exact hf a st ho
  | fatal m st => exact ho
  | panicked m st => exact ho
  | outOfFuel st => exact ho

theorem setErr_errIsFirst (p : Parser) (e : String) (h : p.ErrIsFirst) :
    (p.setErr e).ErrIsFirst := by
  unfold Parser.ErrIsFirst at h ⊢
  unfold Parser.setErr
  split
  · rename_i hn
    rw [hn] at h
    cases hl : p.setErrLog with
    | nil => simp
    | cons x xs => rw [hl] at h; simp at h
  · rename_i hn
    cases hl : p.setErrLog with
    | nil => rw [hl] at h; exact absurd h hn
    | cons x xs => rw [hl] at h; simpa using h

/-- The loop of `next` touches neither the error nor its history. -/
theorem nextLoop_errIsFirst (fuel : Nat) :
    ∀ p : Parser, p.ErrIsFirst → (Parser.nextLoop fuel p).state.ErrIsFirst := by
  induction fuel with
  | zero => intro p h; exact h
  | succ n ih =>
    intro p h
    rw [Parser.nextLoop]
    cases hs : p.s.Scan with
    | ret tok s1 =>
      simp only
      split
      · exact h
      · exact ih _ h
    | fatal m st => exact m.elim
    | panicked m st => exact h
    | outOfFuel st => exact h

theorem next_errIsFirst (p : Parser) (h : p.ErrIsFirst) : p.next.state.ErrIsFirst :=
  nextLoop_errIsFirst _ p h

theorem expect_errIsFirst (p : Parser) (items : List Item) (h : p.ErrIsFirst) :
    (p.expect items).state.ErrIsFirst := by
  unfold Parser.expect
  simp only
  split
  · exact h
  · exact next_errIsFirst p h

theorem expectSemi_errIsFirst (p : Parser) (h : p.ErrIsFirst) :
    p.expectSemi.state.ErrIsFirst := by
  unfold Parser.expectSemi
  split
  · exact next_errIsFirst _ (setErr_errIsFirst p _ h)
  · exact next_errIsFirst _ h

theorem parseBuiltinCombinatorDecl_errIsFirst (p : Parser) (h : p.ErrIsFirst) :
    p.parseBuiltinCombinatorDecl.state.ErrIsFirst := by
  unfold Parser.parseBuiltinCombinatorDecl Parser.parseFullCombinatorId
    Parser.parseBoxedTypeIdent
  refine andThen_state _ _ _ (andThen_state _ _ _ (expect_errIsFirst p _ h) fun _ _ h1 => h1) ?_
  intro _ p1 h1
  refine andThen_state _ _ _ (expect_errIsFirst p1 _ h1) ?_
  intro _ p2 h2
  refine andThen_state _ _ _ (expect_errIsFirst p2 _ h2) ?_
  intro _ p3 h3
  refine andThen_state _ _ _ (andThen_state _ _ _ (expect_errIsFirst p3 _ h3) fun _ _ h4 => h4) ?_
  intro _ p4 h4
  exact andThen_state _ _ _ (expectSemi_errIsFirst p4 h4) fun _ _ h5 => h5

theorem parseDecl_errIsFirst (p : Parser) (h : p.ErrIsFirst) :
    p.parseDecl.state.ErrIsFirst := by
  unfold Parser.parseDecl
  split
  · exact andThen_state _ _ _ (parseBuiltinCombinatorDecl_errIsFirst p h) fun _ _ h1 => h1
  · exact next_errIsFirst p h
  · exact next_errIsFirst p h
  · exact next_errIsFirst p h
  · exact next_errIsFirst p h
  · exact setErr_errIsFirst p _ h

theorem typesLoop_errIsFirst (fuel : Nat) :
    ∀ p : Parser, p.ErrIsFirst → (Parser.typesLoop fuel p).state.ErrIsFirst := by
  induction fuel with
  | zero => intro p h; exact h
  | succ n ih =>
    intro p h
    rw [Parser.typesLoop]
    split
    · exact h
    · refine andThen_state _ _ _ (parseDecl_errIsFirst p h) ?_
      intro _ p1 h1
      refine andThen_state _ _ _ (expectSemi_errIsFirst p1 h1) ?_
      intro _ p2 h2
      apply ih
      split
      · exact setErr_errIsFirst p2 _ h2
      · exact h2

theorem funLoop_errIsFirst (fuel : Nat) :
    ∀ p : Parser, p.ErrIsFirst → (Parser.funLoop fuel p).state.ErrIsFirst := by
  induction fuel with
  | zero => intro p h; exact h
  | succ n ih =>
    intro p h
    rw [Parser.funLoop]
    split
    · exact h
    · refine andThen_state _ _ _ (parseDecl_errIsFirst p h) ?_
      intro _ p1 h1
      refine andThen_state _ _ _ (expectSemi_errIsFirst p1 h1) ?_
      intro _ p2 h2
      split
      · split
        · exact typesLoop_errIsFirst n p2 h2
        · exact ih _ (setErr_errIsFirst p2 _ h2)
      · exact ih _ h2

theorem constrLoop_errIsFirst (fuel : Nat) :
    ∀ p : Parser, p.ErrIsFirst → (Parser.constrLoop fuel p).state.ErrIsFirst := by
  induction fuel with
  | zero => intro p h; exact h
  | succ n ih =>
    intro p h
    rw [Parser.constrLoop]
    split
    · exact h
    · refine andThen_state _ _ _ (parseDecl_errIsFirst p h) ?_
      intro _ p1 h1
      refine andThen_state _ _ _ (expectSemi_errIsFirst p1 h1) ?_
      intro _ p2 h2
      split
      · split
        · refine andThen_state _ _ _ (next_errIsFirst p2 h2) ?_
          intro _ p3 h3
          refine andThen_state _ _ _ (expect_errIsFirst p3 _ h3) ?_
          intro _ p4 h4
          exact funLoop_errIsFirst n p4 h4
        · exact ih _ (setErr_errIsFirst p2 _ h2)
      · exact ih _ h2

/-- C4: the parser's error is sticky. A call of setErr on a parser that holds
an error leaves that error in place; and for every input, in the state in which
Parse ends, Err() is the first error that was passed to setErr during the
parse: nil iff none was passed. For instance on `@` two errors are passed and
the first, `unexpected token`, is the one Err() returns. -/
theorem Parse_error_is_first :
    (∀ (p : Parser) (e e1 : String), p.Err = some e → (p.setErr e1).Err = some e) ∧
      (∀ input : List Char,
        (NewParser input).Parse.state.Err = (NewParser input).Parse.state.setErrLog.head? ∧
          ((NewParser input).Parse.state.Err = none ↔
            (NewParser input).Parse.state.setErrLog = [])) ∧
      (NewParser "@".toList).Parse =
        .ret Program.zero
          ⟨⟨[], eof, none⟩, ⟨ItemEOF, ""⟩, some "unexpected token",
            ["unexpected token", "expected semicolon"]⟩ := by
  refine ⟨?_, ?_, by decide⟩
  · intro p e e1 h
    unfold Parser.Err at h ⊢
    unfold Parser.setErr
    simp [h]
  · intro input
    have h : (NewParser input).Parse.state.ErrIsFirst := by
      unfold Parser.Parse
      refine andThen_state _ _ _ (next_errIsFirst _ rfl) ?_
      intro _ p1 h1
      exact constrLoop_errIsFirst _ p1 h1
    unfold Parser.ErrIsFirst at h
    refine ⟨h, ?_⟩
    unfold Parser.Err
    rw [h]
    cases (NewParser input).Parse.state.setErrLog <;> simp

/-! ### Scan makes progress -/

theorem consume_cons (cond : Int → Bool) (c : Char) (cs : List Char) (e : Option ScanError)
    (n : Nat) (buf : List Char) (hc : cond (rune c) = true) :
    Scanner.consume cond (n + 1) (Scanner.atInput (c :: cs) e) buf =
      Scanner.consume cond n (Scanner.atInput cs e) (buf ++ [c]) := by
  have hch : (Scanner.atInput (c :: cs) e).ch = rune c := rfl
  rw [Scanner.consume, hch, if_pos hc, Next_atInput, runeChar_rune]
  rfl

theorem consume_suffix (cond : Int → Bool) (e : Option ScanError) (fuel : Nat) :
    ∀ (l buf : List Char),
      ∃ l1, (Scanner.consume cond fuel (Scanner.atInput l e) buf).1 = Scanner.atInput l1 e ∧
        l1 <:+ l := by
  induction fuel with
  | zero => intro l buf; exact ⟨l, rfl, List.suffix_refl l⟩
  | succ n ih =>
    intro l buf
    rw [Scanner.consume]
    split
    · rw [Next_atInput]
      obtain ⟨l1, h1, h2⟩ := ih l.tail (buf ++ [runeChar (Scanner.atInput l e).ch])
      exact ⟨l1, h1, h2.trans (List.tail_suffix l)⟩
    · exact ⟨l, rfl, List.suffix_refl l⟩

theorem setErr_atInput (l : List Char) (e : Option ScanError) (x : ScanError) :
    ∃ e1, (Scanner.atInput l e).setErr x = Scanner.atInput l e1 := by
  unfold Scanner.setErr
  split
  · exact ⟨some x, by cases l <;> rfl⟩
  · exact ⟨e, rfl⟩

theorem scanIdentFull_suffix (l buf : List Char) (e : Option ScanError) :
    ∃ l1 e1, ((Scanner.atInput l e).scanIdentFull buf).2 = Scanner.atInput l1 e1 ∧
      l1 <:+ l := by
  unfold Scanner.scanIdentFull
  split
  · obtain ⟨h1, h2, -⟩ := hexLoop_spec 8 (Scanner.atInput l e)
      (buf ++ [runeChar (Scanner.atInput l e).ch]) (atInput_ch_ne_notReadYet l e)
    refine ⟨_, _, congrArg Prod.snd (Next_of_read _ h2), ?_⟩
    rw [h1, atInput_r]
    exact (List.drop_suffix 8 l.tail).trans (List.tail_suffix l)
  · exact ⟨l, e, rfl, List.suffix_refl l⟩

theorem isIdentChar_of_isLetter (x : Int) (h : isLetter x = true) : isIdentChar x = true := by
  have := (isLetter_iff x).1 h
  rw [isIdentChar_iff]
  omega

/-- At a letter scanIdent consumes that letter at least. -/
theorem scanIdent_suffix (c : Char) (cs : List Char) (e : Option ScanError)
    (hc : isLetter (rune c) = true) :
    ∃ l1 e1, (Scanner.atInput (c :: cs) e).scanIdent.2 = Scanner.atInput l1 e1 ∧
      l1 <:+ cs := by
  have hid := isIdentChar_of_isLetter _ hc
  have hfuel : (Scanner.atInput (c :: cs) e).fuel = (cs.length + 1) + 1 := rfl
  obtain ⟨l1, h1, hs1⟩ := consume_suffix isIdentChar e (cs.length + 1) cs ([] ++ [c])
  unfold Scanner.scanIdent
  simp only [hfuel, consume_cons isIdentChar c cs e _ [] hid]
  generalize Scanner.consume isIdentChar (cs.length + 1) (Scanner.atInput cs e) ([] ++ [c]) = r1
    at h1
  split
  · exact ⟨l1, e, h1, hs1⟩
  · split
    · rw [h1, Next_atInput]
      simp only
      obtain ⟨l2, h2, hs2⟩ := consume_suffix isIdentChar e (Scanner.atInput l1.tail e).fuel
        l1.tail (r1.2 ++ [runeChar (Scanner.atInput l1 e).ch])
      have hs2' : l2 <:+ cs := hs2.trans ((List.tail_suffix l1).trans hs1)
      split
      · exact ⟨l2, e, h2, hs2'⟩
      · split
        · rw [h2]
          obtain ⟨l3, e3, h3, hs3⟩ := scanIdentFull_suffix l2
            (Scanner.consume isIdentChar (Scanner.atInput l1.tail e).fuel
              (Scanner.atInput l1.tail e) (r1.2 ++ [runeChar (Scanner.atInput l1 e).ch])).2 e
          exact ⟨l3, e3, h3, hs3.trans hs2'⟩
        · obtain ⟨e2, he2⟩ := setErr_atInput l1.tail e
            (.expectedLetter (Scanner.atInput l1.tail e).ch)
          rw [he2]
          obtain ⟨l3, e3, h3, hs3⟩ := scanIdentFull_suffix l1.tail
            (r1.2 ++ [runeChar (Scanner.atInput l1 e).ch]) e2
          exact ⟨l3, e3, h3, hs3.trans ((List.tail_suffix l1).trans hs1)⟩
    · rw [h1]
      obtain ⟨l3, e3, h3, hs3⟩ := scanIdentFull_suffix l1 r1.2 e
      exact ⟨l3, e3, h3, hs3.trans hs1⟩

theorem punctItem_ne_EOF (ch : Int) : punctItem ch ≠ ItemEOF := by
  unfold punctItem
  repeat (refine ite_ne_of (by decide) ?_)
  decide

theorem scanIdent_ne_EOF (s : Scanner) : s.scanIdent.1.Token ≠ ItemEOF := by
  intro h
  have := scanIdent_kind s
  rw [h] at this
  simp at this

theorem scanTripleMinus_ne_EOF (s : Scanner) : s.scanTripleMinus.1.Token ≠ ItemEOF := by
  unfold Scanner.scanTripleMinus
  simp only
  split <;> simp

theorem scanTripleMinus_snd (l : List Char) (e : Option ScanError) :
    (Scanner.atInput l e).scanTripleMinus.2 = Scanner.atInput l.tail.tail e := by
  unfold Scanner.scanTripleMinus
  simp only [Next_atInput]
  split <;> rfl

theorem suffix_length_lt_cons {l1 cs : List Char} (c : Char) (h : l1 <:+ cs) :
    l1.length < (c :: cs).length := by
  have := h.length_le
  simp only [List.length_cons]
  omega

/-- Scan on a scanner whose look-ahead is read. -/
theorem Scan_atInput_ends (l : List Char) (e : Option ScanError) :
    ScanEnds l (Scanner.atInput l e).Scan := by
  unfold Scanner.Scan
  rw [peek_of_read _ (atInput_ch_ne_notReadYet l e)]
  simp only
  cases l with
  | nil =>
    have hch : (Scanner.atInput [] e).ch = eof := rfl
    have h1 : isWhitespace eof = false := by decide
    have h2 : isLetter eof = false := by decide
    have h3 : isDigit eof = false := by decide
    simp only [hch, h1, h2, h3, Bool.false_eq_true, if_false, Next_atInput, List.tail_nil,
      Scanner.scanDefault, if_true]
    exact ⟨[], e, rfl, List.suffix_refl _, fun _ => rfl, fun h => absurd rfl h⟩
  | cons c cs =>
    have hch : (Scanner.atInput (c :: cs) e).ch = rune c := rfl
    have hfuel : (Scanner.atInput (c :: cs) e).fuel = (cs.length + 1) + 1 := rfl
    rw [hch]
    split
    · rename_i hw
      obtain ⟨l1, h1, hs1⟩ := consume_suffix isWhitespace e (cs.length + 1) cs ([] ++ [c])
      refine ⟨l1, e, ?_, hs1.trans (List.suffix_cons c cs), ?_, fun _ => suffix_length_lt_cons c hs1⟩
      · simp only [Scanner.scanWhitespace, hfuel, consume_cons isWhitespace c cs e _ [] hw]
        exact h1
      · intro h
        simp [Scanner.scanWhitespace] at h
    · split
      · rename_i hl
        obtain ⟨l1, e1, h1, hs1⟩ := scanIdent_suffix c cs e hl
        exact ⟨l1, e1, h1, hs1.trans (List.suffix_cons c cs),
          fun h => absurd h (scanIdent_ne_EOF _), fun _ => suffix_length_lt_cons c hs1⟩
      · split
        · rename_i hd
          obtain ⟨l1, h1, hs1⟩ := consume_suffix isDigit e (cs.length + 1) cs ([] ++ [c])
          refine ⟨l1, e, ?_, hs1.trans (List.suffix_cons c cs), ?_,
            fun _ => suffix_length_lt_cons c hs1⟩
          · simp only [Scanner.scanNumber, hfuel, consume_cons isDigit c cs e _ [] hd]
            exact h1
          · intro h
            simp [Scanner.scanNumber] at h
        · rw [Next_atInput]
          simp only [hch, List.tail_cons]
          unfold Scanner.scanDefault
          rw [if_neg (rune_ne_eof c)]
          split
          · rename_i hs
            have : c = '/' := rune_injective hs
            show '/' ∈ c :: cs
            simp [this]
          · split
            · refine ⟨cs.tail.tail, e, scanTripleMinus_snd cs e,
                ((List.tail_suffix _).trans (List.tail_suffix _)).trans (List.suffix_cons c cs),
                fun h => absurd h (scanTripleMinus_ne_EOF _), fun _ => ?_⟩
              exact suffix_length_lt_cons c ((List.tail_suffix _).trans (List.tail_suffix _))
            · exact ⟨cs, e, rfl, List.suffix_cons c cs,
                fun h => absurd h (punctItem_ne_EOF _),
                fun _ => suffix_length_lt_cons c (List.suffix_refl cs)⟩

/-- Scan on a scanner that faces `l`. -/
theorem Scan_faces (s : Scanner) (l : List Char) (h : s.Faces l) : ScanEnds l s.Scan := by
  rcases h with rfl | ⟨e, rfl⟩
  · rw [Scan_NewScanner]
    exact Scan_atInput_ends l none
  · exact Scan_atInput_ends l e

/-! ### Parse ends -/

theorem Ends_mono {α : Type} {k1 k : Nat} {l1 l : List Char} {o : POutcome α}
    (h : Ends k1 l1 o) (hk : k1 ≤ k) (hl : l1 <:+ l) : Ends k l o := by
  cases o with
  | ret a p1 =>
    obtain ⟨l2, h1, h2, h3⟩ := h
    exact ⟨l2, h1, h2.trans hl, le_trans h3 hk⟩
  | fatal m p1 => exact h
  | panicked m p1 => exact hl.subset h
  | outOfFuel p1 => exact h

theorem Ends_andThen {α β : Type} {k k2 : Nat} {l : List Char} {o : POutcome α}
    {f : α → Parser → POutcome β} (h : Ends k l o)
    (hf : ∀ a p1 l1, p1.Ready l1 → l1 <:+ l → leftToParse l1 p1.tok ≤ k → Ends k2 l (f a p1)) :
    Ends k2 l (o.andThen f) := by
  cases o with
  | ret a p1 =>
    obtain ⟨l1, h1, h2, h3⟩ := h
    exact hf a p1 l1 h1 h2 h3
  | fatal m p1 => exact h
  | panicked m p1 => exact h
  | outOfFuel p1 => exact h.elim

theorem nextLoop_ends (fuel : Nat) :
    ∀ (p : Parser) (l : List Char), p.s.Faces l → l.length < fuel →
      Ends l.length l (Parser.nextLoop fuel p) := by
  induction fuel with
  | zero => intro p l _ h; omega
  | succ n ih =>
    intro p l hface hlen
    have hscan := Scan_faces p.s l hface
    rw [Parser.nextLoop]
    cases hs : p.s.Scan with
    | ret tok s1 =>
      rw [hs] at hscan
      obtain ⟨l1, e1, rfl, hsuf, heof, hlt⟩ := hscan
      simp only
      split
      · rename_i hw
        refine ⟨l1, ⟨⟨e1, rfl⟩, heof⟩, hsuf, ?_⟩
        unfold leftToParse
        simp only
        split
        · have := hsuf.length_le
          omega
        · rename_i hne
          have := hlt hne
          omega
      · rename_i hw
        have hne : tok.Token ≠ ItemEOF := by
          intro h
          rw [h] at hw
          simp at hw
        have hl1 := hlt hne
        have := ih { p with s := Scanner.atInput l1 e1, tok := tok } l1 (Or.inr ⟨e1, rfl⟩)
          (by omega)
        exact Ends_mono this (by omega) hsuf
    | fatal m st => exact m.elim
    | panicked m st =>
      rw [hs] at hscan
      exact hscan
    | outOfFuel st =>
      rw [hs] at hscan
      exact hscan.elim

theorem faces_fuel (s : Scanner) (l : List Char) (h : s.Faces l) : l.length < s.fuel := by
  rcases h with rfl | ⟨e, rfl⟩
  · simp [Scanner.fuel, NewScanner]
  · cases l <;> simp [Scanner.fuel, Scanner.atInput]

theorem next_ends (p : Parser) (l : List Char) (h : p.s.Faces l) :
    Ends l.length l p.next :=
  nextLoop_ends _ p l h (faces_fuel p.s l h)

theorem expectErrc_spec (tok : Item) (items : List Item) :
    ∀ k : Nat, (tok ∈ items → expectErrc tok items k = 0) ∧
      (tok ∉ items → expectErrc tok items k = k + items.length) := by
  induction items with
  | nil => intro k; simp [expectErrc]
  | cons item rest ih =>
    intro k
    by_cases h : tok = item
    · simp [expectErrc, h]
    · obtain ⟨h1, h2⟩ := ih (k + 1)
      refine ⟨fun hm => ?_, fun hm => ?_⟩
      · rcases List.mem_cons.1 hm with hm | hm
        · exact absurd hm h
        · simp [expectErrc, h, h1 hm]
      · have hr : tok ∉ rest := fun hx => hm (List.mem_cons_of_mem _ hx)
        simp [expectErrc, h, h2 hr]
        omega

theorem expect_ends (p : Parser) (l : List Char) (items : List Item) (h : p.Ready l) :
    Ends l.length l (p.expect items) := by
  unfold Parser.expect
  simp only
  split
  · rename_i hne
    obtain ⟨h1, h2⟩ := expectErrc_spec p.tok.Token items 0
    have hnot : p.tok.Token ∉ items := fun hm => hne (h1 hm)
    refine ⟨items.take (expectErrc p.tok.Token items 0), rfl, ?_⟩
    exact fun hm => hnot (List.mem_of_mem_take hm)
  · exact next_ends p l (Or.inr h.1)

theorem setErr_ready (p : Parser) (l : List Char) (e : String) (h : p.Ready l) :
    (p.setErr e).Ready l ∧ (p.setErr e).tok = p.tok := by
  unfold Parser.setErr
  split <;> exact ⟨h, rfl⟩

theorem expectSemi_ends (p : Parser) (l : List Char) (h : p.Ready l) :
    Ends l.length l p.expectSemi := by
  unfold Parser.expectSemi
  split
  · exact next_ends _ l (Or.inr (setErr_ready p l _ h).1.1)
  · exact next_ends p l (Or.inr h.1)

theorem leftToParse_ge (l : List Char) (tok : Token) : l.length ≤ leftToParse l tok := by
  unfold leftToParse
  omega

theorem parseBuiltinCombinatorDecl_ends (p : Parser) (l : List Char) (h : p.Ready l) :
    Ends l.length l p.parseBuiltinCombinatorDecl := by
  have step : ∀ {α : Type} (o : Parser → POutcome α),
      (∀ q lq, q.Ready lq → Ends lq.length lq (o q)) →
      ∀ q lq, q.Ready lq → lq <:+ l → Ends l.length l (o q) :=
    fun o ho q lq hq hs => Ends_mono (ho q lq hq) hs.length_le hs
  unfold Parser.parseBuiltinCombinatorDecl Parser.parseFullCombinatorId
    Parser.parseBoxedTypeIdent
  refine Ends_andThen (Ends_andThen (expect_ends p l _ h)
    fun _ p1 l1 h1 hs1 hk1 => ⟨l1, h1, hs1, hk1⟩) ?_
  intro _ p1 l1 h1 hs1 _
  refine Ends_andThen (step (fun q => q.expect _) (fun q lq hq => expect_ends q lq _ hq)
    p1 l1 h1 hs1) ?_
  intro _ p2 l2 h2 hs2 _
  refine Ends_andThen (step (fun q => q.expect _) (fun q lq hq => expect_ends q lq _ hq)
    p2 l2 h2 hs2) ?_
  intro _ p3 l3 h3 hs3 _
  refine Ends_andThen (Ends_andThen (step (fun q => q.expect _)
    (fun q lq hq => expect_ends q lq _ hq) p3 l3 h3 hs3)
    fun _ p4 l4 h4 hs4 hk4 => ⟨l4, h4, hs4, hk4⟩) ?_
  intro _ p4 l4 h4 hs4 _
  refine Ends_andThen (step (fun q => q.expectSemi) expectSemi_ends p4 l4 h4 hs4) ?_
  intro _ p5 l5 h5 hs5 hk5
  exact ⟨l5, h5, hs5, hk5⟩

theorem parseDecl_ends (p : Parser) (l : List Char) (h : p.Ready l) :
    Ends (leftToParse l p.tok) l p.parseDecl := by
  have hge := leftToParse_ge l p.tok
  unfold Parser.parseDecl
  split
  · refine Ends_andThen (parseBuiltinCombinatorDecl_ends p l h) ?_
    intro _ p1 l1 h1 hs1 hk1
    exact ⟨l1, h1, hs1, le_trans hk1 hge⟩
  · exact Ends_mono (next_ends p l (Or.inr h.1)) hge (List.suffix_refl l)
  · exact Ends_mono (next_ends p l (Or.inr h.1)) hge (List.suffix_refl l)
  · exact Ends_mono (next_ends p l (Or.inr h.1)) hge (List.suffix_refl l)
  · exact Ends_mono (next_ends p l (Or.inr h.1)) hge (List.suffix_refl l)
  · obtain ⟨h1, h2⟩ := setErr_ready p l "unexpected token" h
    refine ⟨l, h1, List.suffix_refl l, ?_⟩
    rw [h2]

theorem ParseEnds_mono {l1 l : List Char} {o : POutcome Program}
    (h : ParseEnds l1 o) (hl : l1 <:+ l) : ParseEnds l o := by
  cases o with
  | ret a p1 => exact h
  | fatal m p1 => exact h
  | panicked m p1 => exact hl.subset h
  | outOfFuel p1 => exact h

theorem Ends_andThen_parse {α : Type} {k : Nat} {l : List Char} {o : POutcome α}
    {f : α → Parser → POutcome Program} (h : Ends k l o)
    (hf : ∀ a p1 l1, p1.Ready l1 → l1 <:+ l → leftToParse l1 p1.tok ≤ k →
      ParseEnds l (f a p1)) :
    ParseEnds l (o.andThen f) := by
  cases o with
  | ret a p1 =>
    obtain ⟨l1, h1, h2, h3⟩ := h
    exact hf a p1 l1 h1 h2 h3
  | fatal m p1 => exact h
  | panicked m p1 => exact h
  | outOfFuel p1 => exact h.elim

/-- One round of a loop of Parse, entered with a look-ahead token that is not
EOF: after `parseDecl` and `expectSemi` strictly less is left to parse. -/
theorem loop_body_ends (p : Parser) (l : List Char) (h : p.Ready l)
    (hne : p.tok.Token ≠ ItemEOF) (K : Parser → POutcome Program)
    (hK : ∀ p2 l2, p2.Ready l2 → l2 <:+ l → leftToParse l2 p2.tok < leftToParse l p.tok →
      ParseEnds l (K p2)) :
    ParseEnds l (p.parseDecl.andThen fun _ p1 => p1.expectSemi.andThen fun _ p2 => K p2) := by
  refine Ends_andThen_parse (parseDecl_ends p l h) ?_
  intro _ p1 l1 h1 hs1 hk1
  refine Ends_andThen_parse (Ends_mono (expectSemi_ends p1 l1 h1) le_rfl hs1) ?_
  intro _ p2 l2 h2 hs2 hk2
  refine hK p2 l2 h2 hs2 ?_
  have hpos : l.length + 1 = leftToParse l p.tok := by
    unfold leftToParse
    rw [if_neg hne]
  by_cases h1e : p1.tok.Token = ItemEOF
  · have : l1 = [] := h1.2 h1e
    subst this
    simp only [List.length_nil] at hk2
    omega
  · have : leftToParse l1 p1.tok = l1.length + 1 := by
      unfold leftToParse
      rw [if_neg h1e]
    omega

theorem ret_at_EOF (p : Parser) (l : List Char) (h : p.Ready l) (he : p.tok.Token = ItemEOF) :
    ParseEnds l (.ret Program.zero p) := by
  have hl : l = [] := h.2 he
  subst hl
  exact ⟨rfl, h, he⟩

theorem typesLoop_ends (fuel : Nat) :
    ∀ (p : Parser) (l : List Char), p.Ready l → leftToParse l p.tok < fuel →
      ParseEnds l (Parser.typesLoop fuel p) := by
  induction fuel with
  | zero => intro p l _ h; omega
  | succ n ih =>
    intro p l h hlt
    rw [Parser.typesLoop]
    split
    · rename_i he
      exact ret_at_EOF p l h he
    · rename_i hne
      refine loop_body_ends p l h hne _ ?_
      intro p2 l2 h2 hs2 hk2
      refine ParseEnds_mono (ih _ l2 ?_ ?_) hs2
      · split
        · exact (setErr_ready p2 l2 _ h2).1
        · exact h2
      · split
        · rw [(setErr_ready p2 l2 _ h2).2]
          omega
        · omega

theorem funLoop_ends (fuel : Nat) :
    ∀ (p : Parser) (l : List Char), p.Ready l → leftToParse l p.tok < fuel →
      ParseEnds l (Parser.funLoop fuel p) := by
  induction fuel with
  | zero => intro p l _ h; omega
  | succ n ih =>
    intro p l h hlt
    rw [Parser.funLoop]
    split
    · rename_i he
      exact ret_at_EOF p l h he
    · rename_i hne
      refine loop_body_ends p l h hne _ ?_
      intro p2 l2 h2 hs2 hk2
      refine ParseEnds_mono ?_ hs2
      split
      · split
        · exact typesLoop_ends n p2 l2 h2 (by omega)
        · refine ih _ l2 (setErr_ready p2 l2 _ h2).1 ?_
          rw [(setErr_ready p2 l2 _ h2).2]
          omega
      · exact ih p2 l2 h2 (by omega)

theorem constrLoop_ends (fuel : Nat) :
    ∀ (p : Parser) (l : List Char), p.Ready l → leftToParse l p.tok < fuel →
      ParseEnds l (Parser.constrLoop fuel p) := by
  induction fuel with
  | zero => intro p l _ h; omega
  | succ n ih =>
    intro p l h hlt
    rw [Parser.constrLoop]
    split
    · rename_i he
      exact ret_at_EOF p l h he
    · rename_i hne
      refine loop_body_ends p l h hne _ ?_
      intro p2 l2 h2 hs2 hk2
      refine ParseEnds_mono ?_ hs2
      split
      · split
        · refine Ends_andThen_parse (next_ends p2 l2 (Or.inr h2.1)) ?_
          intro _ p3 l3 h3 hs3 hk3
          refine Ends_andThen_parse (Ends_mono (expect_ends p3 l3 _ h3) hs3.length_le hs3) ?_
          intro _ p4 l4 h4 hs4 hk4
          have := leftToParse_ge l2 p2.tok
          exact ParseEnds_mono (funLoop_ends n p4 l4 h4 (by omega)) hs4
        · refine ih _ l2 (setErr_ready p2 l2 _ h2).1 ?_
          rw [(setErr_ready p2 l2 _ h2).2]
          omega
      · exact ih p2 l2 h2 (by omega)

/-- Parse on a fresh parser ends in one of the three ways of `ParseEnds`. -/
theorem Parse_ends (input : List Char) : ParseEnds input (NewParser input).Parse := by
  unfold Parser.Parse
  refine Ends_andThen_parse (next_ends (NewParser input) input (Or.inl rfl)) ?_
  intro _ p1 l1 h1 hs1 hk1
  refine ParseEnds_mono (constrLoop_ends _ p1 l1 h1 ?_) hs1
  have : (NewParser input).s.fuel = input.length + 2 := rfl
  omega

/-- C2, refuted as stated: on `users.user;` the `;` does not match the `?`
that parseBuiltinCombinatorDecl expects, and Parse does not return: `expect`
ends the process through `log.Fatal`, with Err() still nil. -/
theorem Parse_users_user_fatal :
    (NewParser "users.user;".toList).Parse =
        .fatal (.expectedGotWant ⟨ItemSemicolon, ";"⟩ [ItemQuestionMark])
          ⟨⟨[], eof, none⟩, ⟨ItemSemicolon, ";"⟩, none, []⟩ ∧
      ¬ ∃ prog p, (NewParser "users.user;".toList).Parse = .ret prog p := by
  have h : (NewParser "users.user;".toList).Parse =
      .fatal (.expectedGotWant ⟨ItemSemicolon, ";"⟩ [ItemQuestionMark])
        ⟨⟨[], eof, none⟩, ⟨ItemSemicolon, ";"⟩, none, []⟩ := by decide
  refine ⟨h, ?_⟩
  rintro ⟨prog, p, hp⟩
  rw [h] at hp
  cases hp

/-- C2, amended: Parse never hangs: for every input it ends within the fuel
it is given. For every input without `/` it either returns to its caller at
the end of the input (the look-ahead token is EOF and nothing is left in the
scanner), or the process exits in `log.Fatal` at the first token whose kind is
not among the items of an `expect`; such a token is not recorded in Err(), as
on `users.user;`, where the `;` meets `expect(ItemQuestionMark)` and Err() is
still nil. -/
theorem Parse_returns_or_fatal :
    (∀ (input : List Char) (p : Parser), (NewParser input).Parse ≠ .outOfFuel p) ∧
      (∀ input : List Char, '/' ∉ input →
        (∃ p, (NewParser input).Parse = .ret Program.zero p ∧ p.tok.Token = ItemEOF ∧
            p.s.r = [] ∧ p.s.ch = eof) ∨
          (∃ items p, (NewParser input).Parse = .fatal (.expectedGotWant p.tok items) p ∧
            p.tok.Token ∉ items)) ∧
      (NewParser "users.user;".toList).Parse =
        .fatal (.expectedGotWant ⟨ItemSemicolon, ";"⟩ [ItemQuestionMark])
          ⟨⟨[], eof, none⟩, ⟨ItemSemicolon, ";"⟩, none, []⟩ := by
  refine ⟨?_, ?_, by decide⟩
  · intro input p hp
    have h := Parse_ends input
    rw [hp] at h
    exact h
  · intro input hslash
    have h := Parse_ends input
    cases ho : (NewParser input).Parse with
    | ret prog p =>
      rw [ho] at h
      obtain ⟨rfl, ⟨⟨e, he⟩, -⟩, htok⟩ := h
      left
      refine ⟨p, rfl, htok, ?_, ?_⟩ <;> rw [he] <;> rfl
    | fatal m p =>
      rw [ho] at h
      obtain ⟨items, rfl, hnot⟩ := h
      exact Or.inr ⟨items, p, rfl, hnot⟩
    | panicked m p =>
      rw [ho] at h
      exact absurd h hslash
    | outOfFuel p =>
      rw [ho] at h
      exact h.elim

/-- C2, amended, at the input `Foo; bar` (no `/`). -/
theorem Parse_returns_or_fatal_witness :
    '/' ∉ "Foo; bar".toList ∧
      ((∃ p, (NewParser "Foo; bar".toList).Parse = .ret Program.zero p ∧
            p.tok.Token = ItemEOF ∧ p.s.r = [] ∧ p.s.ch = eof) ∨
        (∃ items p, (NewParser "Foo; bar".toList).Parse =
            .fatal (.expectedGotWant p.tok items) p ∧ p.tok.Token ∉ items)) :=
  ⟨by decide, Parse_returns_or_fatal.2.1 "Foo; bar".toList (by decide)⟩

/-! ### Scan in closed form -/

theorem stopsAt_ch (cond : Int → Bool) (hcond : cond eof = false) (rest : List Char)
    (e : Option ScanError) (h : stopsAt cond rest = true) :
    cond (Scanner.atInput rest e).ch = false := by
  cases rest with
  | nil => exact hcond
  | cons y ys => simpa [stopsAt] using h

theorem stopsAt_dropWhile (cond : Int → Bool) (l : List Char) :
    stopsAt cond (l.dropWhile fun c => cond (rune c)) = true := by
  have h := List.head?_dropWhile_not (fun c => cond (rune c)) l
  cases hd : l.dropWhile (fun c => cond (rune c)) with
  | nil => rfl
  | cons y ys =>
    rw [hd] at h
    simpa [stopsAt] using h

/-- A loop of the scanner on any input: it takes the longest prefix of runes
that pass its test. -/
theorem consume_eq (cond : Int → Bool) (hcond : cond eof = false) (l buf : List Char)
    (e : Option ScanError) (fuel : Nat) (hf : l.length < fuel) :
    Scanner.consume cond fuel (Scanner.atInput l e) buf =
      (Scanner.atInput (l.dropWhile fun c => cond (rune c)) e,
        buf ++ l.takeWhile fun c => cond (rune c)) := by
  have hsplit := List.takeWhile_append_dropWhile (fun c => cond (rune c)) l
  have hrun := consume_run cond e (l.dropWhile fun c => cond (rune c))
    (stopsAt_ch cond hcond _ e (stopsAt_dropWhile cond l))
    (l.takeWhile fun c => cond (rune c)) fuel buf
    (fun x hx => List.mem_takeWhile_imp (p := fun c => cond (rune c)) hx)
    (lt_of_le_of_lt (List.takeWhile_prefix _).length_le hf)
  rw [hsplit] at hrun
  exact hrun

theorem atInput_fuel_gt (l : List Char) (e : Option ScanError) :
    l.length < (Scanner.atInput l e).fuel := by
  cases l <;> simp [Scanner.fuel, Scanner.atInput]

theorem scanWhitespace_eq (l : List Char) (e : Option ScanError) :
    (Scanner.atInput l e).scanWhitespace =
      (⟨ItemWhitespace, String.mk (l.takeWhile fun c => isWhitespace (rune c))⟩,
        Scanner.atInput (l.dropWhile fun c => isWhitespace (rune c)) e) := by
  unfold Scanner.scanWhitespace
  simp only [consume_eq isWhitespace (by decide) l [] e _ (atInput_fuel_gt l e), List.nil_append]

theorem scanNumber_eq (l : List Char) (e : Option ScanError) :
    (Scanner.atInput l e).scanNumber =
      (⟨ItemNatConst, String.mk (l.takeWhile fun c => isDigit (rune c))⟩,
        Scanner.atInput (l.dropWhile fun c => isDigit (rune c)) e) := by
  unfold Scanner.scanNumber
  simp only [consume_eq isDigit (by decide) l [] e _ (atInput_fuel_gt l e), List.nil_append]

/-- Scan on a scanner whose look-ahead is read, by the class of the first
rune. -/
theorem Scan_atInput_cons (c : Char) (cs : List Char) (e : Option ScanError) :
    (Scanner.atInput (c :: cs) e).Scan =
      if isWhitespace (rune c) then
        .ret (Scanner.atInput (c :: cs) e).scanWhitespace.1
          (Scanner.atInput (c :: cs) e).scanWhitespace.2
      else if isLetter (rune c) then
        .ret (Scanner.atInput (c :: cs) e).scanIdent.1 (Scanner.atInput (c :: cs) e).scanIdent.2
      else if isDigit (rune c) then
        .ret (Scanner.atInput (c :: cs) e).scanNumber.1
          (Scanner.atInput (c :: cs) e).scanNumber.2
      else (Scanner.atInput cs e).scanDefault (rune c) := by
  unfold Scanner.Scan
  rw [peek_of_read _ (atInput_ch_ne_notReadYet _ e)]
  simp only [Next_atInput]
  rfl

theorem Scan_atInput_nil (e : Option ScanError) :
    (Scanner.atInput [] e).Scan = .ret tokEOF (Scanner.atInput [] e) := by
  unfold Scanner.Scan
  rw [peek_of_read _ (atInput_ch_ne_notReadYet _ e)]
  simp only [Next_atInput]
  have hch : (Scanner.atInput [] e).ch = eof := rfl
  have h1 : isWhitespace eof = false := by decide
  have h2 : isLetter eof = false := by decide
  have h3 : isDigit eof = false := by decide
  simp only [hch, h1, h2, h3, Bool.false_eq_true, if_false, List.tail_nil, Scanner.scanDefault,
    if_true, tokEOF]

/-- A scanner that faces `l` scans like the one whose look-ahead is read. -/
theorem Scan_of_faces (s : Scanner) (l : List Char) (h : s.Faces l) :
    ∃ e, s.Scan = (Scanner.atInput l e).Scan ∧ s.err = e := by
  rcases h with rfl | ⟨e, rfl⟩
  · exact ⟨none, Scan_NewScanner l, rfl⟩
  · exact ⟨e, rfl, atInput_err l e⟩

/-! ### The default case of Scan -/

theorem Scan_slash (l : List Char) (e : Option ScanError) :
    (Scanner.atInput ('/' :: l) e).Scan =
      .panicked "unreachable"
        (if (Scanner.atInput l e).ch = rune '/' then
          { Scanner.atInput l e with r := dropLine (Scanner.atInput l e).r }
        else Scanner.atInput l e) := by
  rw [Scan_atInput_cons]
  have h1 : isWhitespace (rune '/') = false := by decide
  have h2 : isLetter (rune '/') = false := by decide
  have h3 : isDigit (rune '/') = false := by decide
  have h4 : ¬ rune '/' = eof := by decide
  simp only [h1, h2, h3, Bool.false_eq_true, if_false, Scanner.scanDefault, h4, if_true]

/-- C11 (the code falls short of the claim): on every input that starts with
`/` Scan neither discards a comment nor returns a token: the case `'/'` of its
switch has no `return`, so after the optional `ReadBytes('\n')` control reaches
`panic("unreachable")`. On `// c\nint` the scanner has dropped ` c\n` when it
panics; the token (LowerIdent, `int`) is never returned. -/
theorem Scan_comment_panics :
    (∀ (s : Scanner) (l : List Char), s.Faces ('/' :: l) →
        ∃ st, s.Scan = .panicked "unreachable" st) ∧
      (NewScanner "// c\nint".toList).Scan =
        .panicked "unreachable" { r := "int".toList, ch := rune '/', err := none } := by
  refine ⟨?_, by decide⟩
  intro s l h
  obtain ⟨e, he, -⟩ := Scan_of_faces s _ h
  rw [he, Scan_slash]
  exact ⟨_, rfl⟩

/-- C11 on the input `// c\nint`. -/
theorem Scan_comment_panics_witness :
    (NewScanner "// c\nint".toList).Faces ('/' :: "/ c\nint".toList) ∧
      ∃ st, (NewScanner "// c\nint".toList).Scan = .panicked "unreachable" st :=
  ⟨Or.inl rfl,
    Scan_comment_panics.1 (NewScanner "// c\nint".toList) "/ c\nint".toList (Or.inl rfl)⟩

theorem Scan_minus (l : List Char) (e : Option ScanError) :
    (Scanner.atInput ('-' :: l) e).Scan =
      .ret
        (if l.take 2 = ['-', '-'] then ⟨ItemTripleMinus, "---"⟩
         else ⟨ItemIllegal,
           String.mk ('-' :: (l.take 2 ++ List.replicate (2 - l.length) (Char.ofNat 0xFFFD)))⟩)
        (Scanner.atInput (l.drop 2) e) := by
  rw [Scan_atInput_cons]
  have h1 : isWhitespace (rune '-') = false := by decide
  have h2 : isLetter (rune '-') = false := by decide
  have h3 : isDigit (rune '-') = false := by decide
  have h4 : ¬ rune '-' = eof := by decide
  have h5 : ¬ rune '-' = rune '/' := by decide
  have hu : runeChar eof = Char.ofNat 0xFFFD := by decide
  simp only [h1, h2, h3, Bool.false_eq_true, if_false, Scanner.scanDefault, h4, h5, if_true,
    Scanner.scanTripleMinus, Next_atInput]
  rcases l with _ | ⟨a, _ | ⟨b, t⟩⟩
  · have hne : ¬ eof = rune '-' := by decide
    simp [Scanner.atInput, hne, hu]
  · have hne : ¬ (rune a = rune '-' ∧ eof = rune '-') := by
      rintro ⟨-, h⟩
      exact absurd h (by decide)
    simp [Scanner.atInput, hne, hu, runeChar_rune]
  · by_cases hab : a = '-' ∧ b = '-'
    · obtain ⟨rfl, rfl⟩ := hab
      simp [Scanner.atInput]
    · have hne : ¬ (rune a = rune '-' ∧ rune b = rune '-') := by
        rintro ⟨h1, h2⟩
        exact hab ⟨rune_injective h1, rune_injective h2⟩
      have hne2 : ¬ ([a, b] = ['-', '-']) := by
        intro h
        simp at h
        exact hab h
      simp [Scanner.atInput, hne, runeChar_rune, hab]

/-- C12, refuted as stated: on the input `-` alone and on `-a` Scan returns an
Illegal token whose literal has three characters, with U+FFFD where the input
had none; the literal is not the text consumed from the input. -/
theorem Scan_minus_at_end_of_input :
    (NewScanner "-".toList).Scan =
        .ret ⟨ItemIllegal, String.mk ['-', Char.ofNat 0xFFFD, Char.ofNat 0xFFFD]⟩
          { r := [], ch := eof, err := none } ∧
      (NewScanner "-a".toList).Scan =
        .ret ⟨ItemIllegal, String.mk ['-', 'a', Char.ofNat 0xFFFD]⟩
          { r := [], ch := eof, err := none } ∧
      String.mk ['-', Char.ofNat 0xFFFD, Char.ofNat 0xFFFD] ≠ "-" ∧
      String.mk ['-', 'a', Char.ofNat 0xFFFD] ≠ "-a" := by
  decide

/-- C12, amended: when the next rune is `-`, Scan returns (TripleMinus, `---`)
iff the two runes after it are both `-`; for every other input starting with
`-` it returns an Illegal token and has consumed the `-` and up to two runes
after it; the literal is those three characters verbatim when two runes follow
the `-` (`--a` gives `--a`, `-aa` gives `-aa`), and holds U+FFFD for each of
the two positions that lies past the end of the input. -/
theorem Scan_minus_spec (s : Scanner) (l : List Char) (h : s.Faces ('-' :: l)) :
    ∃ tok s1, s.Scan = .ret tok s1 ∧ s1.Faces (l.drop 2) ∧ s1.err = s.err ∧
      (tok = ⟨ItemTripleMinus, "---"⟩ ↔ l.take 2 = ['-', '-']) ∧
      (l.take 2 ≠ ['-', '-'] →
        tok = ⟨ItemIllegal,
          String.mk ('-' :: (l.take 2 ++ List.replicate (2 - l.length) (Char.ofNat 0xFFFD)))⟩) ∧
      (l.take 2 ≠ ['-', '-'] → 2 ≤ l.length →
        tok = ⟨ItemIllegal, String.mk ('-' :: l.take 2)⟩) := by
  obtain ⟨e, he, herr⟩ := Scan_of_faces s _ h
  rw [he, Scan_minus]
  refine ⟨_, _, rfl, Or.inr ⟨e, rfl⟩, by rw [atInput_err, herr], ?_, ?_, ?_⟩
  · constructor
    · intro ht
      by_contra hn
      rw [if_neg hn] at ht
      cases ht
    · intro ht
      rw [if_pos ht]
  · intro hn
    rw [if_neg hn]
  · intro hn hlen
    rw [if_neg hn, Nat.sub_eq_zero_of_le hlen]
    simp

/-- C12, amended, at the input `--a`. -/
theorem Scan_minus_spec_witness :
    (NewScanner "--a".toList).Faces ('-' :: "-a".toList) ∧
      ∃ tok s1, (NewScanner "--a".toList).Scan = .ret tok s1 ∧
        s1.Faces ("-a".toList.drop 2) ∧ s1.err = (NewScanner "--a".toList).err ∧
        (tok = ⟨ItemTripleMinus, "---"⟩ ↔ "-a".toList.take 2 = ['-', '-']) ∧
        ("-a".toList.take 2 ≠ ['-', '-'] →
          tok = ⟨ItemIllegal,
            String.mk ('-' :: ("-a".toList.take 2 ++
              List.replicate (2 - "-a".toList.length) (Char.ofNat 0xFFFD)))⟩) ∧
        ("-a".toList.take 2 ≠ ['-', '-'] → 2 ≤ "-a".toList.length →
          tok = ⟨ItemIllegal, String.mk ('-' :: "-a".toList.take 2)⟩) :=
  ⟨Or.inl rfl, Scan_minus_spec (NewScanner "--a".toList) "-a".toList (Or.inl rfl)⟩

theorem scanN_at_end (e : Option ScanError) (n : Nat) :
    Scanner.scanN n (Scanner.atInput [] e) =
      .ret (List.replicate n tokEOF) (Scanner.atInput [] e) := by
  induction n with
  | zero => rfl
  | succ n ih =>
    rw [Scanner.scanN, Scan_atInput_nil]
    simp only [Outcome.andThen, ih]
    rfl

theorem punctItem_ne_whitespace (ch : Int) : punctItem ch ≠ ItemWhitespace := by
  unfold punctItem
  repeat (refine ite_ne_of (by decide) ?_)
  decide

/-- The kind of the token that Scan returns at a rune that is no whitespace:
not Whitespace, and not EOF. -/
theorem Scan_cons_kind (c : Char) (cs : List Char) (e : Option ScanError) (tok : Token)
    (s1 : Scanner) (h : (Scanner.atInput (c :: cs) e).Scan = .ret tok s1) :
    tok.Token ≠ ItemEOF ∧ (isWhitespace (rune c) = false → tok.Token ≠ ItemWhitespace) := by
  rw [Scan_atInput_cons] at h
  split at h
  · rename_i hw
    cases h
    rw [scanWhitespace_eq]
    simp [hw]
  · split at h
    · cases h
      refine ⟨scanIdent_ne_EOF _, fun _ hk => ?_⟩
      have := scanIdent_kind (Scanner.atInput (c :: cs) e)
      rw [hk] at this
      simp at this
    · split at h
      · cases h
        rw [scanNumber_eq]
        simp
      · unfold Scanner.scanDefault at h
        rw [if_neg (rune_ne_eof c)] at h
        split at h
        · cases h
        · split at h
          · cases h
            refine ⟨scanTripleMinus_ne_EOF _, fun _ hk => ?_⟩
            unfold Scanner.scanTripleMinus at hk
            simp only at hk
            split at hk <;> simp at hk
          · cases h
            exact ⟨punctItem_ne_EOF _, fun _ => punctItem_ne_whitespace _⟩

/-- C13: at the end of the input Scan returns the token (EOF, empty literal),
on a fresh scanner and on one whose look-ahead is read, and so does every later
call on the same scanner; and whenever a call of Scan returns a token of kind
EOF, the input is at its end, the token is (EOF, empty literal) and every later
call returns it again. -/
theorem Scan_EOF_forever :
    (∀ s : Scanner, s.Faces [] → ∃ s1, s.Scan = .ret ⟨ItemEOF, ""⟩ s1 ∧
        ∀ n, Scanner.scanN n s1 = .ret (List.replicate n ⟨ItemEOF, ""⟩) s1) ∧
      (∀ (s : Scanner) (l : List Char) (tok : Token) (s1 : Scanner), s.Faces l →
        s.Scan = .ret tok s1 → tok.Token = ItemEOF →
          l = [] ∧ tok = ⟨ItemEOF, ""⟩ ∧
            ∀ n, Scanner.scanN n s1 = .ret (List.replicate n ⟨ItemEOF, ""⟩) s1) := by
  constructor
  · intro s h
    obtain ⟨e, he, -⟩ := Scan_of_faces s _ h
    exact ⟨_, he.trans (Scan_atInput_nil e), scanN_at_end e⟩
  · intro s l tok s1 h hs hk
    obtain ⟨e, he, -⟩ := Scan_of_faces s _ h
    rw [he] at hs
    cases l with
    | nil =>
      rw [Scan_atInput_nil] at hs
      cases hs
      exact ⟨rfl, rfl, scanN_at_end e⟩
    | cons c cs => exact absurd hk (Scan_cons_kind c cs e tok s1 hs).1

/-- C13 on the empty input, for a fresh scanner and for one whose look-ahead is
read. -/
theorem Scan_EOF_forever_witness :
    (NewScanner []).Faces [] ∧
      (∃ s1, (NewScanner []).Scan = .ret ⟨ItemEOF, ""⟩ s1 ∧
        ∀ n, Scanner.scanN n s1 = .ret (List.replicate n ⟨ItemEOF, ""⟩) s1) ∧
      (Scanner.atInput [] none).Faces [] ∧
      (Scanner.atInput [] none).Scan = .ret ⟨ItemEOF, ""⟩ (Scanner.atInput [] none) ∧
      (⟨ItemEOF, ""⟩ : Token).Token = ItemEOF ∧
      ([] = ([] : List Char) ∧ (⟨ItemEOF, ""⟩ : Token) = ⟨ItemEOF, ""⟩ ∧
        ∀ n, Scanner.scanN n (Scanner.atInput [] none) =
          .ret (List.replicate n ⟨ItemEOF, ""⟩) (Scanner.atInput [] none)) :=
  ⟨Or.inl rfl, Scan_EOF_forever.1 (NewScanner []) (Or.inl rfl),
    Or.inr ⟨none, rfl⟩, by decide, rfl,
    Scan_EOF_forever.2 (Scanner.atInput [] none) [] ⟨ItemEOF, ""⟩ (Scanner.atInput [] none)
      (Or.inr ⟨none, rfl⟩) (by decide) rfl⟩

/-- Scan at a rune that is neither whitespace, letter, digit, `-` nor `/`. -/
theorem Scan_punct (c : Char) (cs : List Char) (e : Option ScanError)
    (hw : isWhitespace (rune c) = false) (hl : isLetter (rune c) = false)
    (hd : isDigit (rune c) = false) (hminus : c ≠ '-') (hslash : c ≠ '/') :
    (Scanner.atInput (c :: cs) e).Scan =
      .ret ⟨punctItem (rune c), String.singleton c⟩ (Scanner.atInput cs e) := by
  rw [Scan_atInput_cons]
  have h4 : ¬ rune c = rune '/' := fun h => hslash (rune_injective h)
  have h5 : ¬ rune c = rune '-' := fun h => hminus (rune_injective h)
  simp only [hw, hl, hd, Bool.false_eq_true, if_false, Scanner.scanDefault, rune_ne_eof c, h4,
    h5, runeChar_rune]

theorem punctItem_illegal (c : Char)
    (hm : ∀ m : Char, m ∈ punctuation.map Prod.fst → ¬ rune c = rune m) :
    punctItem (rune c) = ItemIllegal := by
  unfold punctItem
  rw [
    if_neg (hm '#' (by decide)),
    if_neg (hm '.' (by decide)),
    if_neg (hm ',' (by decide)),
    if_neg (hm ':' (by decide)),
    if_neg (hm ';' (by decide)),
    if_neg (hm '_' (by decide)),
    if_neg (hm '=' (by decide)),
    if_neg (hm '%' (by decide)),
    if_neg (hm '?' (by decide)),
    if_neg (hm '!' (by decide)),
    if_neg (hm '*' (by decide)),
    if_neg (hm '+' (by decide)),
    if_neg (hm '(' (by decide)),
    if_neg (hm ')' (by decide)),
    if_neg (hm '{' (by decide)),
    if_neg (hm '}' (by decide)),
    if_neg (hm '[' (by decide)),
    if_neg (hm ']' (by decide)),
    if_neg (hm '<' (by decide)),
    if_neg (hm '>' (by decide))]

/-- C15, refuted as stated: `/` is a single character that is not a letter, a
digit, whitespace or `-`, and on the input `/` Scan does not return
(Illegal, `/`): it panics. -/
theorem Scan_single_slash_panics :
    isLetter (rune '/') = false ∧ isDigit (rune '/') = false ∧
      isWhitespace (rune '/') = false ∧ '/' ≠ '-' ∧
      (NewScanner "/".toList).Scan =
        .panicked "unreachable" { r := [], ch := eof, err := none } := by
  decide

/-- C15, amended: for each single-character punctuation mark
`_ : ; ( ) [ ] { } < > = # ! ? % + , . *`, scanning the one-character input
returns the matching token kind with that character as literal and a second
Scan returns EOF; for every other single character that is not a letter, a
digit, whitespace, `-` or `/` (e.g. `@`), Scan returns (Illegal, that
character). -/
theorem Scan_single_character :
    (∀ p ∈ punctuation,
        Scanner.scanN 2 (NewScanner [p.1]) =
          .ret [⟨p.2, String.singleton p.1⟩, ⟨ItemEOF, ""⟩] (Scanner.atInput [] none)) ∧
      (∀ c : Char, c ∉ punctuation.map Prod.fst → isLetter (rune c) = false →
        isDigit (rune c) = false → isWhitespace (rune c) = false → c ≠ '-' → c ≠ '/' →
          (NewScanner [c]).Scan =
            .ret ⟨ItemIllegal, String.singleton c⟩ (Scanner.atInput [] none)) ∧
      (NewScanner "@".toList).Scan =
        .ret ⟨ItemIllegal, "@"⟩ { r := [], ch := eof, err := none } := by
  refine ⟨by decide, ?_, by decide⟩
  intro c hc hl hd hw hminus hslash
  rw [Scan_NewScanner, Scan_punct c [] none hw hl hd hminus hslash, punctItem_illegal]
  intro m hm h
  exact hc (rune_injective h ▸ hm)

/-- C15, amended, at the character `@`. -/
theorem Scan_single_character_witness :
    '@' ∉ punctuation.map Prod.fst ∧ isLetter (rune '@') = false ∧
      isDigit (rune '@') = false ∧ isWhitespace (rune '@') = false ∧ '@' ≠ '-' ∧ '@' ≠ '/' ∧
      (NewScanner ['@']).Scan =
        .ret ⟨ItemIllegal, String.singleton '@'⟩ (Scanner.atInput [] none) :=
  ⟨by decide, by decide, by decide, by decide, by decide, by decide,
    Scan_single_character.2.1 '@' (by decide) (by decide) (by decide) (by decide) (by decide)
      (by decide)⟩

/-! ### Whitespace -/

theorem all_of_allWhitespace (ws : List Char) (h : allWhitespace ws = true) :
    ∀ x ∈ ws, isWhitespace (rune x) = true := by
  simpa [allWhitespace] using h

/-- Scan at a run of whitespace. -/
theorem Scan_whitespace_run (c : Char) (ws rest : List Char) (e : Option ScanError)
    (hws : allWhitespace (c :: ws) = true) (hstop : stopsAt isWhitespace rest = true) :
    (Scanner.atInput (c :: ws ++ rest) e).Scan =
      .ret ⟨ItemWhitespace, String.mk (c :: ws)⟩ (Scanner.atInput rest e) := by
  have hall := all_of_allWhitespace _ hws
  have hc : isWhitespace (rune c) = true := hall c (by simp)
  rw [List.cons_append, Scan_atInput_cons, if_pos hc, ← List.cons_append]
  unfold Scanner.scanWhitespace
  simp only [consume_run isWhitespace e rest (stopsAt_ch _ (by decide) rest e hstop) (c :: ws)
    _ [] hall (atInput_fuel _ _ _), List.nil_append]

/-- C14: when the next rune is a space, a tab or a newline, Scan returns one
Whitespace token whose literal is the whole maximal run of such runes starting
there, and leaves the scanner at the first rune behind the run. Consequently a
Whitespace token that Scan returns never has an empty literal, and the call of
Scan that follows it never returns a Whitespace token. -/
theorem Scan_whitespace :
    (∀ (s : Scanner) (c : Char) (ws rest : List Char), s.Faces (c :: ws ++ rest) →
        allWhitespace (c :: ws) = true → stopsAt isWhitespace rest = true →
          ∃ s1, s.Scan = .ret ⟨ItemWhitespace, String.mk (c :: ws)⟩ s1 ∧ s1.Faces rest ∧
            s1.err = s.err) ∧
      (∀ (s : Scanner) (l : List Char) (tok : Token) (s1 : Scanner), s.Faces l →
        s.Scan = .ret tok s1 → tok.Token = ItemWhitespace →
          tok.Literal ≠ "" ∧
            ∀ tok2 s2, s1.Scan = .ret tok2 s2 → tok2.Token ≠ ItemWhitespace) := by
  constructor
  · intro s c ws rest h hws hstop
    obtain ⟨e, he, herr⟩ := Scan_of_faces s _ h
    rw [he, Scan_whitespace_run c ws rest e hws hstop]
    exact ⟨_, rfl, Or.inr ⟨e, rfl⟩, by rw [atInput_err, herr]⟩
  · intro s l tok s1 h hs hk
    obtain ⟨e, he, -⟩ := Scan_of_faces s _ h
    rw [he] at hs
    cases l with
    | nil =>
      rw [Scan_atInput_nil] at hs
      cases hs
      cases hk
    | cons c cs =>
      have hw : isWhitespace (rune c) = true := by
        by_contra hn
        rw [Bool.not_eq_true] at hn
        exact (Scan_cons_kind c cs e tok s1 hs).2 hn hk
      rw [Scan_atInput_cons, if_pos hw, scanWhitespace_eq] at hs
      cases hs
      refine ⟨?_, ?_⟩
      · intro hlit
        have : (c :: cs).takeWhile (fun c => isWhitespace (rune c)) = [] :=
          congrArg String.data hlit
        simp [List.takeWhile, hw] at this
      · intro tok2 s2 hs2
        have hstop := stopsAt_dropWhile isWhitespace (c :: cs)
        cases hd : (c :: cs).dropWhile (fun c => isWhitespace (rune c)) with
        | nil =>
          simp only [hd] at hs2
          rw [Scan_atInput_nil] at hs2
          cases hs2
          simp [tokEOF]
        | cons y ys =>
          simp only [hd] at hs2 hstop
          refine (Scan_cons_kind y ys e tok2 s2 hs2).2 ?_
          simpa [stopsAt] using hstop

/-- C14 on the input of two blanks, a tab and `x`. -/
theorem Scan_whitespace_witness :
    (NewScanner "  \tx".toList).Faces (' ' :: " \t".toList ++ "x".toList) ∧
      allWhitespace (' ' :: " \t".toList) = true ∧ stopsAt isWhitespace "x".toList = true ∧
      (∃ s1, (NewScanner "  \tx".toList).Scan =
          .ret ⟨ItemWhitespace, String.mk (' ' :: " \t".toList)⟩ s1 ∧ s1.Faces "x".toList ∧
        s1.err = (NewScanner "  \tx".toList).err) ∧
      (NewScanner "  \tx".toList).Scan =
        .ret ⟨ItemWhitespace, "  \t"⟩ (Scanner.atInput "x".toList none) ∧
      (⟨ItemWhitespace, "  \t"⟩ : Token).Token = ItemWhitespace ∧
      ((⟨ItemWhitespace, "  \t"⟩ : Token).Literal ≠ "" ∧
        ∀ tok2 s2, (Scanner.atInput "x".toList none).Scan = .ret tok2 s2 →
          tok2.Token ≠ ItemWhitespace) :=
  ⟨Or.inl rfl, by decide, by decide,
    Scan_whitespace.1 (NewScanner "  \tx".toList) ' ' " \t".toList "x".toList (Or.inl rfl)
      (by decide) (by decide),
    by decide, rfl,
    Scan_whitespace.2 (NewScanner "  \tx".toList) "  \tx".toList ⟨ItemWhitespace, "  \t"⟩
      (Scanner.atInput "x".toList none) (Or.inl rfl) (by decide) rfl⟩

/-! ### Identifiers -/

theorem all_of_allIdentChars (l : List Char) (h : allIdentChars l = true) :
    ∀ x ∈ l, isIdentChar (rune x) = true := by
  simpa [allIdentChars] using h

theorem isUcIdent_cases (c : Char) (cs : List Char) (h : isUcIdent (c :: cs) = true) :
    isUpperLetter (rune c) = true ∧ isLetter (rune c) = true ∧
      ∀ x ∈ c :: cs, isIdentChar (rune x) = true := by
  simp only [isUcIdent, Bool.and_eq_true] at h
  have hu := (isUpperLetter_iff _).1 h.1
  refine ⟨h.1, by rw [isLetter_iff]; omega, ?_⟩
  intro x hx
  rcases List.mem_cons.1 hx with rfl | hx
  · rw [isIdentChar_iff]
    omega
  · exact all_of_allIdentChars cs h.2 x hx

theorem upperItem_iff (lit : String) :
    (upperItem lit = ItemNew ↔ lit = "New") ∧ (upperItem lit = ItemFinal ↔ lit = "Final") ∧
      (upperItem lit = ItemEmpty ↔ lit = "Empty") ∧
      (upperItem lit = ItemUpperIdent ↔ lit ≠ "New" ∧ lit ≠ "Final" ∧ lit ≠ "Empty") := by
  unfold upperItem
  by_cases h1 : lit = "New"
  · subst h1
    simp
  · by_cases h2 : lit = "Empty"
    · subst h2
      simp
    · by_cases h3 : lit = "Final"
      · subst h3
        simp
      · simp [h1, h2, h3]

/-- Scan at an uppercase letter and the identifier characters after it. -/
theorem Scan_upper_run (c : Char) (cs rest : List Char) (e : Option ScanError)
    (hid : isUcIdent (c :: cs) = true) (hstop : stopsAt isIdentChar rest = true) :
    (Scanner.atInput (c :: cs ++ rest) e).Scan =
      .ret ⟨upperItem (String.mk (c :: cs)), String.mk (c :: cs)⟩ (Scanner.atInput rest e) := by
  obtain ⟨hu, hl, hall⟩ := isUcIdent_cases c cs hid
  have hw : isWhitespace (rune c) = false := by
    have := (isUpperLetter_iff _).1 hu
    rw [← Bool.not_eq_true, isWhitespace_iff]
    omega
  rw [List.cons_append, Scan_atInput_cons, if_pos hl, ← List.cons_append]
  simp only [hw, Bool.false_eq_true, if_false]
  have hch : isUpperLetter (Scanner.atInput (c :: cs ++ rest) e).ch = true := hu
  unfold Scanner.scanIdent
  simp only [hch, if_true, consume_run isIdentChar e rest
    (stopsAt_ch _ (by decide) rest e hstop) (c :: cs) _ [] hall (atInput_fuel _ _ _),
    List.nil_append]

/-- C16: when the next rune is an uppercase letter, Scan returns a token whose
literal is the maximal run of identifier characters (letters, digits,
underscore) starting there; its kind is New, Final or Empty iff the literal is
exactly `New`, `Final` or `Empty`, and UpperIdent otherwise, so `Newly`,
`Final_countdown` and `EmptyHands` are upper identifiers. -/
theorem Scan_upper_identifier :
    (∀ (s : Scanner) (c : Char) (cs rest : List Char), s.Faces (c :: cs ++ rest) →
        isUcIdent (c :: cs) = true → stopsAt isIdentChar rest = true →
          ∃ tok s1, s.Scan = .ret tok s1 ∧ s1.Faces rest ∧ s1.err = s.err ∧
            tok.Literal = String.mk (c :: cs) ∧
            (tok.Token = ItemNew ↔ tok.Literal = "New") ∧
            (tok.Token = ItemFinal ↔ tok.Literal = "Final") ∧
            (tok.Token = ItemEmpty ↔ tok.Literal = "Empty") ∧
            (tok.Token = ItemUpperIdent ↔
              tok.Literal ≠ "New" ∧ tok.Literal ≠ "Final" ∧ tok.Literal ≠ "Empty")) ∧
      (NewScanner "Newly".toList).Scan =
        .ret ⟨ItemUpperIdent, "Newly"⟩ (Scanner.atInput [] none) ∧
      (NewScanner "Final_countdown".toList).Scan =
        .ret ⟨ItemUpperIdent, "Final_countdown"⟩ (Scanner.atInput [] none) ∧
      (NewScanner "EmptyHands".toList).Scan =
        .ret ⟨ItemUpperIdent, "EmptyHands"⟩ (Scanner.atInput [] none) ∧
      (NewScanner "New Int128;".toList).Scan =
        .ret ⟨ItemNew, "New"⟩ (Scanner.atInput " Int128;".toList none) := by
  refine ⟨?_, by decide, by decide, by decide, by decide⟩
  intro s c cs rest h hid hstop
  obtain ⟨e, he, herr⟩ := Scan_of_faces s _ h
  rw [he, Scan_upper_run c cs rest e hid hstop]
  obtain ⟨h1, h2, h3, h4⟩ := upperItem_iff (String.mk (c :: cs))
  exact ⟨_, _, rfl, Or.inr ⟨e, rfl⟩, by rw [atInput_err, herr], rfl, h1, h2, h3, h4⟩

/-- C16 on the input `Int128;`. -/
theorem Scan_upper_identifier_witness :
    (NewScanner "Int128;".toList).Faces ('I' :: "nt128".toList ++ ";".toList) ∧
      isUcIdent ('I' :: "nt128".toList) = true ∧ stopsAt isIdentChar ";".toList = true ∧
      ∃ tok s1, (NewScanner "Int128;".toList).Scan = .ret tok s1 ∧ s1.Faces ";".toList ∧
        s1.err = (NewScanner "Int128;".toList).err ∧
        tok.Literal = String.mk ('I' :: "nt128".toList) ∧
        (tok.Token = ItemNew ↔ tok.Literal = "New") ∧
        (tok.Token = ItemFinal ↔ tok.Literal = "Final") ∧
        (tok.Token = ItemEmpty ↔ tok.Literal = "Empty") ∧
        (tok.Token = ItemUpperIdent ↔
          tok.Literal ≠ "New" ∧ tok.Literal ≠ "Final" ∧ tok.Literal ≠ "Empty") :=
  ⟨Or.inl rfl, by decide, by decide,
    Scan_upper_identifier.1 (NewScanner "Int128;".toList) 'I' "nt128".toList ";".toList
      (Or.inl rfl) (by decide) (by decide)⟩

/-- The part of scanIdent for an uppercase first rune, on any input. -/
theorem scanIdent_upper_eq (l : List Char) (e : Option ScanError)
    (hup : isUpperLetter (Scanner.atInput l e).ch = true) :
    (Scanner.atInput l e).scanIdent =
      (⟨upperItem (String.mk (l.takeWhile fun c => isIdentChar (rune c))),
          String.mk (l.takeWhile fun c => isIdentChar (rune c))⟩,
        Scanner.atInput (l.dropWhile fun c => isIdentChar (rune c)) e) := by
  unfold Scanner.scanIdent
  simp only [hup, if_true, consume_eq isIdentChar (by decide) l [] e _ (atInput_fuel_gt l e),
    List.nil_append]

/-- The part of scanIdent for a first rune that is not uppercase, on any
input: the first run, then the namespace if a `.` follows, then the end of
scanIdent. -/
theorem scanIdent_lower_eq (l : List Char) (e : Option ScanError)
    (hup : isUpperLetter (Scanner.atInput l e).ch = false) :
    (Scanner.atInput l e).scanIdent =
      if (Scanner.atInput (l.dropWhile fun c => isIdentChar (rune c)) e).ch = rune '.' then
        if isUpperLetter
            (Scanner.atInput (l.dropWhile fun c => isIdentChar (rune c)).tail e).ch = true then
          (⟨ItemUpperIdent, String.mk ((l.takeWhile fun c => isIdentChar (rune c)) ++ ['.'] ++
              (l.dropWhile fun c => isIdentChar (rune c)).tail.takeWhile
                fun c => isIdentChar (rune c))⟩,
            Scanner.atInput ((l.dropWhile fun c => isIdentChar (rune c)).tail.dropWhile
              fun c => isIdentChar (rune c)) e)
        else if isLowerLetter
            (Scanner.atInput (l.dropWhile fun c => isIdentChar (rune c)).tail e).ch = true then
          (Scanner.atInput ((l.dropWhile fun c => isIdentChar (rune c)).tail.dropWhile
              fun c => isIdentChar (rune c)) e).scanIdentFull
            ((l.takeWhile fun c => isIdentChar (rune c)) ++ ['.'] ++
              (l.dropWhile fun c => isIdentChar (rune c)).tail.takeWhile
                fun c => isIdentChar (rune c))
        else
          ((Scanner.atInput (l.dropWhile fun c => isIdentChar (rune c)).tail e).setErr
              (.expectedLetter
                (Scanner.atInput (l.dropWhile fun c => isIdentChar (rune c)).tail e).ch)).scanIdentFull
            ((l.takeWhile fun c => isIdentChar (rune c)) ++ ['.'])
      else
        (Scanner.atInput (l.dropWhile fun c => isIdentChar (rune c)) e).scanIdentFull
          (l.takeWhile fun c => isIdentChar (rune c)) := by
  have hdot : runeChar (rune '.') = '.' := runeChar_rune '.'
  unfold Scanner.scanIdent
  simp only [hup, Bool.false_eq_true, if_false,
    consume_eq isIdentChar (by decide) l [] e _ (atInput_fuel_gt l e), List.nil_append,
    Next_atInput]
  split
  · rename_i h1
    simp only [h1, hdot, consume_eq isIdentChar (by decide) _ _ e _ (atInput_fuel_gt _ e)]
  · rfl

theorem takeWhile_dropWhile_run (p : Char → Bool) (run rest : List Char)
    (hrun : ∀ x ∈ run, p x = true) (hstop : ∀ y ∈ rest.head?, p y = false) :
    (run ++ rest).takeWhile p = run ∧ (run ++ rest).dropWhile p = rest := by
  induction run with
  | nil =>
    cases rest with
    | nil => simp
    | cons y ys =>
      have : p y = false := hstop y (by simp)
      simp [List.takeWhile, List.dropWhile, this]
  | cons x xs ih =>
    have hx : p x = true := hrun x (by simp)
    have := ih (fun y hy => hrun y (by simp [hy]))
    simp [List.takeWhile, List.dropWhile, hx, this]

theorem stopsAt_head (cond : Int → Bool) (rest : List Char) (h : stopsAt cond rest = true) :
    ∀ y ∈ rest.head?, cond (rune y) = false := by
  cases rest with
  | nil => simp
  | cons y ys => simpa [stopsAt] using h

theorem identRun_eq (run rest : List Char) (hrun : ∀ x ∈ run, isIdentChar (rune x) = true)
    (hstop : stopsAt isIdentChar rest = true) :
    ((run ++ rest).takeWhile fun c => isIdentChar (rune c)) = run ∧
      ((run ++ rest).dropWhile fun c => isIdentChar (rune c)) = rest :=
  takeWhile_dropWhile_run _ run rest hrun (stopsAt_head _ rest hstop)

theorem scanIdentFull_of_not_hash (s : Scanner) (buf : List Char) (h : s.ch ≠ rune '#') :
    s.scanIdentFull buf = (⟨ItemLowerIdent, String.mk buf⟩, s) := by
  unfold Scanner.scanIdentFull
  rw [if_neg h]

theorem atInput_ch_ne_of_head (rest : List Char) (e : Option ScanError) (m : Char)
    (h : rest.head? ≠ some m) : (Scanner.atInput rest e).ch ≠ rune m := by
  cases rest with
  | nil =>
    intro hc
    exact rune_ne_eof m hc.symm
  | cons y ys =>
    intro hc
    have : y = m := rune_injective hc
    exact h (by simp [this])

/-- The literal of the token of the end of scanIdent starts with the buffer. -/
theorem scanIdentFull_prefix (l buf : List Char) (e : Option ScanError) :
    ((Scanner.atInput l e).scanIdentFull buf).1.Token = ItemLowerIdent ∧
      buf <+: ((Scanner.atInput l e).scanIdentFull buf).1.Literal.data := by
  refine ⟨scanIdentFull_kind _ _, ?_⟩
  by_cases h : (Scanner.atInput l e).ch = rune '#'
  · cases l with
    | nil => exact absurd h.symm (rune_ne_eof '#')
    | cons y ys =>
      have : y = '#' := rune_injective h
      subst this
      rw [(scanIdentFull_hash ys buf e).1]
      exact List.prefix_append _ _
  · rw [scanIdentFull_of_not_hash _ _ h]

theorem isLcIdent_upper_false (c : Char) (h : isLowerLetter (rune c) = true) :
    isUpperLetter (rune c) = false ∧ isLetter (rune c) = true := by
  have := (isLowerLetter_iff _).1 h
  constructor
  · rw [← Bool.not_eq_true, isUpperLetter_iff]
    omega
  · rw [isLetter_iff]
    omega

theorem isUcIdent_lower_false (c : Char) (h : isUpperLetter (rune c) = true) :
    isLowerLetter (rune c) = false := by
  have := (isUpperLetter_iff _).1 h
  rw [← Bool.not_eq_true, isLowerLetter_iff]
  omega

theorem stopsAt_dot (l : List Char) : stopsAt isIdentChar ('.' :: l) = true := by
  have : isIdentChar (rune '.') = false := by decide
  simp [stopsAt, this]

/-- The token of scanIdent at a lower identifier: the first run, and what the
rest of scanIdent does behind it. -/
theorem scanIdent_lower_first (first rest : List Char) (e : Option ScanError)
    (hfirst : isLcIdent first = true) (hstop : stopsAt isIdentChar rest = true) :
    (Scanner.atInput (first ++ rest) e).Scan =
        .ret (Scanner.atInput (first ++ rest) e).scanIdent.1
          (Scanner.atInput (first ++ rest) e).scanIdent.2 ∧
      isUpperLetter (Scanner.atInput (first ++ rest) e).ch = false ∧
      ((first ++ rest).takeWhile fun c => isIdentChar (rune c)) = first ∧
      ((first ++ rest).dropWhile fun c => isIdentChar (rune c)) = rest := by
  obtain ⟨c, cs, rfl, hc, hall⟩ := isLcIdent_cases first hfirst
  obtain ⟨hup, hlet⟩ := isLcIdent_upper_false c hc
  obtain ⟨h1, h2⟩ := identRun_eq (c :: cs) rest hall hstop
  exact ⟨Scan_atInput_letter c _ e hlet, hup, h1, h2⟩

theorem Scan_lower_plain (first rest : List Char) (e : Option ScanError)
    (hfirst : isLcIdent first = true) (hstop : stopsAt isIdentChar rest = true)
    (hdot : rest.head? ≠ some '.') (hhash : rest.head? ≠ some '#') :
    (Scanner.atInput (first ++ rest) e).Scan =
      .ret ⟨ItemLowerIdent, String.mk first⟩ (Scanner.atInput rest e) := by
  obtain ⟨h0, hup, h1, h2⟩ := scanIdent_lower_first first rest e hfirst hstop
  rw [h0, scanIdent_lower_eq _ e hup, h1, h2,
    if_neg (atInput_ch_ne_of_head rest e '.' hdot),
    scanIdentFull_of_not_hash _ _ (atInput_ch_ne_of_head rest e '#' hhash)]

theorem Scan_lower_ns_upper (first second rest : List Char) (e : Option ScanError)
    (hfirst : isLcIdent first = true) (hsecond : isUcIdent second = true)
    (hstop : stopsAt isIdentChar rest = true) :
    (Scanner.atInput (first ++ '.' :: (second ++ rest)) e).Scan =
      .ret ⟨ItemUpperIdent, String.mk (first ++ '.' :: second)⟩ (Scanner.atInput rest e) := by
  obtain ⟨h0, hup, h1, h2⟩ :=
    scanIdent_lower_first first ('.' :: (second ++ rest)) e hfirst (stopsAt_dot _)
  cases second with
  | nil => simp [isUcIdent] at hsecond
  | cons d ds =>
    obtain ⟨hd, -, hall⟩ := isUcIdent_cases d ds hsecond
    obtain ⟨h3, h4⟩ := identRun_eq (d :: ds) rest hall hstop
    have hch : (Scanner.atInput ('.' :: (d :: ds ++ rest)) e).ch = rune '.' := rfl
    have hch2 : isUpperLetter (Scanner.atInput (d :: ds ++ rest) e).ch = true := hd
    rw [h0, scanIdent_lower_eq _ e hup, h1, h2, if_pos hch, List.tail_cons, if_pos hch2, h3, h4]
    simp

theorem Scan_lower_ns_lower (first second rest : List Char) (e : Option ScanError)
    (hfirst : isLcIdent first = true) (hsecond : isLcIdent second = true)
    (hstop : stopsAt isIdentChar rest = true) :
    (Scanner.atInput (first ++ '.' :: (second ++ rest)) e).Scan =
      .ret ((Scanner.atInput rest e).scanIdentFull (first ++ '.' :: second)).1
        ((Scanner.atInput rest e).scanIdentFull (first ++ '.' :: second)).2 := by
  obtain ⟨h0, hup, h1, h2⟩ :=
    scanIdent_lower_first first ('.' :: (second ++ rest)) e hfirst (stopsAt_dot _)
  obtain ⟨d, ds, rfl, hd, hall⟩ := isLcIdent_cases second hsecond
  obtain ⟨h3, h4⟩ := identRun_eq (d :: ds) rest hall hstop
  have hch : (Scanner.atInput ('.' :: (d :: ds ++ rest)) e).ch = rune '.' := rfl
  have hch2 : ¬ isUpperLetter (Scanner.atInput (d :: ds ++ rest) e).ch = true := by
    rw [Bool.not_eq_true]
    exact (isLcIdent_upper_false d hd).1
  have hch3 : isLowerLetter (Scanner.atInput (d :: ds ++ rest) e).ch = true := hd
  rw [h0, scanIdent_lower_eq _ e hup, h1, h2, if_pos hch, List.tail_cons, if_neg hch2,
    if_pos hch3, h3, h4]
  simp

/-- C17: when the next rune is a lowercase letter, Scan reads the maximal run
of identifier characters. With neither `.` nor `#` behind it, it returns
(LowerIdent, first run) and leaves the following characters unread
(`functions---` gives `functions`). If a `.` immediately follows, it also reads
the dot and the next maximal identifier run: when that second segment starts
with an uppercase letter it returns (UpperIdent, `first.Second`); when it starts
with a lowercase letter it returns a LowerIdent whose literal begins
`first.second`, and is exactly that unless a `#` follows. -/
theorem Scan_lower_identifier :
    (∀ (s : Scanner) (first rest : List Char), s.Faces (first ++ rest) →
        isLcIdent first = true → stopsAt isIdentChar rest = true →
        rest.head? ≠ some '.' → rest.head? ≠ some '#' →
          ∃ s1, s.Scan = .ret ⟨ItemLowerIdent, String.mk first⟩ s1 ∧ s1.Faces rest ∧
            s1.err = s.err) ∧
      (∀ (s : Scanner) (first second rest : List Char),
        s.Faces (first ++ '.' :: (second ++ rest)) →
        isLcIdent first = true → isUcIdent second = true → stopsAt isIdentChar rest = true →
          ∃ s1, s.Scan = .ret ⟨ItemUpperIdent, String.mk (first ++ '.' :: second)⟩ s1 ∧
            s1.Faces rest ∧ s1.err = s.err) ∧
      (∀ (s : Scanner) (first second rest : List Char),
        s.Faces (first ++ '.' :: (second ++ rest)) →
        isLcIdent first = true → isLcIdent second = true → stopsAt isIdentChar rest = true →
          ∃ tok s1, s.Scan = .ret tok s1 ∧ tok.Token = ItemLowerIdent ∧
            (first ++ '.' :: second) <+: tok.Literal.data ∧
            (rest.head? ≠ some '#' →
              tok.Literal = String.mk (first ++ '.' :: second) ∧ s1.Faces rest ∧
                s1.err = s.err)) ∧
      (NewScanner "functions---".toList).Scan =
        .ret ⟨ItemLowerIdent, "functions"⟩ (Scanner.atInput "---".toList none) := by
  refine ⟨?_, ?_, ?_, by decide⟩
  · intro s first rest h hfirst hstop hdot hhash
    obtain ⟨e, he, herr⟩ := Scan_of_faces s _ h
    rw [he, Scan_lower_plain first rest e hfirst hstop hdot hhash]
    exact ⟨_, rfl, Or.inr ⟨e, rfl⟩, by rw [atInput_err, herr]⟩
  · intro s first second rest h hfirst hsecond hstop
    obtain ⟨e, he, herr⟩ := Scan_of_faces s _ h
    rw [he, Scan_lower_ns_upper first second rest e hfirst hsecond hstop]
    exact ⟨_, rfl, Or.inr ⟨e, rfl⟩, by rw [atInput_err, herr]⟩
  · intro s first second rest h hfirst hsecond hstop
    obtain ⟨e, he, herr⟩ := Scan_of_faces s _ h
    rw [he, Scan_lower_ns_lower first second rest e hfirst hsecond hstop]
    obtain ⟨hk, hpre⟩ := scanIdentFull_prefix rest (first ++ '.' :: second) e
    refine ⟨_, _, rfl, hk, hpre, ?_⟩
    intro hhash
    rw [scanIdentFull_of_not_hash _ _ (atInput_ch_ne_of_head rest e '#' hhash)]
    exact ⟨rfl, Or.inr ⟨e, rfl⟩, by rw [atInput_err, herr]⟩

/-- C17 on the inputs `functions---`, `users.User` and `users.user;`. -/
theorem Scan_lower_identifier_witness :
    ((NewScanner "functions---".toList).Faces ("functions".toList ++ "---".toList) ∧
        isLcIdent "functions".toList = true ∧ stopsAt isIdentChar "---".toList = true ∧
        "---".toList.head? ≠ some '.' ∧ "---".toList.head? ≠ some '#' ∧
        ∃ s1, (NewScanner "functions---".toList).Scan =
            .ret ⟨ItemLowerIdent, String.mk "functions".toList⟩ s1 ∧
          s1.Faces "---".toList ∧ s1.err = (NewScanner "functions---".toList).err) ∧
      ((NewScanner "users.User".toList).Faces ("users".toList ++ '.' :: ("User".toList ++ [])) ∧
        isLcIdent "users".toList = true ∧ isUcIdent "User".toList = true ∧
        stopsAt isIdentChar [] = true ∧
        ∃ s1, (NewScanner "users.User".toList).Scan =
            .ret ⟨ItemUpperIdent, String.mk ("users".toList ++ '.' :: "User".toList)⟩ s1 ∧
          s1.Faces [] ∧ s1.err = (NewScanner "users.User".toList).err) ∧
      ((NewScanner "users.user;".toList).Faces
          ("users".toList ++ '.' :: ("user".toList ++ ";".toList)) ∧
        isLcIdent "users".toList = true ∧ isLcIdent "user".toList = true ∧
        stopsAt isIdentChar ";".toList = true ∧
        ∃ tok s1, (NewScanner "users.user;".toList).Scan = .ret tok s1 ∧
          tok.Token = ItemLowerIdent ∧
          ("users".toList ++ '.' :: "user".toList) <+: tok.Literal.data ∧
          (";".toList.head? ≠ some '#' →
            tok.Literal = String.mk ("users".toList ++ '.' :: "user".toList) ∧
              s1.Faces ";".toList ∧ s1.err = (NewScanner "users.user;".toList).err)) :=
  ⟨⟨Or.inl rfl, by decide, by decide, by decide, by decide,
      Scan_lower_identifier.1 (NewScanner "functions---".toList) "functions".toList
        "---".toList (Or.inl rfl) (by decide) (by decide) (by decide) (by decide)⟩,
    ⟨Or.inl rfl, by decide, by decide, by decide,
      Scan_lower_identifier.2.1 (NewScanner "users.User".toList) "users".toList
        "User".toList [] (Or.inl rfl) (by decide) (by decide) (by decide)⟩,
    ⟨Or.inl rfl, by decide, by decide, by decide,
      Scan_lower_identifier.2.2.1 (NewScanner "users.user;".toList) "users".toList
        "user".toList ";".toList (Or.inl rfl) (by decide) (by decide) (by decide)⟩⟩

/-! ### The shapes of the identifier literals -/

theorem identRun_all (l : List Char) :
    ∀ x ∈ l.takeWhile (fun c => isIdentChar (rune c)), isIdentChar (rune x) = true :=
  fun _ hx => List.mem_takeWhile_imp (p := fun c => isIdentChar (rune c)) hx

theorem not_mem_of_identChars (run : List Char)
    (h : ∀ x ∈ run, isIdentChar (rune x) = true) : '.' ∉ run ∧ '#' ∉ run := by
  constructor
  · intro hm
    have := h _ hm
    rw [isIdentChar_dot] at this
    cases this
  · intro hm
    have := h _ hm
    rw [isIdentChar_hash] at this
    cases this

theorem identRun_lcIdent (c : Char) (cs : List Char) (hc : isLowerLetter (rune c) = true) :
    isLcIdent ((c :: cs).takeWhile fun c => isIdentChar (rune c)) = true := by
  have hid : isIdentChar (rune c) = true :=
    isIdentChar_of_isLetter _ (isLcIdent_upper_false c hc).2
  have hall := identRun_all cs
  simp only [List.takeWhile, hid, isLcIdent, hc, Bool.true_and, List.all_eq_true]
  exact hall

theorem isLowerName_of_lcIdent (name : List Char) (h : isLcIdent name = true) :
    isLowerName name = true := by
  simp [isLowerName, h]

theorem isLowerName_of_ns (ns id : List Char) (hns : isLcIdent ns = true)
    (hid : isLcIdent id = true) : isLowerName (ns ++ '.' :: id) = true := by
  obtain ⟨c, cs, rfl, -, hall⟩ := isLcIdent_cases ns hns
  have hnot : ∀ x ∈ c :: cs, (x != '.') = true := by
    intro x hx
    have h1 := (not_mem_of_identChars (c :: cs) hall).1
    simp only [bne_iff_ne, ne_eq]
    intro hxe
    exact h1 (hxe ▸ hx)
  obtain ⟨h1, h2⟩ := takeWhile_dropWhile_run (fun x => x != '.') (c :: cs) ('.' :: id) hnot
    (by simp)
  simp only [isLowerName, h1, h2, List.drop_succ_cons, List.drop_zero, hns, hid, Bool.and_self,
    Bool.or_true]

theorem setErr_Err_letter (s : Scanner) (x : Int) :
    (s.setErr (.expectedLetter x)).Err ≠ none := by
  unfold Scanner.setErr Scanner.Err
  split_ifs <;> simp_all

theorem Next_err (s : Scanner) : s.Next.2.err = s.err := by
  unfold Scanner.Next Scanner.peek Scanner.next
  split_ifs <;> split <;> simp <;> split <;> simp_all

/-- An error of the scanner stays through the end of scanIdent. -/
theorem scanIdentFull_Err_mono (s : Scanner) (buf : List Char) (hch : s.ch ≠ notReadYet)
    (h : s.Err ≠ none) : (s.scanIdentFull buf).2.Err ≠ none := by
  unfold Scanner.scanIdentFull
  split
  · have := (hexLoop_spec 8 s (buf ++ [runeChar s.ch]) hch).2.2.2.2.2 h
    simp only [Scanner.Err, Next_err] at this ⊢
    exact this
  · exact h

/-- The literal of the end of scanIdent, when no error is left: the buffer,
alone or with `#` and eight hexadecimal digits. -/
theorem scanIdentFull_shape (l buf : List Char) (e : Option ScanError)
    (h : ((Scanner.atInput l e).scanIdentFull buf).2.Err = none) :
    ((Scanner.atInput l e).scanIdentFull buf).1.Literal.data = buf ∨
      ∃ sig, sig.length = 8 ∧ (∀ c ∈ sig, isHexDigit (rune c) = true) ∧
        ((Scanner.atInput l e).scanIdentFull buf).1.Literal.data = buf ++ '#' :: sig := by
  by_cases hc : (Scanner.atInput l e).ch = rune '#'
  · cases l with
    | nil => exact absurd hc.symm (rune_ne_eof '#')
    | cons y ys =>
      have : y = '#' := rune_injective hc
      subst this
      right
      obtain ⟨h1, e1, h2, -, h4⟩ := scanIdentFull_hash ys buf e
      have hs : isSignature ys = true := by
        by_contra hn
        rw [Bool.not_eq_true] at hn
        exact h4 hn h
      obtain ⟨hlen, hall⟩ := (isSignature_iff ys).1 hs
      refine ⟨ys.take 8, by simp [hlen], hall, ?_⟩
      rw [h1, Nat.sub_eq_zero_of_le hlen]
      simp
  · left
    rw [scanIdentFull_of_not_hash _ _ hc]

theorem upperItem_ne_lower (lit : String) : upperItem lit ≠ ItemLowerIdent := by
  rcases upperItem_cases lit with h | h | h | h <;> rw [h] <;> decide

theorem punctItem_ne_lower (ch : Int) : punctItem ch ≠ ItemLowerIdent := by
  unfold punctItem
  repeat (refine ite_ne_of (by decide) ?_)
  decide

theorem punctItem_ne_upper (ch : Int) : punctItem ch ≠ ItemUpperIdent := by
  unfold punctItem
  repeat (refine ite_ne_of (by decide) ?_)
  decide

theorem count_dot_of_identChars (run : List Char)
    (h : ∀ x ∈ run, isIdentChar (rune x) = true) : run.count '.' = 0 :=
  List.count_eq_zero_of_not_mem (not_mem_of_identChars run h).1

/-- The literals of the identifier tokens of scanIdent. -/
theorem scanIdent_shapes (c : Char) (cs : List Char) (e : Option ScanError)
    (hl : isLetter (rune c) = true) :
    ((Scanner.atInput (c :: cs) e).scanIdent.1.Token = ItemLowerIdent →
        (Scanner.atInput (c :: cs) e).scanIdent.2.Err = none →
          IsLowerLiteral (Scanner.atInput (c :: cs) e).scanIdent.1.Literal.data) ∧
      ((Scanner.atInput (c :: cs) e).scanIdent.1.Token = ItemUpperIdent →
        (Scanner.atInput (c :: cs) e).scanIdent.1.Literal.data.count '.' ≤ 1 ∧
          '#' ∉ (Scanner.atInput (c :: cs) e).scanIdent.1.Literal.data) := by
  by_cases hu : isUpperLetter (rune c) = true
  · rw [scanIdent_upper_eq (c :: cs) e hu]
    refine ⟨fun hk => absurd hk (upperItem_ne_lower _), fun _ => ?_⟩
    have hall := identRun_all (c :: cs)
    exact ⟨by rw [count_dot_of_identChars _ hall]; omega, (not_mem_of_identChars _ hall).2⟩
  · rw [Bool.not_eq_true] at hu
    have hc : isLowerLetter (rune c) = true := by
      have h1 := (isLetter_iff _).1 hl
      have h2 : ¬ (65 ≤ rune c ∧ rune c ≤ 90) := by
        rw [← isUpperLetter_iff, hu]
        simp
      rw [isLowerLetter_iff]
      omega
    have hrun1 := identRun_lcIdent c cs hc
    have hall1 := identRun_all (c :: cs)
    rw [scanIdent_lower_eq (c :: cs) e hu]
    split
    · split
      · refine ⟨(fun hk => by cases hk), fun _ => ?_⟩
        have hall2 := identRun_all
          ((c :: cs).dropWhile fun c => isIdentChar (rune c)).tail
        have h1 := not_mem_of_identChars _ hall1
        have h2 := not_mem_of_identChars _ hall2
        simp only [List.count_append, count_dot_of_identChars _ hall1,
          count_dot_of_identChars _ hall2, List.mem_append, not_or]
        exact ⟨by simp, ⟨h1.2, by simp⟩, h2.2⟩
      · split
        · rename_i hlow
          refine ⟨fun _ herr => ?_, fun hk => ?_⟩
          · have hrun2 : isLcIdent
                (((c :: cs).dropWhile fun c => isIdentChar (rune c)).tail.takeWhile
                  fun c => isIdentChar (rune c)) = true := by
              cases hd : ((c :: cs).dropWhile fun c => isIdentChar (rune c)).tail with
              | nil =>
                rw [hd] at hlow
                have hf : isLowerLetter eof = false := by decide
                rw [show (Scanner.atInput [] e).ch = eof from rfl, hf] at hlow
                cases hlow
              | cons d ds =>
                rw [hd] at hlow
                exact identRun_lcIdent d ds hlow
            have hname := isLowerName_of_ns _ _ hrun1 hrun2
            rcases scanIdentFull_shape _ _ e herr with h | ⟨sig, h1, h2, h3⟩
            · exact ⟨_, hname, Or.inl (by rw [h]; simp)⟩
            · exact ⟨_, hname, Or.inr ⟨sig, h1, h2, by rw [h3]; simp⟩⟩
          · rw [scanIdentFull_kind] at hk
            cases hk
        · refine ⟨fun _ herr => ?_, fun hk => ?_⟩
          · exfalso
            refine scanIdentFull_Err_mono _ _ ?_ (setErr_Err_letter _ _) herr
            rw [setErr_ch]
            exact atInput_ch_ne_notReadYet _ _
          · rw [scanIdentFull_kind] at hk
            cases hk
    · refine ⟨fun _ herr => ?_, fun hk => ?_⟩
      · have hname := isLowerName_of_lcIdent _ hrun1
        rcases scanIdentFull_shape _ _ e herr with h | ⟨sig, h1, h2, h3⟩
        · exact ⟨_, hname, Or.inl h⟩
        · exact ⟨_, hname, Or.inr ⟨sig, h1, h2, h3⟩⟩
      · rw [scanIdentFull_kind] at hk
        cases hk

/-- The literals of the identifier tokens of one call of Scan. -/
theorem Scan_shapes (l : List Char) (e : Option ScanError) (tok : Token) (s1 : Scanner)
    (h : (Scanner.atInput l e).Scan = .ret tok s1) :
    (tok.Token = ItemLowerIdent → s1.Err = none → IsLowerLiteral tok.Literal.data) ∧
      (tok.Token = ItemUpperIdent →
        tok.Literal.data.count '.' ≤ 1 ∧ '#' ∉ tok.Literal.data) := by
  cases l with
  | nil =>
    rw [Scan_atInput_nil] at h
    cases h
    exact ⟨(fun hk => by cases hk), (fun hk => by cases hk)⟩
  | cons c cs =>
    rw [Scan_atInput_cons] at h
    split at h
    · cases h
      rw [scanWhitespace_eq]
      exact ⟨(fun hk => by cases hk), (fun hk => by cases hk)⟩
    · split at h
      · rename_i hl
        cases h
        exact scanIdent_shapes c cs e hl
      · split at h
        · cases h
          rw [scanNumber_eq]
          exact ⟨(fun hk => by cases hk), (fun hk => by cases hk)⟩
        · unfold Scanner.scanDefault at h
          rw [if_neg (rune_ne_eof c)] at h
          split at h
          · cases h
          · split at h
            · cases h
              unfold Scanner.scanTripleMinus
              simp only
              split <;> exact ⟨(fun hk => by cases hk), (fun hk => by cases hk)⟩
            · cases h
              exact ⟨fun hk => absurd hk (punctItem_ne_lower _),
                fun hk => absurd hk (punctItem_ne_upper _)⟩

/-- After any number of calls of Scan the scanner faces some rest of the
input. -/
theorem scanN_faces (n : Nat) :
    ∀ (s : Scanner) (l : List Char) (toks : List Token) (s1 : Scanner), s.Faces l →
      Scanner.scanN n s = .ret toks s1 → ∃ l1, s1.Faces l1 ∧ l1 <:+ l := by
  induction n with
  | zero =>
    intro s l toks s1 h hs
    cases hs
    exact ⟨l, h, List.suffix_refl l⟩
  | succ n ih =>
    intro s l toks s1 h hs
    rw [Scanner.scanN] at hs
    have hscan := Scan_faces s l h
    cases hsc : s.Scan with
    | ret tok s2 =>
      rw [hsc] at hscan hs
      obtain ⟨l2, e2, rfl, hsuf, -, -⟩ := hscan
      simp only [Outcome.andThen] at hs
      cases hn : Scanner.scanN n (Scanner.atInput l2 e2) with
      | ret toks2 s3 =>
        rw [hn] at hs
        cases hs
        obtain ⟨l3, h3, hs3⟩ := ih _ l2 toks2 s1 (Or.inr ⟨e2, rfl⟩) hn
        exact ⟨l3, h3, hs3.trans hsuf⟩
      | fatal m st => exact m.elim
      | panicked m st => rw [hn] at hs; cases hs
      | outOfFuel st => rw [hn] at hs; cases hs
    | fatal m st => exact m.elim
    | panicked m st => rw [hsc] at hs; cases hs
    | outOfFuel st => rw [hsc] at hs; cases hs

/-- C18: for every input and after any number of calls, a LowerIdent token
that Scan returns while Scanner.Err() is still nil has a literal of the form
`id`, `id.id`, `id#h` or `id.id#h`, where each `id` is a lowercase letter
followed by identifier characters and `h` is exactly 8 lowercase hexadecimal
digits; and every UpperIdent token that Scan returns has a literal with at most
one `.` and no `#`. -/
theorem Scan_identifier_shapes (input : List Char) (n : Nat) (toks : List Token)
    (s : Scanner) (tok : Token) (s1 : Scanner)
    (hn : Scanner.scanN n (NewScanner input) = .ret toks s) (hs : s.Scan = .ret tok s1) :
    (tok.Token = ItemLowerIdent → s1.Err = none → IsLowerLiteral tok.Literal.data) ∧
      (tok.Token = ItemUpperIdent →
        tok.Literal.data.count '.' ≤ 1 ∧ '#' ∉ tok.Literal.data) := by
  obtain ⟨l1, h1, -⟩ := scanN_faces n (NewScanner input) input toks s (Or.inl rfl) hn
  obtain ⟨e, he, -⟩ := Scan_of_faces s l1 h1
  rw [he] at hs
  exact Scan_shapes l1 e tok s1 hs

/-- C18 at the third token of `a users.user#decafbad`. -/
theorem Scan_identifier_shapes_witness :
    Scanner.scanN 2 (NewScanner "a users.user#decafbad".toList) =
        .ret [⟨ItemLowerIdent, "a"⟩, ⟨ItemWhitespace, " "⟩]
          (Scanner.atInput "users.user#decafbad".toList none) ∧
      (Scanner.atInput "users.user#decafbad".toList none).Scan =
        .ret ⟨ItemLowerIdent, "users.user#decafbad"⟩ (Scanner.atInput [] none) ∧
      (((⟨ItemLowerIdent, "users.user#decafbad"⟩ : Token).Token = ItemLowerIdent →
          (Scanner.atInput [] none).Err = none →
            IsLowerLiteral (⟨ItemLowerIdent, "users.user#decafbad"⟩ : Token).Literal.data) ∧
        ((⟨ItemLowerIdent, "users.user#decafbad"⟩ : Token).Token = ItemUpperIdent →
          (⟨ItemLowerIdent, "users.user#decafbad"⟩ : Token).Literal.data.count '.' ≤ 1 ∧
            '#' ∉ (⟨ItemLowerIdent, "users.user#decafbad"⟩ : Token).Literal.data)) :=
  ⟨by decide, by decide,
    Scan_identifier_shapes "a users.user#decafbad".toList 2
      [⟨ItemLowerIdent, "a"⟩, ⟨ItemWhitespace, " "⟩]
      (Scanner.atInput "users.user#decafbad".toList none)
      ⟨ItemLowerIdent, "users.user#decafbad"⟩ (Scanner.atInput [] none) (by decide)
      (by decide)⟩

/-! ### The productions on the texts of their tests -/

theorem stopsAt_cons (cond : Int → Bool) (c : Char) (l : List Char)
    (h : cond (rune c) = false) : stopsAt cond (c :: l) = true := by
  simp [stopsAt, h]

theorem expect_of_mem (p : Parser) (items : List Item) (h : p.tok.Token ∈ items) :
    p.expect items = p.next := by
  unfold Parser.expect
  simp only [(expectErrc_spec p.tok.Token items 0).1 h, ne_eq, not_true_eq_false, if_false]

theorem next_at_end (e : Option ScanError) (tok : Token) (err : Option String)
    (log : List String) :
    Parser.next ⟨Scanner.atInput [] e, tok, err, log⟩ =
      .ret () ⟨Scanner.atInput [] e, tokEOF, err, log⟩ :=
  next_of_Scan _ _ _ (Scan_atInput_nil e) (by decide)

/-- NewIdent of a lower identifier, for a `unicode.IsLower` that is right on
ASCII. -/
theorem NewIdent_lower (f : Int → Bool)
    (hf : ∀ ch : Int, 0 ≤ ch → ch < 128 → f ch = isLowerLetter ch) (c : Char) (cs : List Char)
    (hc : isLowerLetter (rune c) = true) :
    NewIdent f (String.mk (c :: cs)) = ⟨⟨ItemLowerIdent, String.mk (c :: cs)⟩⟩ := by
  have h1 := (isLowerLetter_iff _).1 hc
  have hne : String.mk (c :: cs) ≠ "_" := by
    intro h
    have h2 : c :: cs = ['_'] := congrArg String.data h
    have h3 : c = '_' := by
      injection h2
    rw [h3] at h1
    have h4 : rune '_' = 95 := by decide
    omega
  have hfc : f (rune c) = true := by
    rw [hf _ (rune_nonneg c) (by omega)]
    exact hc
  simp only [NewIdent, firstRune, hne, if_false, hfc, if_true]

/-- The production parseBuiltinCombinatorDecl on `n ?= T;`, token by token. -/
theorem parseBuiltin_text (n T : List Char) (hn : isLcIdent n = true)
    (hT : isUcIdent T = true) (hres : upperItem (String.mk T) = ItemUpperIdent) :
    ((NewParser (n ++ " ?= ".toList ++ T ++ ";".toList)).next.andThen fun _ p =>
        p.parseBuiltinCombinatorDecl) =
      .ret { Id := ⟨⟨⟨ItemLowerIdent, String.mk n⟩⟩⟩, Result := ⟨String.mk T⟩ }
        ⟨Scanner.atInput [] none, tokEOF, none, []⟩ := by
  obtain ⟨d, ds, rfl⟩ : ∃ d ds, T = d :: ds := by
    cases T with
    | nil => simp [isUcIdent] at hT
    | cons d ds => exact ⟨d, ds, rfl⟩
  have htext : n ++ " ?= ".toList ++ (d :: ds) ++ ";".toList =
      n ++ (' ' :: '?' :: '=' :: ' ' :: (d :: ds ++ [';'])) := by
    simp
  -- the tokens
  have s0 : (NewParser (n ++ (' ' :: '?' :: '=' :: ' ' :: (d :: ds ++ [';'])))).s.Scan =
      .ret ⟨ItemLowerIdent, String.mk n⟩
        (Scanner.atInput (' ' :: '?' :: '=' :: ' ' :: (d :: ds ++ [';'])) none) := by
    show (NewScanner _).Scan = _
    rw [Scan_NewScanner]
    exact Scan_lower_plain n _ none hn (stopsAt_cons _ _ _ (by decide)) (by simp) (by simp)
  have s1 : (Scanner.atInput (' ' :: '?' :: '=' :: ' ' :: (d :: ds ++ [';'])) none).Scan =
      .ret ⟨ItemWhitespace, " "⟩
        (Scanner.atInput ('?' :: '=' :: ' ' :: (d :: ds ++ [';'])) none) :=
    Scan_whitespace_run ' ' [] _ none (by decide) (stopsAt_cons _ _ _ (by decide))
  have s2 : (Scanner.atInput ('?' :: '=' :: ' ' :: (d :: ds ++ [';'])) none).Scan =
      .ret ⟨ItemQuestionMark, "?"⟩ (Scanner.atInput ('=' :: ' ' :: (d :: ds ++ [';'])) none) :=
    Scan_punct '?' _ none (by decide) (by decide) (by decide) (by decide) (by decide)
  have s3 : (Scanner.atInput ('=' :: ' ' :: (d :: ds ++ [';'])) none).Scan =
      .ret ⟨ItemEquals, "="⟩ (Scanner.atInput (' ' :: (d :: ds ++ [';'])) none) :=
    Scan_punct '=' _ none (by decide) (by decide) (by decide) (by decide) (by decide)
  have s4 : (Scanner.atInput (' ' :: (d :: ds ++ [';'])) none).Scan =
      .ret ⟨ItemWhitespace, " "⟩ (Scanner.atInput (d :: ds ++ [';']) none) := by
    have hstop : stopsAt isWhitespace (d :: ds ++ [';']) = true := by
      have hu := (isUpperLetter_iff _).1 (isUcIdent_cases d ds hT).1
      have : isWhitespace (rune d) = false := by
        rw [← Bool.not_eq_true, isWhitespace_iff]
        omega
      simp [stopsAt, this]
    exact Scan_whitespace_run ' ' [] _ none (by decide) hstop
  have s5 : (Scanner.atInput (d :: ds ++ [';']) none).Scan =
      .ret ⟨ItemUpperIdent, String.mk (d :: ds)⟩ (Scanner.atInput [';'] none) := by
    rw [Scan_upper_run d ds [';'] none hT (by decide), hres]
  have s6 : (Scanner.atInput [';'] none).Scan =
      .ret ⟨ItemSemicolon, ";"⟩ (Scanner.atInput [] none) := by decide
  -- the steps of the parser
  have n0 := next_of_Scan (NewParser (n ++ (' ' :: '?' :: '=' :: ' ' :: (d :: ds ++ [';']))))
    _ _ s0 (by simp)
  have n1 := next_of_Scan_whitespace
    ⟨Scanner.atInput (' ' :: '?' :: '=' :: ' ' :: (d :: ds ++ [';'])) none,
      ⟨ItemLowerIdent, String.mk n⟩, none, []⟩ _ _ _ _ s1 rfl s2 (by decide)
  have n2 := next_of_Scan
    ⟨Scanner.atInput ('=' :: ' ' :: (d :: ds ++ [';'])) none, ⟨ItemQuestionMark, "?"⟩, none, []⟩
    _ _ s3 (by decide)
  have n3 := next_of_Scan_whitespace
    ⟨Scanner.atInput (' ' :: (d :: ds ++ [';'])) none, ⟨ItemEquals, "="⟩, none, []⟩
    _ _ _ _ s4 rfl s5 (by simp)
  have n4 := next_of_Scan
    ⟨Scanner.atInput [';'] none, ⟨ItemUpperIdent, String.mk (d :: ds)⟩, none, []⟩
    _ _ s6 (by decide)
  have n5 := next_at_end none ⟨ItemSemicolon, ";"⟩ none []
  rw [htext, n0]
  simp only [Outcome.andThen, NewParser, Parser.parseBuiltinCombinatorDecl,
    Parser.parseFullCombinatorId, Parser.parseBoxedTypeIdent, Parser.expectSemi]
  rw [expect_of_mem _ _ (by simp), n1]
  simp only [Outcome.andThen]
  rw [expect_of_mem _ _ (by simp), n2]
  simp only [Outcome.andThen]
  rw [expect_of_mem _ _ (by simp), n3]
  simp only [Outcome.andThen]
  rw [expect_of_mem _ _ (by simp), n4]
  simp only [Outcome.andThen, ne_eq, not_true_eq_false, if_false]
  rw [n5]

/-- The production parseBoxedTypeIdent on the text of an upper identifier. -/
theorem parseBoxed_text (T : List Char) (hT : isUcIdent T = true)
    (hres : upperItem (String.mk T) = ItemUpperIdent) :
    ((NewParser T).next.andThen fun _ p => p.parseBoxedTypeIdent) =
      .ret ⟨String.mk T⟩ ⟨Scanner.atInput [] none, tokEOF, none, []⟩ := by
  obtain ⟨d, ds, rfl⟩ : ∃ d ds, T = d :: ds := by
    cases T with
    | nil => simp [isUcIdent] at hT
    | cons d ds => exact ⟨d, ds, rfl⟩
  have s0 : (NewParser (d :: ds)).s.Scan =
      .ret ⟨ItemUpperIdent, String.mk (d :: ds)⟩ (Scanner.atInput [] none) := by
    show (NewScanner _).Scan = _
    have := Scan_upper_run d ds [] none hT (by decide)
    rw [List.append_nil] at this
    rw [Scan_NewScanner, this, hres]
  have n0 := next_of_Scan (NewParser (d :: ds)) _ _ s0 (by simp)
  have n1 := next_at_end none ⟨ItemUpperIdent, String.mk (d :: ds)⟩ none []
  rw [n0]
  simp only [Outcome.andThen, NewParser, Parser.parseBoxedTypeIdent]
  rw [expect_of_mem _ _ (by simp), n1]

/-- C19: for every lowercase identifier `n` and every uppercase identifier `T`
other than the reserved words New, Final and Empty, parseBuiltinCombinatorDecl
on the text `n ?= T;` (after the initial next) returns
BuiltinCombDecl{FullCombinatorId{NewIdent(n)}, BoxedTypeIdent{T}} and leaves
Err() nil; likewise parseBoxedTypeIdent on the text `T` returns
BoxedTypeIdent{T} with Err() nil. The function `f` stands for
`unicode.IsLower`, of which only its values on ASCII matter. -/
theorem parseBuiltinCombinatorDecl_on_text (f : Int → Bool)
    (hf : ∀ ch : Int, 0 ≤ ch → ch < 128 → f ch = isLowerLetter ch) (n T : List Char)
    (hn : isLcIdent n = true) (hT : isUcIdent T = true) (hNew : String.mk T ≠ "New")
    (hFinal : String.mk T ≠ "Final") (hEmpty : String.mk T ≠ "Empty") :
    (∃ p, ((NewParser (n ++ " ?= ".toList ++ T ++ ";".toList)).next.andThen fun _ p =>
          p.parseBuiltinCombinatorDecl) =
        .ret { Id := ⟨NewIdent f (String.mk n)⟩, Result := ⟨String.mk T⟩ } p ∧
        p.Err = none ∧ p.tok = ⟨ItemEOF, ""⟩) ∧
      (∃ p, ((NewParser T).next.andThen fun _ p => p.parseBoxedTypeIdent) =
        .ret ⟨String.mk T⟩ p ∧ p.Err = none ∧ p.tok = ⟨ItemEOF, ""⟩) := by
  have hres : upperItem (String.mk T) = ItemUpperIdent :=
    (upperItem_iff _).2.2.2.2 ⟨hNew, hFinal, hEmpty⟩
  obtain ⟨c, cs, rfl, hc, -⟩ := isLcIdent_cases n hn
  refine ⟨⟨⟨Scanner.atInput [] none, tokEOF, none, []⟩, ?_, rfl, rfl⟩,
    ⟨⟨Scanner.atInput [] none, tokEOF, none, []⟩, parseBoxed_text T hT hres, rfl, rfl⟩⟩
  rw [parseBuiltin_text (c :: cs) T hn hT hres, NewIdent_lower f hf c cs hc]

/-- C19 on the text `int ?= Int;` and the text `Int`. -/
theorem parseBuiltinCombinatorDecl_on_text_witness :
    (∀ ch : Int, 0 ≤ ch → ch < 128 → isLowerLetter ch = isLowerLetter ch) ∧
      isLcIdent "int".toList = true ∧ isUcIdent "Int".toList = true ∧
      String.mk "Int".toList ≠ "New" ∧ String.mk "Int".toList ≠ "Final" ∧
      String.mk "Int".toList ≠ "Empty" ∧
      (∃ p, ((NewParser ("int".toList ++ " ?= ".toList ++ "Int".toList ++
              ";".toList)).next.andThen fun _ p => p.parseBuiltinCombinatorDecl) =
          .ret { Id := ⟨NewIdent isLowerLetter (String.mk "int".toList)⟩,
                 Result := ⟨String.mk "Int".toList⟩ } p ∧
          p.Err = none ∧ p.tok = ⟨ItemEOF, ""⟩) ∧
      (∃ p, ((NewParser "Int".toList).next.andThen fun _ p => p.parseBoxedTypeIdent) =
        .ret ⟨String.mk "Int".toList⟩ p ∧ p.Err = none ∧ p.tok = ⟨ItemEOF, ""⟩) :=
  ⟨fun _ _ _ => rfl, by decide, by decide, by decide, by decide, by decide,
    parseBuiltinCombinatorDecl_on_text isLowerLetter (fun _ _ _ => rfl) "int".toList
      "Int".toList (by decide) (by decide) (by decide) (by decide) (by decide)⟩

/-! ### parseTypeIdent -/

/-- When the loop of `next` returns, it has touched neither the error nor its
history, and the look-ahead token is not whitespace. -/
theorem nextLoop_ret (fuel : Nat) :
    ∀ (p p1 : Parser), Parser.nextLoop fuel p = .ret () p1 →
      p1.err = p.err ∧ p1.setErrLog = p.setErrLog ∧ p1.tok.Token ≠ ItemWhitespace := by
  induction fuel with
  | zero => intro p p1 h; cases h
  | succ n ih =>
    intro p p1 h
    rw [Parser.nextLoop] at h
    cases hs : p.s.Scan with
    | ret tok s1 =>
      rw [hs] at h
      simp only at h
      split at h
      · rename_i hw
        cases h
        exact ⟨rfl, rfl, hw⟩
      · have h2 := ih _ p1 h
        exact h2
    | fatal m st => exact m.elim
    | panicked m st => rw [hs] at h; cases h
    | outOfFuel st => rw [hs] at h; cases h

theorem nextLoop_not_fatal (fuel : Nat) :
    ∀ (p p1 : Parser) (m : LogMsg Token Item), Parser.nextLoop fuel p ≠ .fatal m p1 := by
  induction fuel with
  | zero => intro p p1 m h; cases h
  | succ n ih =>
    intro p p1 m h
    rw [Parser.nextLoop] at h
    cases hs : p.s.Scan with
    | ret tok s1 =>
      rw [hs] at h
      simp only at h
      split at h
      · cases h
      · exact ih _ p1 m h
    | fatal m st => exact m.elim
    | panicked m st => rw [hs] at h; cases h
    | outOfFuel st => rw [hs] at h; cases h

/-- On an input without `/` the method `next` returns. -/
theorem next_returns (p : Parser) (l : List Char) (h : p.s.Faces l) (hs : '/' ∉ l) :
    ∃ p1, p.next = .ret () p1 := by
  have he := next_ends p l h
  cases hn : p.next with
  | ret a p1 => exact ⟨p1, rfl⟩
  | fatal m p1 => exact absurd hn (nextLoop_not_fatal _ p p1 m)
  | panicked m p1 =>
    rw [hn] at he
    exact absurd he hs
  | outOfFuel p1 =>
    rw [hn] at he
    exact he.elim

theorem Scan_returns_of_head (c : Char) (cs : List Char) (e : Option ScanError)
    (hc : c ≠ '/') : ∃ tok s1, (Scanner.atInput (c :: cs) e).Scan = .ret tok s1 := by
  rw [Scan_atInput_cons]
  split
  · exact ⟨_, _, rfl⟩
  · split
    · exact ⟨_, _, rfl⟩
    · split
      · exact ⟨_, _, rfl⟩
      · unfold Scanner.scanDefault
        have hne : ¬ rune c = rune '/' := fun h => hc (rune_injective h)
        rw [if_neg (rune_ne_eof c), if_neg hne]
        split <;> exact ⟨_, _, rfl⟩

theorem next_of_Scan_panic (p : Parser) (m : String) (st : Scanner)
    (h : p.s.Scan = .panicked m st) : p.next = .panicked m { p with s := st } := by
  rw [Parser.next, Scanner.fuel, Parser.nextLoop, h]

theorem next_of_Scan_whitespace_panic (p : Parser) (w : Token) (s1 : Scanner) (m : String)
    (st : Scanner) (h1 : p.s.Scan = .ret w s1) (hw : w.Token = ItemWhitespace)
    (h2 : s1.Scan = .panicked m st) :
    p.next = .panicked m { p with s := st, tok := w } := by
  rw [Parser.next, Scanner.fuel, Parser.nextLoop, h1]
  simp only [hw, ne_eq, not_true_eq_false, if_false]
  rw [Parser.nextLoop]
  simp only [h2]

/-- One call of Scan where no whitespace is ahead: it panics at a `/` and
returns a token that is not whitespace otherwise. -/
theorem Scan_no_whitespace (l : List Char) (e : Option ScanError)
    (hstop : stopsAt isWhitespace l = true) :
    (l.head? ≠ some '/' →
        ∃ tok s1, (Scanner.atInput l e).Scan = .ret tok s1 ∧ tok.Token ≠ ItemWhitespace) ∧
      (l.head? = some '/' → ∃ st, (Scanner.atInput l e).Scan = .panicked "unreachable" st) := by
  cases l with
  | nil =>
    refine ⟨fun _ => ⟨tokEOF, _, Scan_atInput_nil e, by decide⟩, fun h => by cases h⟩
  | cons c cs =>
    have hw : isWhitespace (rune c) = false := by
      simpa [stopsAt] using hstop
    constructor
    · intro hne
      have hc : c ≠ '/' := fun h => hne (by rw [h]; rfl)
      obtain ⟨tok, s1, hs⟩ := Scan_returns_of_head c cs e hc
      exact ⟨tok, s1, hs, (Scan_cons_kind c cs e tok s1 hs).2 hw⟩
    · intro h
      have hc : c = '/' := by
        simpa using h
      subst hc
      exact ⟨_, Scan_slash cs e⟩

/-- The method `next` on a scanner that faces `l`: it returns unless the next
rune that is not whitespace is `/`, where Scan panics. -/
theorem next_of_faces (p : Parser) (l : List Char) (hf : p.s.Faces l) :
    (slashAhead l = false → ∃ p1, p.next = .ret () p1) ∧
      (slashAhead l = true → ∃ p1, p.next = .panicked "unreachable" p1) := by
  obtain ⟨e, he, -⟩ := Scan_of_faces p.s l hf
  have hdrop := stopsAt_dropWhile isWhitespace l
  have hsl : slashAhead l =
      decide ((l.dropWhile fun c => isWhitespace (rune c)).head? = some '/') := rfl
  cases l with
  | nil =>
    refine ⟨fun _ => ⟨_, next_of_Scan p tokEOF _ (he.trans (Scan_atInput_nil e)) (by decide)⟩,
      fun h => by cases h⟩
  | cons c cs =>
    by_cases hw : isWhitespace (rune c) = true
    · have h1 : p.s.Scan = .ret
          ⟨ItemWhitespace, String.mk ((c :: cs).takeWhile fun c => isWhitespace (rune c))⟩
          (Scanner.atInput ((c :: cs).dropWhile fun c => isWhitespace (rune c)) e) := by
        rw [he, Scan_atInput_cons, if_pos hw, scanWhitespace_eq]
      obtain ⟨hret, hpanic⟩ := Scan_no_whitespace _ e hdrop
      constructor
      · intro h
        rw [hsl, decide_eq_false_iff_not] at h
        obtain ⟨tok, s2, h2, hn⟩ := hret h
        exact ⟨_, next_of_Scan_whitespace p _ tok _ s2 h1 rfl h2 hn⟩
      · intro h
        rw [hsl, decide_eq_true_eq] at h
        obtain ⟨st, h2⟩ := hpanic h
        exact ⟨_, next_of_Scan_whitespace_panic p _ _ _ st h1 rfl h2⟩
    · have hd : ((c :: cs).dropWhile fun c => isWhitespace (rune c)) = c :: cs := by
        simp [List.dropWhile, hw]
      rw [hd] at hsl hdrop
      obtain ⟨hret, hpanic⟩ := Scan_no_whitespace _ e hdrop
      constructor
      · intro h
        rw [hsl, decide_eq_false_iff_not] at h
        obtain ⟨tok, s2, h2, hn⟩ := hret h
        exact ⟨_, next_of_Scan p tok s2 (he.trans h2) hn⟩
      · intro h
        rw [hsl, decide_eq_true_eq] at h
        obtain ⟨st, h2⟩ := hpanic h
        exact ⟨_, next_of_Scan_panic p _ st (he.trans h2)⟩

/-- Without a `/` in the input no `/` is ahead. -/
theorem slashAhead_of_not_mem (l : List Char) (h : '/' ∉ l) : slashAhead l = false := by
  unfold slashAhead
  rw [decide_eq_false_iff_not]
  intro hh
  exact h ((List.dropWhile_suffix _).subset (List.mem_of_mem_head? hh))

theorem parseTypeIdent_eq (p : Parser) (h : isTypeIdentToken p.tok = true) :
    p.parseTypeIdent = p.next.andThen fun _ p1 => .ret ⟨p.tok.Literal⟩ p1 := by
  simp only [isTypeIdentToken, Bool.or_eq_true, Bool.and_eq_true, decide_eq_true_eq,
    Bool.not_eq_true'] at h
  have hmem : p.tok.Token ∈ [ItemUpperIdent, ItemLowerIdent, ItemHash] := by
    rcases h with (h | h) | h
    · simp [h]
    · simp [h.1]
    · simp [h]
  have hfull : ¬ (p.tok.Token = ItemLowerIdent ∧ p.tok.HasName = true) := by
    rintro ⟨h1, h2⟩
    rcases h with (h | h) | h
    · rw [h1] at h
      cases h
    · rw [h.2] at h2
      cases h2
    · rw [h1] at h
      cases h
  unfold Parser.parseTypeIdent
  simp only [hfull, if_false, expect_of_mem p _ hmem]

/-- The production parseTypeIdent on a text that is one token. -/
theorem parseTypeIdent_text (text : List Char) (tok : Token)
    (hscan : (NewScanner text).Scan = .ret tok (Scanner.atInput [] none))
    (hk : isTypeIdentToken tok = true) :
    ((NewParser text).next.andThen fun _ p => p.parseTypeIdent) =
      .ret ⟨tok.Literal⟩ ⟨Scanner.atInput [] none, tokEOF, none, []⟩ := by
  have hw : tok.Token ≠ ItemWhitespace := by
    intro hw
    simp [isTypeIdentToken, hw, Token.HasName] at hk
  have n0 := next_of_Scan (NewParser text) tok _ hscan hw
  rw [n0]
  simp only [Outcome.andThen, NewParser]
  rw [parseTypeIdent_eq _ hk, next_at_end]
  rfl

theorem isTypeIdentToken_of_no_hash (k : Item) (lit : String)
    (hk : k = ItemUpperIdent ∨ k = ItemLowerIdent ∨ k = ItemHash) (h : '#' ∉ lit.data) :
    isTypeIdentToken ⟨k, lit⟩ = true := by
  have hn : Token.HasName ⟨k, lit⟩ = false := by
    simp [Token.HasName, stringsSplit_not_mem '#' lit.data h]
  rcases hk with hk | hk | hk
  · subst hk
    simp [isTypeIdentToken]
  · subst hk
    simp [isTypeIdentToken, hn]
  · subst hk
    simp [isTypeIdentToken]

/-- C20, refuted as stated: with the upper identifier `User` as current token
and ` /` behind it, parseTypeIdent does not return: its `expect` advances with
`next`, and Scan panics at the `/`. -/
theorem parseTypeIdent_slash_panics :
    (NewParser "User /".toList).next =
        .ret () ⟨Scanner.atInput " /".toList none, ⟨ItemUpperIdent, "User"⟩, none, []⟩ ∧
      Parser.parseTypeIdent
          ⟨Scanner.atInput " /".toList none, ⟨ItemUpperIdent, "User"⟩, none, []⟩ =
        .panicked "unreachable"
          ⟨Scanner.atInput [] none, ⟨ItemWhitespace, " "⟩, none, []⟩ := by
  decide

/-- C20, amended. On a current token that is an upper identifier, a lower
identifier without a signature, or `#`, parseTypeIdent is `next` followed by
the return of TypeIdent with that token's literal. Unless the next rune of the
input that is not whitespace is `/`, it returns that TypeIdent, Err() is what
it was and the look-ahead is the next token that is not whitespace; on a text
that is one such token it returns at the end of the input with Err() nil.
Tokens of the first two kinds whose literal has no `#` are among them, whether
namespaced or not. On a lower identifier with a name after `#` it ends in
`error` with `got lc-ident-full, expected lc-ident-ns`. -/
theorem parseTypeIdent_spec :
    (∀ p : Parser, isTypeIdentToken p.tok = true →
      p.parseTypeIdent = p.next.andThen fun _ p1 => .ret ⟨p.tok.Literal⟩ p1) ∧
    (∀ (p : Parser) (l : List Char), isTypeIdentToken p.tok = true → p.s.Faces l →
      slashAhead l = false →
        ∃ p1, p.parseTypeIdent = .ret ⟨p.tok.Literal⟩ p1 ∧ p.next = .ret () p1 ∧
          p1.Err = p.Err ∧ p1.tok.Token ≠ ItemWhitespace) ∧
    (∀ (text : List Char) (tok : Token),
      (NewScanner text).Scan = .ret tok (Scanner.atInput [] none) →
      isTypeIdentToken tok = true →
      ((NewParser text).next.andThen fun _ p => p.parseTypeIdent) =
        .ret ⟨tok.Literal⟩ ⟨Scanner.atInput [] none, tokEOF, none, []⟩) ∧
    (∀ (k : Item) (lit : String), k = ItemUpperIdent ∨ k = ItemLowerIdent ∨ k = ItemHash →
      '#' ∉ lit.data → isTypeIdentToken ⟨k, lit⟩ = true) ∧
    (∀ p : Parser, p.tok.Token = ItemLowerIdent → p.tok.HasName = true →
      p.parseTypeIdent = .fatal (.text "got lc-ident-full, expected lc-ident-ns") p) := by
  refine ⟨parseTypeIdent_eq, ?_, parseTypeIdent_text, isTypeIdentToken_of_no_hash, ?_⟩
  · intro p l hk hf hs
    obtain ⟨p1, hn⟩ := (next_of_faces p l hf).1 hs
    have hr := nextLoop_ret _ p p1 hn
    refine ⟨p1, ?_, hn, hr.1, hr.2.2⟩
    rw [parseTypeIdent_eq p hk, hn]
    rfl
  · intro p h1 h2
    unfold Parser.parseTypeIdent
    simp only [h1, h2, and_self, if_true, Parser.error]

/-- C20, amended, on the texts `users.user` and `#`, on the current token
`User` with ` ; // c` behind it, and on the current token `user#decafbad`. -/
theorem parseTypeIdent_spec_witness :
    (((NewParser "users.user".toList).next.andThen fun _ p => p.parseTypeIdent) =
        .ret ⟨"users.user"⟩ ⟨Scanner.atInput [] none, tokEOF, none, []⟩) ∧
      (((NewParser "#".toList).next.andThen fun _ p => p.parseTypeIdent) =
        .ret ⟨"#"⟩ ⟨Scanner.atInput [] none, tokEOF, none, []⟩) ∧
      (∃ p1,
        Parser.parseTypeIdent
            ⟨Scanner.atInput " ; // c".toList none, ⟨ItemUpperIdent, "User"⟩, none, []⟩ =
          .ret ⟨"User"⟩ p1 ∧
        Parser.next
            ⟨Scanner.atInput " ; // c".toList none, ⟨ItemUpperIdent, "User"⟩, none, []⟩ =
          .ret () p1 ∧
        p1.Err = none ∧ p1.tok.Token ≠ ItemWhitespace) ∧
      Parser.parseTypeIdent
          ⟨Scanner.atInput " ; // c".toList none, ⟨ItemUpperIdent, "User"⟩, none, []⟩ =
        .ret ⟨"User"⟩ ⟨Scanner.atInput " // c".toList none, ⟨ItemSemicolon, ";"⟩, none, []⟩ ∧
      (Parser.parseTypeIdent ⟨Scanner.atInput [] none, ⟨ItemLowerIdent, "user#decafbad"⟩, none, []⟩ =
        .fatal (.text "got lc-ident-full, expected lc-ident-ns")
          ⟨Scanner.atInput [] none, ⟨ItemLowerIdent, "user#decafbad"⟩, none, []⟩) :=
  ⟨parseTypeIdent_spec.2.2.1 "users.user".toList ⟨ItemLowerIdent, "users.user"⟩
      (by decide) (by decide),
    parseTypeIdent_spec.2.2.1 "#".toList ⟨ItemHash, "#"⟩ (by decide) (by decide),
    parseTypeIdent_spec.2.1
      ⟨Scanner.atInput " ; // c".toList none, ⟨ItemUpperIdent, "User"⟩, none, []⟩
      " ; // c".toList (by decide) (Or.inr ⟨none, rfl⟩) (by decide),
    by decide,
    parseTypeIdent_spec.2.2.2.2
      ⟨Scanner.atInput [] none, ⟨ItemLowerIdent, "user#decafbad"⟩, none, []⟩ (by decide)
      (by decide)⟩

/-! ### parseCombinatorId and parseFullCombinatorId -/

/-- Scan on a text that is a lower identifier of one of the four shapes. -/
theorem Scan_lowerLiteral (text : List Char) (h : IsLowerLiteral text) :
    (NewScanner text).Scan =
      .ret ⟨ItemLowerIdent, String.mk text⟩ (Scanner.atInput [] none) := by
  obtain ⟨name, hname, h | ⟨sig, hlen, hhex, h⟩⟩ := h
  · subst h
    rw [Scan_NewScanner]
    rcases isLowerName_cases text hname with hlc | ⟨ns, id, rfl, hns, hid⟩
    · have h1 := Scan_lower_plain text [] none hlc rfl (by simp) (by simp)
      rw [List.append_nil] at h1
      exact h1
    · have h1 := Scan_lower_ns_lower ns id [] none hns hid rfl
      rw [List.append_nil] at h1
      rw [h1, scanIdentFull_of_not_hash _ _ (atInput_ch_ne_of_head [] none '#' (by simp))]
  · subst h
    obtain ⟨e1, h1, h2, -⟩ := Scan_lowerName_hash name sig hname
    have hsig : isSignature sig = true :=
      (isSignature_iff sig).2 ⟨by omega, fun c hc => hhex c (List.mem_of_mem_take hc)⟩
    rw [h1, h2 hsig]
    have ht : sig.take 8 = sig := List.take_of_length_le (by omega)
    have hd : sig.drop 8 = [] := List.drop_of_length_le (by omega)
    have hr : 8 - sig.length = 0 := by omega
    rw [ht, hd, hr]
    simp

theorem IsLowerLiteral_head (text : List Char) (h : IsLowerLiteral text) :
    ∃ c cs, text = c :: cs ∧ isLowerLetter (rune c) = true := by
  obtain ⟨name, hname, h | ⟨sig, -, -, h⟩⟩ := h
  · subst h
    exact isLowerName_head text hname
  · obtain ⟨c, cs, rfl, hc⟩ := isLowerName_head name hname
    exact ⟨c, cs ++ '#' :: sig, by rw [h]; rfl, hc⟩

theorem NewIdent_lowerLiteral (f : Int → Bool)
    (hf : ∀ ch : Int, 0 ≤ ch → ch < 128 → f ch = isLowerLetter ch) (text : List Char)
    (h : IsLowerLiteral text) :
    NewIdent f (String.mk text) = ⟨⟨ItemLowerIdent, String.mk text⟩⟩ := by
  obtain ⟨c, cs, rfl, hc⟩ := IsLowerLiteral_head text h
  exact NewIdent_lower f hf c cs hc

theorem NewIdent_underscore (f : Int → Bool) : NewIdent f "_" = ⟨⟨ItemUnderscore, "_"⟩⟩ := by
  simp [NewIdent]

theorem parseCombinatorId_eq (p : Parser)
    (h : p.tok.Token = ItemLowerIdent ∨ p.tok.Token = ItemUnderscore) :
    p.parseCombinatorId = p.next.andThen fun _ p1 => .ret ⟨⟨p.tok⟩⟩ p1 := by
  have hmem : p.tok.Token ∈ [ItemLowerIdent, ItemUnderscore] := by
    rcases h with h | h <;> simp [h]
  unfold Parser.parseCombinatorId
  simp only [expect_of_mem p _ hmem]

theorem parseFullCombinatorId_eq (p : Parser)
    (h : p.tok.Token = ItemLowerIdent ∨ p.tok.Token = ItemUnderscore) :
    p.parseFullCombinatorId = p.next.andThen fun _ p1 => .ret ⟨⟨p.tok⟩⟩ p1 := by
  have hmem : p.tok.Token ∈ [ItemLowerIdent, ItemUnderscore] := by
    rcases h with h | h <;> simp [h]
  unfold Parser.parseFullCombinatorId
  simp only [expect_of_mem p _ hmem]

/-- The two productions on a text that is one token. -/
theorem parseCombinatorId_text (text : List Char) (tok : Token)
    (hscan : (NewScanner text).Scan = .ret tok (Scanner.atInput [] none))
    (hk : tok.Token = ItemLowerIdent ∨ tok.Token = ItemUnderscore) :
    ((NewParser text).next.andThen fun _ p => p.parseCombinatorId) =
        .ret ⟨⟨tok⟩⟩ ⟨Scanner.atInput [] none, tokEOF, none, []⟩ ∧
      ((NewParser text).next.andThen fun _ p => p.parseFullCombinatorId) =
        .ret ⟨⟨tok⟩⟩ ⟨Scanner.atInput [] none, tokEOF, none, []⟩ := by
  have hw : tok.Token ≠ ItemWhitespace := by
    intro hw
    rcases hk with hk | hk <;> rw [hw] at hk <;> cases hk
  have n0 := next_of_Scan (NewParser text) tok _ hscan hw
  rw [n0]
  simp only [Outcome.andThen, NewParser]
  constructor
  · rw [parseCombinatorId_eq _ hk, next_at_end]
    rfl
  · rw [parseFullCombinatorId_eq _ hk, next_at_end]
    rfl

theorem isLowerName_no_hash (name : List Char) (h : isLowerName name = true) :
    '#' ∉ name := by
  rcases isLowerName_cases name h with hlc | ⟨ns, id, rfl, hns, hid⟩
  · obtain ⟨c, cs, rfl, -, hall⟩ := isLcIdent_cases name hlc
    exact (not_mem_of_identChars _ hall).2
  · obtain ⟨c, cs, hce, -, hall⟩ := isLcIdent_cases ns hns
    obtain ⟨d, ds, hde, -, hall2⟩ := isLcIdent_cases id hid
    rw [← hce] at hall
    rw [← hde] at hall2
    have h1 := (not_mem_of_identChars _ hall).2
    have h2 := (not_mem_of_identChars _ hall2).2
    intro hm
    rcases List.mem_append.1 hm with hm | hm
    · exact h1 hm
    · rcases List.mem_cons.1 hm with hm | hm
      · cases hm
      · exact h2 hm

theorem HasName_of_no_hash (k : Item) (lit : String) (h : '#' ∉ lit.data) :
    Token.HasName ⟨k, lit⟩ = false := by
  simp [Token.HasName, stringsSplit_not_mem '#' lit.data h]

/-- Scan on a text that is a lower identifier without a signature. -/
theorem Scan_lowerName (text : List Char) (h : isLowerName text = true) :
    (NewScanner text).Scan =
        .ret ⟨ItemLowerIdent, String.mk text⟩ (Scanner.atInput [] none) ∧
      Token.HasName ⟨ItemLowerIdent, String.mk text⟩ = false :=
  ⟨Scan_lowerLiteral text ⟨text, h, Or.inl rfl⟩,
    HasName_of_no_hash _ _ (isLowerName_no_hash text h)⟩

/-- C21, refuted as stated: with the lower identifier `int` as current token
and ` /` behind it, neither production returns: `expect` advances with `next`,
and Scan panics at the `/`. -/
theorem parseCombinatorId_slash_panics :
    (NewParser "int /".toList).next =
        .ret () ⟨Scanner.atInput " /".toList none, ⟨ItemLowerIdent, "int"⟩, none, []⟩ ∧
      Parser.parseCombinatorId
          ⟨Scanner.atInput " /".toList none, ⟨ItemLowerIdent, "int"⟩, none, []⟩ =
        .panicked "unreachable"
          ⟨Scanner.atInput [] none, ⟨ItemWhitespace, " "⟩, none, []⟩ ∧
      Parser.parseFullCombinatorId
          ⟨Scanner.atInput " /".toList none, ⟨ItemLowerIdent, "int"⟩, none, []⟩ =
        .panicked "unreachable"
          ⟨Scanner.atInput [] none, ⟨ItemWhitespace, " "⟩, none, []⟩ := by
  decide

/-- C21, amended. On a current token that is a lower identifier or `_`,
parseFullCombinatorId is `next` followed by the return of the identifier that
wraps that token, and so is parseCombinatorId on a lower identifier without a
signature or `_`. Unless the next rune of the input that is not whitespace is
`/`, they return that identifier and Err() is what it was. When the token is a
lower identifier of one of the four shapes, or `_`, that identifier is NewIdent
of the token's literal. On a text that is a lower identifier of one of the four
shapes, or `_`, parseFullCombinatorId returns NewIdent of the text at the end
of the input with Err() nil, and so does parseCombinatorId on a text that is
a lower identifier without a signature, or `_`. The function `f` stands for
`unicode.IsLower`, of which only its values on ASCII matter. -/
theorem parseCombinatorId_spec (f : Int → Bool)
    (hf : ∀ ch : Int, 0 ≤ ch → ch < 128 → f ch = isLowerLetter ch) :
    (∀ p : Parser, p.tok.Token = ItemLowerIdent ∨ p.tok.Token = ItemUnderscore →
      p.parseFullCombinatorId = p.next.andThen fun _ p1 => .ret ⟨⟨p.tok⟩⟩ p1) ∧
    (∀ p : Parser,
      (p.tok.Token = ItemLowerIdent ∧ p.tok.HasName = false) ∨ p.tok.Token = ItemUnderscore →
        p.parseCombinatorId = p.next.andThen fun _ p1 => .ret ⟨⟨p.tok⟩⟩ p1) ∧
    (∀ (p : Parser) (l : List Char),
      p.tok.Token = ItemLowerIdent ∨ p.tok.Token = ItemUnderscore → p.s.Faces l →
      slashAhead l = false →
        ∃ p1, p.parseFullCombinatorId = .ret ⟨⟨p.tok⟩⟩ p1 ∧ p.next = .ret () p1 ∧
          p1.Err = p.Err ∧ p1.tok.Token ≠ ItemWhitespace) ∧
    (∀ (p : Parser) (l : List Char),
      (p.tok.Token = ItemLowerIdent ∧ p.tok.HasName = false) ∨ p.tok.Token = ItemUnderscore →
      p.s.Faces l → slashAhead l = false →
        ∃ p1, p.parseCombinatorId = .ret ⟨⟨p.tok⟩⟩ p1 ∧ p.next = .ret () p1 ∧
          p1.Err = p.Err ∧ p1.tok.Token ≠ ItemWhitespace) ∧
    (∀ tok : Token,
      (tok.Token = ItemLowerIdent ∧ IsLowerLiteral tok.Literal.data) ∨
          tok = ⟨ItemUnderscore, "_"⟩ →
        NewIdent f tok.Literal = ⟨tok⟩) ∧
    (∀ text : List Char, IsLowerLiteral text ∨ text = ['_'] →
      ((NewParser text).next.andThen fun _ p => p.parseFullCombinatorId) =
          .ret ⟨NewIdent f (String.mk text)⟩ ⟨Scanner.atInput [] none, tokEOF, none, []⟩ ∧
        (NewIdent f (String.mk text)).Name.Literal = String.mk text) ∧
    (∀ text : List Char, isLowerName text = true ∨ text = ['_'] →
      ((NewParser text).next.andThen fun _ p => p.parseCombinatorId) =
          .ret ⟨NewIdent f (String.mk text)⟩ ⟨Scanner.atInput [] none, tokEOF, none, []⟩ ∧
        (NewIdent f (String.mk text)).Name.Literal = String.mk text ∧
        (NewIdent f (String.mk text)).Name.HasName = false) := by
  have hbare : ∀ p : Parser,
      (p.tok.Token = ItemLowerIdent ∧ p.tok.HasName = false) ∨ p.tok.Token = ItemUnderscore →
        p.tok.Token = ItemLowerIdent ∨ p.tok.Token = ItemUnderscore :=
    fun p hk => hk.imp And.left id
  refine ⟨parseFullCombinatorId_eq, fun p hk => parseCombinatorId_eq p (hbare p hk),
    ?_, ?_, ?_, ?_, ?_⟩
  · intro p l hk hfaces hs
    obtain ⟨p1, hn⟩ := (next_of_faces p l hfaces).1 hs
    have hr := nextLoop_ret _ p p1 hn
    refine ⟨p1, ?_, hn, hr.1, hr.2.2⟩
    rw [parseFullCombinatorId_eq p hk, hn]
    rfl
  · intro p l hk hfaces hs
    obtain ⟨p1, hn⟩ := (next_of_faces p l hfaces).1 hs
    have hr := nextLoop_ret _ p p1 hn
    refine ⟨p1, ?_, hn, hr.1, hr.2.2⟩
    rw [parseCombinatorId_eq p (hbare p hk), hn]
    rfl
  · rintro ⟨k, lit⟩ (⟨hk, hlit⟩ | h)
    · have h1 := NewIdent_lowerLiteral f hf lit.data hlit
      simp only at hk
      rw [hk]
      exact h1
    · cases h
      exact NewIdent_underscore f
  · rintro text (h | h)
    · have h1 := parseCombinatorId_text text _ (Scan_lowerLiteral text h) (Or.inl rfl)
      rw [NewIdent_lowerLiteral f hf text h]
      exact ⟨h1.2, rfl⟩
    · subst h
      have h1 := parseCombinatorId_text ['_'] ⟨ItemUnderscore, "_"⟩ (by decide) (Or.inr rfl)
      have h2 : String.mk ['_'] = "_" := rfl
      rw [h2, NewIdent_underscore f]
      exact ⟨h1.2, rfl⟩
  · rintro text (h | h)
    · obtain ⟨hs, hname⟩ := Scan_lowerName text h
      have h1 := parseCombinatorId_text text _ hs (Or.inl rfl)
      rw [NewIdent_lowerLiteral f hf text ⟨text, h, Or.inl rfl⟩]
      exact ⟨h1.1, rfl, hname⟩
    · subst h
      have h1 := parseCombinatorId_text ['_'] ⟨ItemUnderscore, "_"⟩ (by decide) (Or.inr rfl)
      have h2 : String.mk ['_'] = "_" := rfl
      rw [h2, NewIdent_underscore f]
      exact ⟨h1.1, rfl, by decide⟩

/-- C21, amended, on the texts of the tests: `users.user#decafbad`,
`user#decafbad` and `_` for parseFullCombinatorId, `int`, `users.user` and `_`
for parseCombinatorId; and on the current token `int` with ` ? // c` behind
it. -/
theorem parseCombinatorId_spec_witness :
    (∀ ch : Int, 0 ≤ ch → ch < 128 → isLowerLetter ch = isLowerLetter ch) ∧
      (((NewParser "users.user#decafbad".toList).next.andThen fun _ p =>
            p.parseFullCombinatorId) =
          .ret ⟨NewIdent isLowerLetter "users.user#decafbad"⟩
            ⟨Scanner.atInput [] none, tokEOF, none, []⟩ ∧
        (NewIdent isLowerLetter "users.user#decafbad").Name.Literal =
          "users.user#decafbad") ∧
      (((NewParser "users.user".toList).next.andThen fun _ p => p.parseCombinatorId) =
          .ret ⟨NewIdent isLowerLetter "users.user"⟩
            ⟨Scanner.atInput [] none, tokEOF, none, []⟩ ∧
        (NewIdent isLowerLetter "users.user").Name.Literal = "users.user" ∧
        (NewIdent isLowerLetter "users.user").Name.HasName = false) ∧
      (((NewParser "_".toList).next.andThen fun _ p => p.parseCombinatorId) =
          .ret ⟨NewIdent isLowerLetter "_"⟩ ⟨Scanner.atInput [] none, tokEOF, none, []⟩ ∧
        (NewIdent isLowerLetter "_").Name.Literal = "_" ∧
        (NewIdent isLowerLetter "_").Name.HasName = false) ∧
      (∃ p1,
        Parser.parseCombinatorId
            ⟨Scanner.atInput " ? // c".toList none, ⟨ItemLowerIdent, "int"⟩, none, []⟩ =
          .ret ⟨⟨⟨ItemLowerIdent, "int"⟩⟩⟩ p1 ∧
        Parser.next
            ⟨Scanner.atInput " ? // c".toList none, ⟨ItemLowerIdent, "int"⟩, none, []⟩ =
          .ret () p1 ∧
        p1.Err = none ∧ p1.tok.Token ≠ ItemWhitespace) ∧
      ((NewParser "int".toList).next.andThen fun _ p => p.parseCombinatorId) =
        .ret ⟨⟨⟨ItemLowerIdent, "int"⟩⟩⟩ ⟨Scanner.atInput [] none, tokEOF, none, []⟩ ∧
      ((NewParser "user#decafbad".toList).next.andThen fun _ p => p.parseFullCombinatorId) =
        .ret ⟨⟨⟨ItemLowerIdent, "user#decafbad"⟩⟩⟩
          ⟨Scanner.atInput [] none, tokEOF, none, []⟩ ∧
      ((NewParser "_".toList).next.andThen fun _ p => p.parseFullCombinatorId) =
        .ret ⟨⟨⟨ItemUnderscore, "_"⟩⟩⟩ ⟨Scanner.atInput [] none, tokEOF, none, []⟩ :=
  ⟨fun _ _ _ => rfl,
    (parseCombinatorId_spec isLowerLetter (fun _ _ _ => rfl)).2.2.2.2.2.1
      "users.user#decafbad".toList
      (Or.inl ⟨"users.user".toList, by decide,
        Or.inr ⟨"decafbad".toList, by decide, by decide, by decide⟩⟩),
    (parseCombinatorId_spec isLowerLetter (fun _ _ _ => rfl)).2.2.2.2.2.2
      "users.user".toList (Or.inl (by decide)),
    (parseCombinatorId_spec isLowerLetter (fun _ _ _ => rfl)).2.2.2.2.2.2 "_".toList
      (Or.inr rfl),
    (parseCombinatorId_spec isLowerLetter (fun _ _ _ => rfl)).2.2.2.1
      ⟨Scanner.atInput " ? // c".toList none, ⟨ItemLowerIdent, "int"⟩, none, []⟩
      " ? // c".toList (Or.inl ⟨rfl, by decide⟩) (Or.inr ⟨none, rfl⟩) (by decide),
    by decide, by decide, by decide⟩

/-- C22 (the code falls short of the claim): parseCombinatorId does not look
at the signature. On every current token that is a lower identifier with a
name after `#` it is `next` followed by the return of the identifier, and on
every parser state it does what parseFullCombinatorId does. On the text of a
full id, such as `user#decafbad`, it returns the CombinatorId of that
literal at the end of the input with Err() nil. -/
theorem parseCombinatorId_accepts_full_id :
    (∀ p : Parser, p.tok.Token = ItemLowerIdent → p.tok.HasName = true →
      p.parseCombinatorId = p.next.andThen fun _ p1 => .ret ⟨⟨p.tok⟩⟩ p1) ∧
    (∀ p : Parser,
      p.parseCombinatorId = p.parseFullCombinatorId.andThen fun id p1 => .ret ⟨id.Id⟩ p1) ∧
    (∀ name sig : List Char, isLowerName name = true → sig.length = 8 →
      (∀ c ∈ sig, isHexDigit (rune c) = true) →
        Token.HasName ⟨ItemLowerIdent, String.mk (name ++ '#' :: sig)⟩ = true ∧
          ((NewParser (name ++ '#' :: sig)).next.andThen fun _ p => p.parseCombinatorId) =
            .ret ⟨⟨⟨ItemLowerIdent, String.mk (name ++ '#' :: sig)⟩⟩⟩
              ⟨Scanner.atInput [] none, tokEOF, none, []⟩) ∧
    ((NewParser "user#decafbad".toList).next.andThen fun _ p => p.parseCombinatorId) =
      .ret ⟨⟨⟨ItemLowerIdent, "user#decafbad"⟩⟩⟩
        ⟨Scanner.atInput [] none, tokEOF, none, []⟩ ∧
    ((NewParser "user#decafbad".toList).next.andThen fun _ p => p.parseFullCombinatorId) =
      .ret ⟨⟨⟨ItemLowerIdent, "user#decafbad"⟩⟩⟩
        ⟨Scanner.atInput [] none, tokEOF, none, []⟩ := by
  refine ⟨fun p hk _ => parseCombinatorId_eq p (Or.inl hk), ?_, ?_, by decide, by decide⟩
  · intro p
    unfold Parser.parseCombinatorId Parser.parseFullCombinatorId
    cases p.expect [ItemLowerIdent, ItemUnderscore] <;> rfl
  · intro name sig hname hlen hhex
    constructor
    · rw [HasName_of_split ItemLowerIdent _ name sig (isLowerName_no_hash name hname) rfl]
      have hne : sig ≠ [] := by
        intro h0
        rw [h0] at hlen
        cases hlen
      simp [hne]
    · exact (parseCombinatorId_text _ _
        (Scan_lowerLiteral _ ⟨name, hname, Or.inr ⟨sig, hlen, hhex, rfl⟩⟩) (Or.inl rfl)).1

/-- C22 on the current token `users.user#decafbad` and on the text
`users.user#decafbad`. -/
theorem parseCombinatorId_accepts_full_id_witness :
    (Parser.parseCombinatorId
          ⟨Scanner.atInput [] none, ⟨ItemLowerIdent, "users.user#decafbad"⟩, none, []⟩ =
        (Parser.next
          ⟨Scanner.atInput [] none, ⟨ItemLowerIdent, "users.user#decafbad"⟩, none,
            []⟩).andThen fun _ p1 => .ret ⟨⟨⟨ItemLowerIdent, "users.user#decafbad"⟩⟩⟩ p1) ∧
      (Token.HasName
          ⟨ItemLowerIdent, String.mk ("users.user".toList ++ '#' :: "decafbad".toList)⟩ = true ∧
        ((NewParser ("users.user".toList ++ '#' :: "decafbad".toList)).next.andThen
            fun _ p => p.parseCombinatorId) =
          .ret ⟨⟨⟨ItemLowerIdent,
              String.mk ("users.user".toList ++ '#' :: "decafbad".toList)⟩⟩⟩
            ⟨Scanner.atInput [] none, tokEOF, none, []⟩) :=
  ⟨parseCombinatorId_accepts_full_id.1
      ⟨Scanner.atInput [] none, ⟨ItemLowerIdent, "users.user#decafbad"⟩, none, []⟩ rfl
      (by decide),
    parseCombinatorId_accepts_full_id.2.2.1 "users.user".toList "decafbad".toList (by decide)
      (by decide) (by decide)⟩

/-! ### Scan keeps the text of the input -/

theorem atInput_ch_of_cons (c : Char) (cs : List Char) (e : Option ScanError) :
    (Scanner.atInput (c :: cs) e).ch = rune c := rfl

theorem atInput_ch_eq_rune (l : List Char) (e : Option ScanError) (m : Char)
    (h : (Scanner.atInput l e).ch = rune m) : ∃ t, l = m :: t := by
  cases l with
  | nil => exact absurd h.symm (rune_ne_eof m)
  | cons c cs => exact ⟨cs, by rw [rune_injective h]⟩

/-- What scanIdentFull returns when no signature is read or the signature is
complete: the literal and what is left make up the buffer and the input. -/
theorem scanIdentFull_literal (l buf : List Char) (e : Option ScanError)
    (h : '#' ∉ l ∨ ((Scanner.atInput l e).scanIdentFull buf).2.Err = none) :
    ∃ l1 e1, ((Scanner.atInput l e).scanIdentFull buf).2 = Scanner.atInput l1 e1 ∧
      buf ++ l = ((Scanner.atInput l e).scanIdentFull buf).1.Literal.data ++ l1 := by
  by_cases hch : (Scanner.atInput l e).ch = rune '#'
  · obtain ⟨rest, rfl⟩ := atInput_ch_eq_rune l e '#' hch
    rcases h with h | h
    · exact absurd (List.mem_cons_self _ _) h
    · obtain ⟨h1, e1, h2, -, h4⟩ := scanIdentFull_hash rest buf e
      have hsig : isSignature rest = true := by
        by_contra hn
        rw [Bool.not_eq_true] at hn
        exact h4 hn h
      have hlen := ((isSignature_iff rest).1 hsig).1
      refine ⟨rest.drop 8, e1, h2, ?_⟩
      rw [h1, Nat.sub_eq_zero_of_le hlen]
      simp
  · rw [scanIdentFull_of_not_hash _ _ hch]
    exact ⟨l, e, rfl, rfl⟩

/-- What scanIdent returns when no signature is read or the signature is
complete: the literal and what is left make up the input. -/
theorem scanIdent_literal (l : List Char) (e : Option ScanError)
    (h : '#' ∉ l ∨ (Scanner.atInput l e).scanIdent.2.Err = none) :
    ∃ l1 e1, (Scanner.atInput l e).scanIdent.2 = Scanner.atInput l1 e1 ∧
      l = (Scanner.atInput l e).scanIdent.1.Literal.data ++ l1 := by
  have hsplit := List.takeWhile_append_dropWhile (fun c => isIdentChar (rune c)) l
  by_cases hup : isUpperLetter (Scanner.atInput l e).ch = true
  · rw [scanIdent_upper_eq l e hup]
    exact ⟨_, e, rfl, hsplit.symm⟩
  · rw [Bool.not_eq_true] at hup
    have heq := scanIdent_lower_eq l e hup
    obtain ⟨run, rest, hl, hrun, hrest⟩ : ∃ run rest, l = run ++ rest ∧
        (l.takeWhile fun c => isIdentChar (rune c)) = run ∧
        (l.dropWhile fun c => isIdentChar (rune c)) = rest := ⟨_, _, hsplit.symm, rfl, rfl⟩
    rw [hrun, hrest] at heq
    generalize (Scanner.atInput l e).scanIdent = r at h heq ⊢
    have hrest_hash : '#' ∉ l → '#' ∉ rest := fun hn hm => hn (by rw [hl]; simp [hm])
    split_ifs at heq with h1 h2 h3
    · obtain ⟨t, rfl⟩ := atInput_ch_eq_rune rest e '.' h1
      simp only [List.tail_cons] at heq
      subst heq
      refine ⟨_, e, rfl, ?_⟩
      rw [hl]
      simp [List.takeWhile_append_dropWhile]
    · obtain ⟨t, rfl⟩ := atInput_ch_eq_rune rest e '.' h1
      simp only [List.tail_cons] at heq
      subst heq
      have ht := List.takeWhile_append_dropWhile (fun c => isIdentChar (rune c)) t
      have hh : '#' ∉ (t.dropWhile fun c => isIdentChar (rune c)) ∨ _ :=
        h.imp (fun hn hm => hrest_hash hn
          (List.mem_cons_of_mem _ ((List.dropWhile_suffix _).subset hm))) id
      obtain ⟨l1, e1, h4, h5⟩ := scanIdentFull_literal _ _ e hh
      refine ⟨l1, e1, h4, ?_⟩
      rw [← h5, hl]
      simp [ht]
    · obtain ⟨t, rfl⟩ := atInput_ch_eq_rune rest e '.' h1
      simp only [List.tail_cons] at heq
      obtain ⟨e1, he1⟩ := setErr_atInput t e (.expectedLetter (Scanner.atInput t e).ch)
      rw [he1] at heq
      subst heq
      have hh : '#' ∉ t ∨ _ :=
        h.imp (fun hn hm => hrest_hash hn (List.mem_cons_of_mem _ hm)) id
      obtain ⟨l1, e2, h4, h5⟩ := scanIdentFull_literal _ _ e1 hh
      refine ⟨l1, e2, h4, ?_⟩
      rw [← h5, hl]
      simp
    · subst heq
      obtain ⟨l1, e1, h4, h5⟩ := scanIdentFull_literal _ _ e (h.imp hrest_hash id)
      exact ⟨l1, e1, h4, by rw [← h5, hl]⟩

theorem atInput_injective (l l1 : List Char) (e e1 : Option ScanError)
    (h : Scanner.atInput l e = Scanner.atInput l1 e1) : l = l1 ∧ e = e1 := by
  cases l with
  | nil =>
    cases l1 with
    | nil =>
      simp only [Scanner.atInput, Scanner.mk.injEq] at h
      exact ⟨rfl, h.2.2⟩
    | cons d ds =>
      simp only [Scanner.atInput, Scanner.mk.injEq] at h
      exact absurd h.2.1.symm (rune_ne_eof d)
  | cons c cs =>
    cases l1 with
    | nil =>
      simp only [Scanner.atInput, Scanner.mk.injEq] at h
      exact absurd h.2.1 (rune_ne_eof c)
    | cons d ds =>
      simp only [Scanner.atInput, Scanner.mk.injEq] at h
      rw [h.1, rune_injective h.2.1]
      exact ⟨rfl, h.2.2⟩

/-- On an input without `/`, `-` and `#`, the literal of the token that Scan
returns and what is left make up the input. -/
theorem Scan_literal (l : List Char) (e : Option ScanError) (hslash : '/' ∉ l)
    (hminus : '-' ∉ l) (hhash : '#' ∉ l) :
    ∃ tok l1 e1, (Scanner.atInput l e).Scan = .ret tok (Scanner.atInput l1 e1) ∧
      l = tok.Literal.data ++ l1 := by
  cases l with
  | nil => exact ⟨tokEOF, [], e, Scan_atInput_nil e, rfl⟩
  | cons c cs =>
    by_cases hw : isWhitespace (rune c) = true
    · rw [Scan_atInput_cons, if_pos hw, scanWhitespace_eq]
      exact ⟨_, _, e, rfl,
        (List.takeWhile_append_dropWhile (fun c => isWhitespace (rune c)) (c :: cs)).symm⟩
    · by_cases hl : isLetter (rune c) = true
      · obtain ⟨l1, e1, h1, h2⟩ := scanIdent_literal (c :: cs) e (Or.inl hhash)
        rw [Scan_atInput_letter c cs e hl]
        exact ⟨_, l1, e1, by rw [h1], h2⟩
      · by_cases hd : isDigit (rune c) = true
        · rw [Scan_atInput_cons, if_neg hw, if_neg hl, if_pos hd, scanNumber_eq]
          exact ⟨_, _, e, rfl,
            (List.takeWhile_append_dropWhile (fun c => isDigit (rune c)) (c :: cs)).symm⟩
        · rw [Bool.not_eq_true] at hw hl hd
          have hm : c ≠ '-' := fun h => hminus (by simp [h])
          have hs : c ≠ '/' := fun h => hslash (by simp [h])
          rw [Scan_punct c cs e hw hl hd hm hs]
          exact ⟨_, cs, e, rfl, rfl⟩

/-- On an input without `/` Scan returns, and it has consumed at least one rune
unless the input is at its end, where it returns the EOF token. -/
theorem Scan_step (l : List Char) (e : Option ScanError) (hslash : '/' ∉ l) :
    ∃ tok l1 e1, (Scanner.atInput l e).Scan = .ret tok (Scanner.atInput l1 e1) ∧ l1 <:+ l ∧
      (tok.Token = ItemEOF → l = [] ∧ tok = tokEOF ∧ l1 = []) ∧
      (tok.Token ≠ ItemEOF → l ≠ [] ∧ l1.length < l.length) ∧
      ('-' ∉ l → '#' ∉ l → l = tok.Literal.data ++ l1) := by
  have hends := Scan_atInput_ends l e
  cases hscan : (Scanner.atInput l e).Scan with
  | ret tok s1 =>
    rw [hscan] at hends
    obtain ⟨l1, e1, rfl, hsuf, h1, h2⟩ := hends
    refine ⟨tok, l1, e1, rfl, hsuf, ?_, ?_, ?_⟩
    · intro hk
      cases l with
      | nil =>
        rw [Scan_atInput_nil] at hscan
        exact ⟨rfl, (Outcome.ret.inj hscan).1.symm, h1 hk⟩
      | cons c cs => exact absurd hk (Scan_cons_kind c cs e tok _ hscan).1
    · intro hk
      refine ⟨?_, h2 hk⟩
      rintro rfl
      rw [Scan_atInput_nil] at hscan
      rw [← (Outcome.ret.inj hscan).1] at hk
      exact hk rfl
    · intro hminus hhash
      obtain ⟨tok2, l2, e2, h3, h4⟩ := Scan_literal l e hslash hminus hhash
      rw [hscan] at h3
      obtain ⟨h5, h6⟩ := Outcome.ret.inj h3
      rw [h5, (atInput_injective _ _ _ _ h6).1]
      exact h4
  | fatal m st => exact m.elim
  | panicked m st =>
    rw [hscan] at hends
    exact absurd hends hslash
  | outOfFuel st =>
    rw [hscan] at hends
    exact hends.elim

theorem scanAll_NewScanner (n : Nat) (l : List Char) :
    Scanner.scanAll (n + 1) (NewScanner l) =
      Scanner.scanAll (n + 1) (Scanner.atInput l none) := by
  rw [Scanner.scanAll, Scanner.scanAll, Scan_NewScanner]

theorem concatLiterals_cons (tok : Token) (toks : List Token) (l l1 : List Char)
    (h : concatLiterals toks = String.mk l1) (hl : l = tok.Literal.data ++ l1) :
    concatLiterals (tok :: toks) = String.mk l := by
  rw [concatLiterals, h, hl]
  apply String.ext
  simp [String.data_append]

/-- With more fuel than the input has runes, and no `/` in the input, the
calls of Scan reach the EOF token: the tokens are at most one more than the
runes, only the last is EOF, and without `-` and `#` their literals make up the
input. -/
theorem scanAll_spec (n : Nat) :
    ∀ (l : List Char) (e : Option ScanError), l.length < n → '/' ∉ l →
      ∃ toks e1, Scanner.scanAll n (Scanner.atInput l e) = .ret toks (Scanner.atInput [] e1) ∧
        toks.length ≤ l.length + 1 ∧ toks.getLast? = some tokEOF ∧
        (∀ t ∈ toks.dropLast, t.Token ≠ ItemEOF) ∧
        ('-' ∉ l → '#' ∉ l → concatLiterals toks = String.mk l) := by
  induction n with
  | zero => intro l e hlen; omega
  | succ n ih =>
    intro l e hlen hs
    obtain ⟨tok, l1, e1, hscan, hsuf, h1, h2, h3⟩ := Scan_step l e hs
    rw [Scanner.scanAll, hscan]
    simp only [Outcome.andThen]
    by_cases hk : tok.Token = ItemEOF
    · rw [if_pos hk]
      obtain ⟨rfl, rfl, rfl⟩ := h1 hk
      exact ⟨[tokEOF], e1, rfl, by simp, rfl, by simp, fun _ _ => rfl⟩
    · rw [if_neg hk]
      obtain ⟨-, hlt⟩ := h2 hk
      obtain ⟨toks, e2, ih1, ih2, ih3, ih4, ih5⟩ :=
        ih l1 e1 (by omega) (fun hm => hs (hsuf.subset hm))
      rw [ih1]
      cases toks with
      | nil => cases ih3
      | cons t ts =>
        refine ⟨tok :: t :: ts, e2, rfl, ?_, ?_, ?_, ?_⟩
        · simp only [List.length_cons] at ih2 ⊢
          omega
        · rw [List.getLast?_cons_cons]
          exact ih3
        · intro x hx
          rw [List.dropLast_cons₂, List.mem_cons] at hx
          rcases hx with rfl | hx
          · exact hk
          · exact ih4 x hx
        · intro hm hh
          exact concatLiterals_cons tok (t :: ts) l l1
            (ih5 (fun hx => hm (hsuf.subset hx)) (fun hx => hh (hsuf.subset hx))) (h3 hm hh)

/-- C23: tokenization is lossless. On every input without `/`, `-` and `#`
each call of Scan returns a token whose literal is the text it has consumed,
and the calls of Scan up to the EOF token, of which input.length + 1 suffice,
return tokens whose literals concatenated are the input. -/
theorem Scan_lossless :
    (∀ (s : Scanner) (l : List Char), s.Faces l → '/' ∉ l → '-' ∉ l → '#' ∉ l →
      ∃ tok s1 l1, s.Scan = .ret tok s1 ∧ s1.Faces l1 ∧ l = tok.Literal.data ++ l1) ∧
    (∀ input : List Char, '/' ∉ input → '-' ∉ input → '#' ∉ input →
      ∃ toks s1, Scanner.scanAll (input.length + 1) (NewScanner input) = .ret toks s1 ∧
        toks.getLast? = some ⟨ItemEOF, ""⟩ ∧ (∀ t ∈ toks.dropLast, t.Token ≠ ItemEOF) ∧
        concatLiterals toks = String.mk input) := by
  constructor
  · intro s l hf hs hm hh
    obtain ⟨e, he, -⟩ := Scan_of_faces s l hf
    obtain ⟨tok, l1, e1, h1, h2⟩ := Scan_literal l e hs hm hh
    exact ⟨tok, _, l1, he.trans h1, Or.inr ⟨e1, rfl⟩, h2⟩
  · intro input hs hm hh
    obtain ⟨toks, e1, h1, -, h3, h4, h5⟩ :=
      scanAll_spec (input.length + 1) input none (Nat.lt_succ_self _) hs
    exact ⟨toks, _, (scanAll_NewScanner _ input).trans h1, h3, h4, h5 hm hh⟩

/-- C23 on the input `users.user a.1 ? = Int;` and a newline. -/
theorem Scan_lossless_witness :
    '/' ∉ "users.user a.1 ? = Int;\n".toList ∧ '-' ∉ "users.user a.1 ? = Int;\n".toList ∧
      '#' ∉ "users.user a.1 ? = Int;\n".toList ∧
      (∃ toks s1,
        Scanner.scanAll ("users.user a.1 ? = Int;\n".toList.length + 1)
            (NewScanner "users.user a.1 ? = Int;\n".toList) = .ret toks s1 ∧
          toks.getLast? = some ⟨ItemEOF, ""⟩ ∧ (∀ t ∈ toks.dropLast, t.Token ≠ ItemEOF) ∧
          concatLiterals toks = String.mk "users.user a.1 ? = Int;\n".toList) ∧
      Scanner.scanAll 25 (NewScanner "users.user a.1 ? = Int;\n".toList) =
        .ret [⟨ItemLowerIdent, "users.user"⟩, ⟨ItemWhitespace, " "⟩, ⟨ItemLowerIdent, "a."⟩,
            ⟨ItemNatConst, "1"⟩, ⟨ItemWhitespace, " "⟩, ⟨ItemQuestionMark, "?"⟩,
            ⟨ItemWhitespace, " "⟩, ⟨ItemEquals, "="⟩, ⟨ItemWhitespace, " "⟩,
            ⟨ItemUpperIdent, "Int"⟩, ⟨ItemSemicolon, ";"⟩, ⟨ItemWhitespace, "\n"⟩,
            ⟨ItemEOF, ""⟩]
          (Scanner.atInput [] (some (.expectedLetter (rune '1')))) :=
  ⟨by decide, by decide, by decide,
    Scan_lossless.2 "users.user a.1 ? = Int;\n".toList (by decide) (by decide) (by decide),
    by decide⟩

/-- C24: the scanner always makes progress. On every input without `/` each
call of Scan returns; before the end of the input the token is not EOF and at
least one rune is consumed, at the end of the input the token is EOF. So on an
input of n runes the EOF token is returned after at most n + 1 calls of Scan;
on `;;;` it takes all four. -/
theorem Scan_progress :
    (∀ (s : Scanner) (l : List Char), s.Faces l → '/' ∉ l →
      ∃ tok s1 l1, s.Scan = .ret tok s1 ∧ s1.Faces l1 ∧ l1 <:+ l ∧
        (l ≠ [] → tok.Token ≠ ItemEOF ∧ l1.length < l.length) ∧
        (l = [] → tok = ⟨ItemEOF, ""⟩ ∧ l1 = [])) ∧
    (∀ input : List Char, '/' ∉ input →
      ∃ toks s1, Scanner.scanAll (input.length + 1) (NewScanner input) = .ret toks s1 ∧
        toks.length ≤ input.length + 1 ∧ toks.getLast? = some ⟨ItemEOF, ""⟩ ∧
        ∀ t ∈ toks.dropLast, t.Token ≠ ItemEOF) ∧
    Scanner.scanAll 4 (NewScanner ";;;".toList) =
      .ret [⟨ItemSemicolon, ";"⟩, ⟨ItemSemicolon, ";"⟩, ⟨ItemSemicolon, ";"⟩, ⟨ItemEOF, ""⟩]
        (Scanner.atInput [] none) ∧
    Scanner.scanAll 3 (NewScanner ";;;".toList) = .outOfFuel (Scanner.atInput [] none) := by
  refine ⟨?_, ?_, by decide, by decide⟩
  · intro s l hf hs
    obtain ⟨e, he, -⟩ := Scan_of_faces s l hf
    obtain ⟨tok, l1, e1, h1, hsuf, h2, h3, -⟩ := Scan_step l e hs
    refine ⟨tok, _, l1, he.trans h1, Or.inr ⟨e1, rfl⟩, hsuf, ?_, ?_⟩
    · intro hne
      have hk : tok.Token ≠ ItemEOF := fun hk => hne (h2 hk).1
      exact ⟨hk, (h3 hk).2⟩
    · intro hnil
      have hk : tok.Token = ItemEOF := by
        by_contra hk
        exact (h3 hk).1 hnil
      exact ⟨(h2 hk).2.1, (h2 hk).2.2⟩
  · intro input hs
    obtain ⟨toks, e1, h1, h2, h3, h4, -⟩ :=
      scanAll_spec (input.length + 1) input none (Nat.lt_succ_self _) hs
    exact ⟨toks, _, (scanAll_NewScanner _ input).trans h1, h2, h3, h4⟩

/-- C24 on the input `--- a#1`, of seven runes and three tokens. -/
theorem Scan_progress_witness :
    '/' ∉ "--- a#1".toList ∧
      (∃ toks s1, Scanner.scanAll ("--- a#1".toList.length + 1) (NewScanner "--- a#1".toList) =
          .ret toks s1 ∧
        toks.length ≤ "--- a#1".toList.length + 1 ∧ toks.getLast? = some ⟨ItemEOF, ""⟩ ∧
        ∀ t ∈ toks.dropLast, t.Token ≠ ItemEOF) ∧
      (NewScanner "--- a#1".toList).Faces "--- a#1".toList ∧
      (∃ tok s1 l1, (NewScanner "--- a#1".toList).Scan = .ret tok s1 ∧ s1.Faces l1 ∧
        l1 <:+ "--- a#1".toList ∧
        ("--- a#1".toList ≠ [] → tok.Token ≠ ItemEOF ∧ l1.length < "--- a#1".toList.length) ∧
        ("--- a#1".toList = [] → tok = ⟨ItemEOF, ""⟩ ∧ l1 = [])) :=
  ⟨by decide, Scan_progress.2.1 "--- a#1".toList (by decide), Or.inl rfl,
    Scan_progress.1 (NewScanner "--- a#1".toList) "--- a#1".toList (Or.inl rfl) (by decide)⟩

/-! ### NewIdent and the scanner -/

theorem punctItem_underscore (ch : Int) (h : punctItem ch = ItemUnderscore) :
    ch = rune '_' := by
  by_contra hne
  have hp : punctItem ch ≠ ItemUnderscore := by
    unfold punctItem
    refine ite_ne_of (by decide) ?_
    refine ite_ne_of (by decide) ?_
    refine ite_ne_of (by decide) ?_
    refine ite_ne_of (by decide) ?_
    refine ite_ne_of (by decide) ?_
    rw [if_neg hne]
    repeat (refine ite_ne_of (by decide) ?_)
    decide
  exact hp h

theorem NewIdent_upper (f : Int → Bool)
    (hf : ∀ ch : Int, 0 ≤ ch → ch < 128 → f ch = isLowerLetter ch) (c : Char) (cs : List Char)
    (hc : isUpperLetter (rune c) = true) :
    NewIdent f (String.mk (c :: cs)) = ⟨⟨ItemUpperIdent, String.mk (c :: cs)⟩⟩ := by
  have h1 := (isUpperLetter_iff _).1 hc
  have hne : String.mk (c :: cs) ≠ "_" := by
    intro h
    have h2 : c :: cs = ['_'] := congrArg String.data h
    have h3 : c = '_' := by
      injection h2
    rw [h3] at h1
    have h4 : rune '_' = 95 := by decide
    omega
  have hfc : f (rune c) = false := by
    rw [hf _ (rune_nonneg c) (by omega)]
    exact isUcIdent_lower_false c hc
  simp only [NewIdent, firstRune, hne, if_false, hfc, Bool.false_eq_true]

theorem faces_nil_atInput (l : List Char) (e : Option ScanError)
    (h : (Scanner.atInput l e).Faces []) : l = [] := by
  rcases h with h | ⟨e1, h⟩
  · have h1 := atInput_ch_ne_notReadYet l e
    rw [h] at h1
    exact absurd rfl h1
  · exact (atInput_injective _ _ _ _ h).1

/-- An UpperIdent token leaves scanIdent without a new error, and when the
first rune is not an uppercase letter the input has a `.`. -/
theorem scanIdent_upper_state (l : List Char) (e : Option ScanError)
    (hk : (Scanner.atInput l e).scanIdent.1.Token = ItemUpperIdent) :
    (∃ l1, (Scanner.atInput l e).scanIdent.2 = Scanner.atInput l1 e) ∧
      (isUpperLetter (Scanner.atInput l e).ch = false → '.' ∈ l) := by
  by_cases hup : isUpperLetter (Scanner.atInput l e).ch = true
  · rw [scanIdent_upper_eq l e hup]
    exact ⟨⟨_, rfl⟩, fun h => by rw [hup] at h; cases h⟩
  · rw [Bool.not_eq_true] at hup
    have heq := scanIdent_lower_eq l e hup
    generalize (Scanner.atInput l e).scanIdent = r at hk heq ⊢
    split_ifs at heq with h1 h2 h3
    · subst heq
      refine ⟨⟨_, rfl⟩, fun _ => ?_⟩
      obtain ⟨t, ht⟩ := atInput_ch_eq_rune _ e '.' h1
      have hm : '.' ∈ l.dropWhile fun c => isIdentChar (rune c) := by
        rw [ht]
        exact List.mem_cons_self _ _
      exact (List.dropWhile_suffix _).subset hm
    · subst heq
      rw [scanIdentFull_kind] at hk
      cases hk
    · subst heq
      rw [scanIdentFull_kind] at hk
      cases hk
    · subst heq
      rw [scanIdentFull_kind] at hk
      cases hk

/-- The calls of Scan that return an Underscore, LowerIdent or UpperIdent
token. -/
theorem Scan_ident_kinds (l : List Char) (e : Option ScanError) (tok : Token) (s1 : Scanner)
    (h : (Scanner.atInput l e).Scan = .ret tok s1) :
    (tok.Token = ItemUnderscore →
        ∃ cs, l = '_' :: cs ∧ tok = ⟨ItemUnderscore, "_"⟩ ∧ s1 = Scanner.atInput cs e) ∧
      (tok.Token = ItemLowerIdent ∨ tok.Token = ItemUpperIdent →
        ∃ c cs, l = c :: cs ∧ isLetter (rune c) = true ∧
          tok = (Scanner.atInput l e).scanIdent.1 ∧ s1 = (Scanner.atInput l e).scanIdent.2) := by
  cases l with
  | nil =>
    rw [Scan_atInput_nil] at h
    cases h
    exact ⟨(fun hk => by cases hk), (fun hk => by rcases hk with hk | hk <;> cases hk)⟩
  | cons c cs =>
    rw [Scan_atInput_cons] at h
    split at h
    · cases h
      rw [scanWhitespace_eq]
      exact ⟨(fun hk => by cases hk), (fun hk => by rcases hk with hk | hk <;> cases hk)⟩
    · split at h
      · rename_i hl
        cases h
        refine ⟨fun hk => ?_, fun _ => ⟨c, cs, rfl, hl, rfl, rfl⟩⟩
        have := scanIdent_kind (Scanner.atInput (c :: cs) e)
        rw [hk] at this
        simp at this
      · split at h
        · cases h
          rw [scanNumber_eq]
          exact ⟨(fun hk => by cases hk), (fun hk => by rcases hk with hk | hk <;> cases hk)⟩
        · unfold Scanner.scanDefault at h
          rw [if_neg (rune_ne_eof c)] at h
          split at h
          · cases h
          · split at h
            · cases h
              unfold Scanner.scanTripleMinus
              simp only
              split <;>
                exact ⟨(fun hk => by cases hk),
                  (fun hk => by rcases hk with hk | hk <;> cases hk)⟩
            · cases h
              refine ⟨fun hk => ?_, fun hk => ?_⟩
              · have hc : c = '_' := rune_injective (punctItem_underscore _ hk)
                subst hc
                exact ⟨cs, rfl, by decide, rfl⟩
              · rcases hk with hk | hk
                · exact absurd hk (punctItem_ne_lower _)
                · exact absurd hk (punctItem_ne_upper _)

/-- C25, refuted as stated: Scan tokenizes `users.User` as the one token
(UpperIdent, `users.User`), while NewIdent of `users.User` looks at the first
rune only: its kind is LowerIdent exactly when `unicode.IsLower` holds of `u`,
as it does. -/
theorem NewIdent_users_User :
    Scanner.scanAll 2 (NewScanner "users.User".toList) =
        .ret [⟨ItemUpperIdent, "users.User"⟩, ⟨ItemEOF, ""⟩] (Scanner.atInput [] none) ∧
      (∀ f : Int → Bool, (NewIdent f "users.User").Name.Token =
        if f (rune 'u') then ItemLowerIdent else ItemUpperIdent) ∧
      isLowerLetter (rune 'u') = true ∧
      NewIdent isLowerLetter "users.User" = ⟨⟨ItemLowerIdent, "users.User"⟩⟩ ∧
      (⟨⟨ItemLowerIdent, "users.User"⟩⟩ : Ident) ≠ ⟨⟨ItemUpperIdent, "users.User"⟩⟩ := by
  refine ⟨by decide, ?_, by decide, by decide, by decide⟩
  intro f
  have hne : ¬ ("users.User" = "_") := by decide
  have hr : firstRune "users.User" = rune 'u' := by decide
  simp only [NewIdent, hne, if_false, hr]
  split <;> rfl

/-- C25, amended: for every string that Scan tokenizes as one single token,
NewIdent of the string is the identifier of that token when the token is
Underscore, when it is a LowerIdent scanned without a lexical error, and when
it is an UpperIdent without a namespace. For a LowerIdent NewIdent always
yields the kind LowerIdent and the string as literal. For an UpperIdent the
literal is the string, but with a namespace (`ns.Name`) NewIdent yields the
kind LowerIdent. The function `f` stands for `unicode.IsLower`, of which only
its values on ASCII matter. -/
theorem NewIdent_vs_Scan (f : Int → Bool)
    (hf : ∀ ch : Int, 0 ≤ ch → ch < 128 → f ch = isLowerLetter ch) (text : List Char)
    (tok : Token) (s1 : Scanner) (hscan : (NewScanner text).Scan = .ret tok s1)
    (hall : s1.Faces []) :
    (tok.Token = ItemUnderscore → NewIdent f (String.mk text) = ⟨tok⟩) ∧
      (tok.Token = ItemLowerIdent →
        NewIdent f (String.mk text) = ⟨⟨ItemLowerIdent, String.mk text⟩⟩ ∧
          (s1.Err = none → NewIdent f (String.mk text) = ⟨tok⟩)) ∧
      (tok.Token = ItemUpperIdent →
        tok.Literal = String.mk text ∧
          ('.' ∉ text → NewIdent f (String.mk text) = ⟨tok⟩) ∧
          ('.' ∈ text → NewIdent f (String.mk text) = ⟨⟨ItemLowerIdent, String.mk text⟩⟩)) := by
  rw [Scan_NewScanner] at hscan
  obtain ⟨hU, hI⟩ := Scan_ident_kinds text none tok s1 hscan
  refine ⟨fun hk => ?_, fun hk => ?_, fun hk => ?_⟩
  · obtain ⟨cs, rfl, rfl, rfl⟩ := hU hk
    have hcs := faces_nil_atInput cs none hall
    subst hcs
    exact NewIdent_underscore f
  · obtain ⟨c, cs, rfl, hl, rfl, rfl⟩ := hI (Or.inl hk)
    have hlow : isLowerLetter (rune c) = true := by
      by_contra hn
      rw [Bool.not_eq_true] at hn
      have hup : isUpperLetter (rune c) = true := by
        simpa [isLetter, hn] using hl
      rw [scanIdent_upper_eq (c :: cs) none hup] at hk
      exact upperItem_ne_lower _ hk
    have h1 := NewIdent_lower f hf c cs hlow
    refine ⟨h1, fun herr => ?_⟩
    obtain ⟨l1, e1, h4, h5⟩ := scanIdent_literal (c :: cs) none (Or.inr herr)
    rw [h4] at hall
    rw [faces_nil_atInput l1 e1 hall, List.append_nil] at h5
    rw [h1]
    generalize (Scanner.atInput (c :: cs) none).scanIdent.1 = t at hk h5
    obtain ⟨k, lit⟩ := t
    simp only at hk h5
    rw [hk, h5]
  · obtain ⟨c, cs, rfl, hl, rfl, rfl⟩ := hI (Or.inr hk)
    obtain ⟨⟨l0, hst⟩, hdot⟩ := scanIdent_upper_state (c :: cs) none hk
    have herr : (Scanner.atInput (c :: cs) none).scanIdent.2.Err = none := by
      rw [hst]
      exact atInput_Err_none l0
    obtain ⟨l1, e1, h4, h5⟩ := scanIdent_literal (c :: cs) none (Or.inr herr)
    rw [h4] at hall
    rw [faces_nil_atInput l1 e1 hall, List.append_nil] at h5
    have hupdot : isUpperLetter (rune c) = true →
        '.' ∉ (Scanner.atInput (c :: cs) none).scanIdent.1.Literal.data := by
      intro hup
      rw [scanIdent_upper_eq (c :: cs) none hup]
      exact (not_mem_of_identChars _ (identRun_all (c :: cs))).1
    generalize (Scanner.atInput (c :: cs) none).scanIdent.1 = t at hk h5 hdot hupdot
    obtain ⟨k, lit⟩ := t
    simp only at hk h5
    subst hk
    have hlit : lit = String.mk (c :: cs) := by
      rw [h5]
    refine ⟨hlit, ?_, ?_⟩
    · intro hnd
      have hup : isUpperLetter (rune c) = true := by
        by_contra hn
        rw [Bool.not_eq_true] at hn
        exact hnd (hdot hn)
      rw [NewIdent_upper f hf c cs hup, hlit]
    · intro hd
      have hlow : isLowerLetter (rune c) = true := by
        by_contra hn
        rw [Bool.not_eq_true] at hn
        have hup : isUpperLetter (rune c) = true := by
          simpa [isLetter, hn] using hl
        have hnd := hupdot hup
        simp only at hnd
        rw [← h5] at hnd
        exact hnd hd
      exact NewIdent_lower f hf c cs hlow

/-- C25, amended, on the string `user#decafbad`. -/
theorem NewIdent_vs_Scan_witness :
    (∀ ch : Int, 0 ≤ ch → ch < 128 → isLowerLetter ch = isLowerLetter ch) ∧
      (NewScanner "user#decafbad".toList).Scan =
        .ret ⟨ItemLowerIdent, "user#decafbad"⟩ (Scanner.atInput [] none) ∧
      (Scanner.atInput [] none).Faces [] ∧
      (((⟨ItemLowerIdent, "user#decafbad"⟩ : Token).Token = ItemUnderscore →
          NewIdent isLowerLetter (String.mk "user#decafbad".toList) =
            ⟨⟨ItemLowerIdent, "user#decafbad"⟩⟩) ∧
        ((⟨ItemLowerIdent, "user#decafbad"⟩ : Token).Token = ItemLowerIdent →
          NewIdent isLowerLetter (String.mk "user#decafbad".toList) =
              ⟨⟨ItemLowerIdent, String.mk "user#decafbad".toList⟩⟩ ∧
            ((Scanner.atInput [] none).Err = none →
              NewIdent isLowerLetter (String.mk "user#decafbad".toList) =
                ⟨⟨ItemLowerIdent, "user#decafbad"⟩⟩)) ∧
        ((⟨ItemLowerIdent, "user#decafbad"⟩ : Token).Token = ItemUpperIdent →
          (⟨ItemLowerIdent, "user#decafbad"⟩ : Token).Literal =
              String.mk "user#decafbad".toList ∧
            ('.' ∉ "user#decafbad".toList →
              NewIdent isLowerLetter (String.mk "user#decafbad".toList) =
                ⟨⟨ItemLowerIdent, "user#decafbad"⟩⟩) ∧
            ('.' ∈ "user#decafbad".toList →
              NewIdent isLowerLetter (String.mk "user#decafbad".toList) =
                ⟨⟨ItemLowerIdent, String.mk "user#decafbad".toList⟩⟩))) :=
  ⟨fun _ _ _ => rfl, by decide, Or.inr ⟨none, rfl⟩,
    NewIdent_vs_Scan isLowerLetter (fun _ _ _ => rfl) "user#decafbad".toList
      ⟨ItemLowerIdent, "user#decafbad"⟩ (Scanner.atInput [] none) (by decide)
      (Or.inr ⟨none, rfl⟩)⟩

/-! ### The Program that Parse returns -/

theorem andThen_ret_inv {μ σ α β : Type} (o : Outcome μ σ α) (f : α → σ → Outcome μ σ β)
    (b : β) (st : σ) (h : o.andThen f = .ret b st) :
    ∃ a st0, o = .ret a st0 ∧ f a st0 = .ret b st := by
  cases o with
  | ret a st0 => exact ⟨a, st0, rfl, h⟩
  | fatal m st0 => cases h
  | panicked m st0 => cases h
  | outOfFuel st0 => cases h

theorem typesLoop_program (fuel : Nat) :
    ∀ (p : Parser) (prog : Program) (p1 : Parser),
      Parser.typesLoop fuel p = .ret prog p1 → prog = Program.zero := by
  induction fuel with
  | zero => intro p prog p1 h; cases h
  | succ n ih =>
    intro p prog p1 h
    rw [Parser.typesLoop] at h
    split at h
    · exact (Outcome.ret.inj h).1.symm
    · obtain ⟨_, q1, -, h1⟩ := andThen_ret_inv _ _ _ _ h
      obtain ⟨_, q2, -, h2⟩ := andThen_ret_inv _ _ _ _ h1
      exact ih _ prog p1 h2

theorem funLoop_program (fuel : Nat) :
    ∀ (p : Parser) (prog : Program) (p1 : Parser),
      Parser.funLoop fuel p = .ret prog p1 → prog = Program.zero := by
  induction fuel with
  | zero => intro p prog p1 h; cases h
  | succ n ih =>
    intro p prog p1 h
    rw [Parser.funLoop] at h
    split at h
    · exact (Outcome.ret.inj h).1.symm
    · obtain ⟨_, q1, -, h1⟩ := andThen_ret_inv _ _ _ _ h
      obtain ⟨_, q2, -, h2⟩ := andThen_ret_inv _ _ _ _ h1
      split at h2
      · split at h2
        · exact typesLoop_program n _ prog p1 h2
        · exact ih _ prog p1 h2
      · exact ih _ prog p1 h2

theorem constrLoop_program (fuel : Nat) :
    ∀ (p : Parser) (prog : Program) (p1 : Parser),
      Parser.constrLoop fuel p = .ret prog p1 → prog = Program.zero := by
  induction fuel with
  | zero => intro p prog p1 h; cases h
  | succ n ih =>
    intro p prog p1 h
    rw [Parser.constrLoop] at h
    split at h
    · exact (Outcome.ret.inj h).1.symm
    · obtain ⟨_, q1, -, h1⟩ := andThen_ret_inv _ _ _ _ h
      obtain ⟨_, q2, -, h2⟩ := andThen_ret_inv _ _ _ _ h1
      split at h2
      · split at h2
        · obtain ⟨_, q3, -, h3⟩ := andThen_ret_inv _ _ _ _ h2
          obtain ⟨_, q4, -, h4⟩ := andThen_ret_inv _ _ _ _ h3
          exact funLoop_program n _ prog p1 h4
        · exact ih _ prog p1 h2
      · exact ih _ prog p1 h2

/-- C26: the Program that Parse returns has empty Constructors, Functions and
Types, from every parser state and so for every input; Parse has no statement
that assigns to its result and parseDecl drops what the productions return. On
`int ? = Int;` the declaration is consumed, parseBuiltinCombinatorDecl returns
it, and Parse returns the empty Program. -/
theorem Parse_program_empty :
    (∀ (p : Parser) (prog : Program) (p1 : Parser), p.Parse = .ret prog p1 →
      prog.Constructors = [] ∧ prog.Functions = [] ∧ prog.Types = []) ∧
    (∀ (input : List Char) (prog : Program) (p1 : Parser),
      (NewParser input).Parse = .ret prog p1 →
        prog = { Constructors := [], Functions := [], Types := [] }) ∧
    ((NewParser "int ? = Int;".toList).next.andThen fun _ p =>
        p.parseBuiltinCombinatorDecl) =
      .ret { Id := ⟨⟨⟨ItemLowerIdent, "int"⟩⟩⟩, Result := ⟨"Int"⟩ }
        ⟨Scanner.atInput [] none, tokEOF, none, []⟩ ∧
    (NewParser "int ? = Int;".toList).Parse =
      .ret { Constructors := [], Functions := [], Types := [] }
        ⟨Scanner.atInput [] none, tokEOF, some "expected semicolon", ["expected semicolon"]⟩ ∧
    (NewParser "Vector t;\nNew x;".toList).Parse =
      .ret { Constructors := [], Functions := [], Types := [] }
        ⟨Scanner.atInput [] none, tokEOF, some "expected semicolon",
          ["expected semicolon", "unexpected token", "expected semicolon",
            "unexpected token"]⟩ := by
  have key : ∀ (p : Parser) (prog : Program) (p1 : Parser), p.Parse = .ret prog p1 →
      prog = Program.zero := by
    intro p prog p1 h
    unfold Parser.Parse at h
    obtain ⟨_, q1, -, h1⟩ := andThen_ret_inv _ _ _ _ h
    exact constrLoop_program _ _ prog p1 h1
  refine ⟨?_, fun input prog p1 h => key _ prog p1 h, by decide, by decide, by decide⟩
  intro p prog p1 h
  rw [key p prog p1 h]
  exact ⟨rfl, rfl, rfl⟩

/-- C26 on the input `int ? = Int;`. -/
theorem Parse_program_empty_witness :
    (NewParser "int ? = Int;".toList).Parse =
        .ret { Constructors := [], Functions := [], Types := [] }
          ⟨Scanner.atInput [] none, tokEOF, some "expected semicolon",
            ["expected semicolon"]⟩ ∧
      ((⟨[], [], []⟩ : Program).Constructors = [] ∧ (⟨[], [], []⟩ : Program).Functions = [] ∧
        (⟨[], [], []⟩ : Program).Types = []) :=
  ⟨by decide,
    Parse_program_empty.1 (NewParser "int ? = Int;".toList) ⟨[], [], []⟩
      ⟨Scanner.atInput [] none, tokEOF, some "expected semicolon", ["expected semicolon"]⟩
      (by decide)⟩

end TL
